import Mathlib

/-!
# A verification development for the minimal compiler

Shallow embedding of the three stages of the compiler
(`lexer.cpp`, `parser.cpp`, `codegen.cpp`) and of the driver pipeline of
`main.cpp`, followed by theorems about them.

Conventions of the embedding:

* a source text is a `List Char`, one entry per `char` of the `std::string`;
  the `<cctype>` predicates are those of the "C" locale;
* `int` fields (`line`, `column`, `labelCounter`, slot indices) are `Nat`,
  unbounded: they start at 0 or 1 and are only ever incremented;
* a C++ exception is the `error` side of `Except CompileError`;
* every `while` loop of the source is a recursive function over a fuel
  argument whose body is the loop body; the theorems establish that the fuel
  handed in by the entry points is never exhausted.
-/

namespace MiniCompiler

/-! ## lexer.h -/

/-- The `enum class TokenType` of `lexer.h`. -/
inductive TokenType where
  | LET | IF | ELSE | WHILE | RETURN
  | PLUS | MINUS | MULTIPLY | DIVIDE | ASSIGN | EQUAL | LESS | GREATER
  | LPAREN | RPAREN | LBRACE | RBRACE | SEMICOLON | COMMA
  | IDENTIFIER | NUMBER
  | END_OF_FILE | INVALID
  deriving DecidableEq, Repr

/-- The `struct Token` of `lexer.h`. -/
structure Token where
  type : TokenType
  value : String
  line : Nat
  column : Nat
  deriving DecidableEq, Repr

/-- The cursor of `class Lexer`: `rest` is `source.substr(position)`, so that
advancing `position` drops the head of `rest`. -/
structure Lexer where
  rest : List Char
  line : Nat
  column : Nat
  deriving DecidableEq, Repr

/-! ## lexer.cpp -/

/-- The `isspace` of `<cctype>`: space, `\t`, `\n`, `\v`, `\f`, `\r`. -/
def isspace (c : Char) : Bool :=
  c.toNat = 32 || (9 ≤ c.toNat && c.toNat ≤ 13)

/-- The `isdigit` of `<cctype>`. -/
def isdigit (c : Char) : Bool :=
  48 ≤ c.toNat && c.toNat ≤ 57

/-- The `isalpha` of `<cctype>`. -/
def isalpha (c : Char) : Bool :=
  (65 ≤ c.toNat && c.toNat ≤ 90) || (97 ≤ c.toNat && c.toNat ≤ 122)

/-- The `isalnum` of `<cctype>`. -/
def isalnum (c : Char) : Bool :=
  isalpha c || isdigit c

/-- The `keywords` table of `lexer.cpp`. -/
def keywords : List (String × TokenType) :=
  [("let", .LET), ("if", .IF), ("else", .ELSE), ("while", .WHILE), ("return", .RETURN)]

/-- The constructor `Lexer::Lexer`: position 0, line 1, column 1. -/
def Lexer.new (source : List Char) : Lexer :=
  ⟨source, 1, 1⟩

/-- The method `Lexer::current`: the character under the cursor, NUL past the end. -/
def Lexer.current (lx : Lexer) : Char :=
  match lx.rest with
  | [] => Char.ofNat 0
  | c :: _ => c

/-- The method `Lexer::next`: consume one character, tracking line and column. -/
def Lexer.next (lx : Lexer) : Char × Lexer :=
  match lx.rest with
  | [] => (Char.ofNat 0, lx)
  | c :: cs =>
    if c = '\n' then (c, ⟨cs, lx.line + 1, 1⟩)
    else (c, ⟨cs, lx.line, lx.column + 1⟩)

/-- The loop of `Lexer::skipWhitespace`. -/
def Lexer.skipWhitespaceLoop : Nat → Lexer → Lexer
  | 0, lx => lx
  | fuel + 1, lx =>
    if isspace lx.current then Lexer.skipWhitespaceLoop fuel lx.next.2 else lx

/-- The method `Lexer::skipWhitespace`. -/
def Lexer.skipWhitespace (lx : Lexer) : Lexer :=
  Lexer.skipWhitespaceLoop lx.rest.length lx

/-- The loop of `Lexer::readNumber`, accumulating `value`. -/
def Lexer.readNumberLoop : Nat → String → Lexer → String × Lexer
  | 0, value, lx => (value, lx)
  | fuel + 1, value, lx =>
    if isdigit lx.current then
      Lexer.readNumberLoop fuel (value.push lx.current) lx.next.2
    else (value, lx)

/-- The method `Lexer::readNumber`. -/
def Lexer.readNumber (lx : Lexer) : Token × Lexer :=
  let r := Lexer.readNumberLoop lx.rest.length "" lx
  (⟨.NUMBER, r.1, r.2.line, r.2.column⟩, r.2)

/-- The loop of `Lexer::readIdentifier`, accumulating `value`. -/
def Lexer.readIdentifierLoop : Nat → String → Lexer → String × Lexer
  | 0, value, lx => (value, lx)
  | fuel + 1, value, lx =>
    if isalnum lx.current || lx.current = '_' then
      Lexer.readIdentifierLoop fuel (value.push lx.current) lx.next.2
    else (value, lx)

/-- The method `Lexer::readIdentifier`: the run, reclassified when it is a keyword. -/
def Lexer.readIdentifier (lx : Lexer) : Token × Lexer :=
  let r := Lexer.readIdentifierLoop lx.rest.length "" lx
  match keywords.lookup r.1 with
  | some kw => (⟨kw, r.1, r.2.line, r.2.column⟩, r.2)
  | none => (⟨.IDENTIFIER, r.1, r.2.line, r.2.column⟩, r.2)

/-- The method `Lexer::readOperator`. -/
def Lexer.readOperator (lx : Lexer) : Token × Lexer :=
  let c := lx.current
  let lx1 := lx.next.2
  if c = '+' then (⟨.PLUS, "+", lx1.line, lx1.column⟩, lx1)
  else if c = '-' then (⟨.MINUS, "-", lx1.line, lx1.column⟩, lx1)
  else if c = '*' then (⟨.MULTIPLY, "*", lx1.line, lx1.column⟩, lx1)
  else if c = '/' then (⟨.DIVIDE, "/", lx1.line, lx1.column⟩, lx1)
  else if c = '=' then
    if lx1.current = '=' then
      let lx2 := lx1.next.2
      (⟨.EQUAL, "==", lx2.line, lx2.column⟩, lx2)
    else (⟨.ASSIGN, "=", lx1.line, lx1.column⟩, lx1)
  else if c = '<' then (⟨.LESS, "<", lx1.line, lx1.column⟩, lx1)
  else if c = '>' then (⟨.GREATER, ">", lx1.line, lx1.column⟩, lx1)
  else if c = '(' then (⟨.LPAREN, "(", lx1.line, lx1.column⟩, lx1)
  else if c = ')' then (⟨.RPAREN, ")", lx1.line, lx1.column⟩, lx1)
  else if c = '\x7b' then (⟨.LBRACE, "\x7b", lx1.line, lx1.column⟩, lx1)
  else if c = '\x7d' then (⟨.RBRACE, "\x7d", lx1.line, lx1.column⟩, lx1)
  else if c = ';' then (⟨.SEMICOLON, ";", lx1.line, lx1.column⟩, lx1)
  else if c = ',' then (⟨.COMMA, ",", lx1.line, lx1.column⟩, lx1)
  else (⟨.INVALID, String.singleton c, lx1.line, lx1.column⟩, lx1)

/-- The method `Lexer::getNextToken`. -/
def Lexer.getNextToken (lx : Lexer) : Token × Lexer :=
  let lx0 := lx.skipWhitespace
  if lx0.current = Char.ofNat 0 then (⟨.END_OF_FILE, "", lx0.line, lx0.column⟩, lx0)
  else if isdigit lx0.current then lx0.readNumber
  else if isalpha lx0.current || lx0.current = '_' then lx0.readIdentifier
  else lx0.readOperator

/-- The loop of `Lexer::tokenize`: `token` is the token read last, `tokens` the
vector built so far; `none` when the fuel runs out before END_OF_FILE. -/
def Lexer.tokenizeLoop : Nat → List Token → Token → Lexer → Option (List Token)
  | 0, _, _, _ => none
  | fuel + 1, tokens, token, lx =>
    if token.type ≠ .END_OF_FILE then
      Lexer.tokenizeLoop fuel (tokens ++ [token]) lx.getNextToken.1 lx.getNextToken.2
    else some (tokens ++ [token])

/-- The method `Lexer::tokenize`. The loop reads at most one token per
remaining character, and one more for END_OF_FILE. -/
def Lexer.tokenize (lx : Lexer) : Option (List Token) :=
  Lexer.tokenizeLoop (lx.rest.length + 1) [] lx.getNextToken.1 lx.getNextToken.2

/-- The call `Lexer(source).tokenize()` of `main.cpp`. -/
def tokenize (source : List Char) : Option (List Token) :=
  (Lexer.new source).tokenize

/-- The kind and the text of each token, without the positions. -/
def tokenTexts (tokens : List Token) : List (TokenType × String) :=
  tokens.map (fun t => (t.type, t.value))

/-! ## parser.h -/

/-- The expression classes of `parser.h` (`NumberExpr`, `IdentifierExpr`,
`BinaryExpr`) as one closed type. -/
inductive Expr where
  | NumberExpr (value : Int)
  | IdentifierExpr (name : String)
  | BinaryExpr (op : TokenType) (left right : Expr)
  deriving DecidableEq, Repr

/-- The statement classes of `parser.h`; a null `elseBranch` is `none`. -/
inductive Stmt where
  | LetStmt (name : String) (value : Expr)
  | ExprStmt (expr : Expr)
  | BlockStmt (statements : List Stmt)
  | IfStmt (condition : Expr) (thenBranch : Stmt) (elseBranch : Option Stmt)
  | WhileStmt (condition : Expr) (body : Stmt)
  deriving Repr

/-- The exceptions the pipeline throws, each with its `what()` text.
`fuelExhausted` is not an exception of the program: it marks a run of the
embedding whose fuel ran out. -/
inductive CompileError where
  | runtime_error (what : String)
  | invalid_argument (what : String)
  | out_of_range (what : String)
  | fuelExhausted
  deriving DecidableEq, Repr

deriving instance DecidableEq for Except

/-- The fields of `class Parser`. -/
structure Parser where
  tokens : List Token
  current : Nat
  deriving DecidableEq, Repr

/-- A parsing method either throws or returns a value and leaves the parser in a
new state. -/
abbrev PResult (α : Type) := Except CompileError (α × Parser)

/-! ## parser.cpp -/

/-- The `std::stoi` of the standard library, base 10: leading whitespace, an
optional sign, then the longest digit run; `invalid_argument` without a digit,
`out_of_range` outside the range of `int`. -/
def stoi (s : String) : Except CompileError Int :=
  let body := s.data.dropWhile isspace
  let unsigned :=
    if body.head? = some '-' ∨ body.head? = some '+' then body.tail else body
  let digits := unsigned.takeWhile isdigit
  if digits = [] then .error (.invalid_argument "stoi")
  else
    let magnitude : Nat := digits.foldl (fun acc c => acc * 10 + (c.toNat - 48)) 0
    let v : Int := if body.head? = some '-' then -(magnitude : Int) else magnitude
    if v < -2147483648 ∨ 2147483647 < v then .error (.out_of_range "stoi")
    else .ok v

/-- The constructor `Parser::Parser`. -/
def Parser.new (tokens : List Token) : Parser :=
  ⟨tokens, 0⟩

/-- The method `Parser::peek`, `tokens[current]`. The read is within bounds on
every sequence that ends in END_OF_FILE; the default makes the function total. -/
def Parser.peek (p : Parser) : Token :=
  p.tokens.getD p.current ⟨.END_OF_FILE, "", 0, 0⟩

/-- The method `Parser::previous`, `tokens[current - 1]`. -/
def Parser.previous (p : Parser) : Token :=
  p.tokens.getD (p.current - 1) ⟨.END_OF_FILE, "", 0, 0⟩

/-- The method `Parser::isAtEnd`. -/
def Parser.isAtEnd (p : Parser) : Bool :=
  p.peek.type = .END_OF_FILE

/-- The method `Parser::advance`: the token returned and the new state. -/
def Parser.advance (p : Parser) : Token × Parser :=
  let p1 : Parser := if !p.isAtEnd then ⟨p.tokens, p.current + 1⟩ else p
  (p1.previous, p1)

/-- The method `Parser::check`. -/
def Parser.check (p : Parser) (type : TokenType) : Bool :=
  if p.isAtEnd then false else p.peek.type = type

/-- The method `Parser::match`: the flag returned and the new state. -/
def Parser.match_ (p : Parser) (type : TokenType) : Bool × Parser :=
  if p.check type then (true, p.advance.2) else (false, p)

/-- The condition `match(a) || match(b)` of the binary-operator loops. -/
def Parser.matchEither (p : Parser) (a b : TokenType) : Bool × Parser :=
  if (p.match_ a).1 then p.match_ a else p.match_ b

/-- The method `Parser::error`: the exception it throws. -/
def Parser.error (p : Parser) (message : String) : CompileError :=
  .runtime_error (message ++ " at line " ++ toString p.peek.line)

/-- The method `Parser::primary`; `expression` is the recursive call to
`Parser::expression`. -/
def Parser.primary (expression : Parser → PResult Expr) (p : Parser) : PResult Expr :=
  if (p.match_ .NUMBER).1 then
    match stoi (p.match_ .NUMBER).2.previous.value with
    | .error e => .error e
    | .ok v => .ok (.NumberExpr v, (p.match_ .NUMBER).2)
  else if (p.match_ .IDENTIFIER).1 then
    .ok (.IdentifierExpr (p.match_ .IDENTIFIER).2.previous.value, (p.match_ .IDENTIFIER).2)
  else if (p.match_ .LPAREN).1 then
    match expression (p.match_ .LPAREN).2 with
    | .error e => .error e
    | .ok (expr, p1) =>
      if !(p1.match_ .RPAREN).1 then .error (p1.error "Expected ')' after expression")
      else .ok (expr, (p1.match_ .RPAREN).2)
  else .error (p.error "Expected expression")

/-- The loop shared by `Parser::equality`, `comparison`, `term` and `factor`:
while the condition `ops` matches an operator, read `op = previous()`, parse the
right operand and fold it into `expr`. -/
def Parser.binaryLoop (ops : Parser → Bool × Parser) (operand : Parser → PResult Expr) :
    Nat → Expr → Parser → PResult Expr
  | 0, _, _ => .error .fuelExhausted
  | fuel + 1, expr, p =>
    if (ops p).1 then
      match operand (ops p).2 with
      | .error e => .error e
      | .ok (right, p1) =>
        Parser.binaryLoop ops operand fuel (.BinaryExpr (ops p).2.previous.type expr right) p1
    else .ok (expr, p)

/-- The method `Parser::factor`. -/
def Parser.factor (expression : Parser → PResult Expr) (fuel : Nat) (p : Parser) :
    PResult Expr :=
  match p.primary expression with
  | .error e => .error e
  | .ok (expr, p1) =>
    Parser.binaryLoop (fun q => q.matchEither .MULTIPLY .DIVIDE)
      (fun q => q.primary expression) fuel expr p1

/-- The method `Parser::term`. -/
def Parser.term (expression : Parser → PResult Expr) (fuel : Nat) (p : Parser) :
    PResult Expr :=
  match p.factor expression fuel with
  | .error e => .error e
  | .ok (expr, p1) =>
    Parser.binaryLoop (fun q => q.matchEither .PLUS .MINUS)
      (fun q => q.factor expression fuel) fuel expr p1

/-- The method `Parser::comparison`. -/
def Parser.comparison (expression : Parser → PResult Expr) (fuel : Nat) (p : Parser) :
    PResult Expr :=
  match p.term expression fuel with
  | .error e => .error e
  | .ok (expr, p1) =>
    Parser.binaryLoop (fun q => q.matchEither .LESS .GREATER)
      (fun q => q.term expression fuel) fuel expr p1

/-- The method `Parser::equality`. -/
def Parser.equality (expression : Parser → PResult Expr) (fuel : Nat) (p : Parser) :
    PResult Expr :=
  match p.comparison expression fuel with
  | .error e => .error e
  | .ok (expr, p1) =>
    Parser.binaryLoop (fun q => q.match_ .EQUAL)
      (fun q => q.comparison expression fuel) fuel expr p1

/-- The method `Parser::expression`; the fuel bounds the nesting of parentheses
and the iterations of each operator loop. -/
def Parser.expression : Nat → Parser → PResult Expr
  | 0, _ => .error .fuelExhausted
  | fuel + 1, p => p.equality (Parser.expression fuel) fuel

/-- The method `Parser::letStatement`. -/
def Parser.letStatement (fuel : Nat) (p : Parser) : PResult Stmt :=
  let name := p.advance.1
  let p1 := p.advance.2
  if name.type ≠ .IDENTIFIER then .error (p1.error "Expected identifier after 'let'")
  else if !(p1.match_ .ASSIGN).1 then .error (p1.error "Expected '=' after identifier")
  else
    match Parser.expression fuel (p1.match_ .ASSIGN).2 with
    | .error e => .error e
    | .ok (value, p2) =>
      if !(p2.match_ .SEMICOLON).1 then .error (p2.error "Expected ';' after value")
      else .ok (.LetStmt name.value value, (p2.match_ .SEMICOLON).2)

/-- The method `Parser::ifStatement`; `statement` is the recursive call to
`Parser::statement`. -/
def Parser.ifStatement (statement : Parser → PResult Stmt) (fuel : Nat) (p : Parser) :
    PResult Stmt :=
  if !(p.match_ .LPAREN).1 then .error (p.error "Expected '(' after 'if'")
  else
    match Parser.expression fuel (p.match_ .LPAREN).2 with
    | .error e => .error e
    | .ok (condition, p1) =>
      if !(p1.match_ .RPAREN).1 then .error (p1.error "Expected ')' after condition")
      else
        match statement (p1.match_ .RPAREN).2 with
        | .error e => .error e
        | .ok (thenBranch, p2) =>
          if (p2.match_ .ELSE).1 then
            match statement (p2.match_ .ELSE).2 with
            | .error e => .error e
            | .ok (elseBranch, p3) => .ok (.IfStmt condition thenBranch (some elseBranch), p3)
          else .ok (.IfStmt condition thenBranch none, p2)

/-- The method `Parser::whileStatement`. -/
def Parser.whileStatement (statement : Parser → PResult Stmt) (fuel : Nat) (p : Parser) :
    PResult Stmt :=
  if !(p.match_ .LPAREN).1 then .error (p.error "Expected '(' after 'while'")
  else
    match Parser.expression fuel (p.match_ .LPAREN).2 with
    | .error e => .error e
    | .ok (condition, p1) =>
      if !(p1.match_ .RPAREN).1 then .error (p1.error "Expected ')' after condition")
      else
        match statement (p1.match_ .RPAREN).2 with
        | .error e => .error e
        | .ok (body, p2) => .ok (.WhileStmt condition body, p2)

/-- The loop of `Parser::blockStatement`. -/
def Parser.blockLoop (statement : Parser → PResult Stmt) :
    Nat → List Stmt → Parser → PResult (List Stmt)
  | 0, _, _ => .error .fuelExhausted
  | fuel + 1, statements, p =>
    if !p.check .RBRACE && !p.isAtEnd then
      match statement p with
      | .error e => .error e
      | .ok (s, p1) => Parser.blockLoop statement fuel (statements ++ [s]) p1
    else .ok (statements, p)

/-- The method `Parser::blockStatement`. -/
def Parser.blockStatement (statement : Parser → PResult Stmt) (fuel : Nat) (p : Parser) :
    PResult Stmt :=
  match Parser.blockLoop statement fuel [] p with
  | .error e => .error e
  | .ok (statements, p1) =>
    if !(p1.match_ .RBRACE).1 then .error (p1.error "Expected '\x7d' after block")
    else .ok (.BlockStmt statements, (p1.match_ .RBRACE).2)

/-- The method `Parser::statement`; the fuel bounds the nesting of statements,
the iterations of a block and the expressions inside. -/
def Parser.statement : Nat → Parser → PResult Stmt
  | 0, _ => .error .fuelExhausted
  | fuel + 1, p =>
    if (p.match_ .LET).1 then (p.match_ .LET).2.letStatement (fuel + 1)
    else if (p.match_ .IF).1 then
      (p.match_ .IF).2.ifStatement (Parser.statement fuel) (fuel + 1)
    else if (p.match_ .WHILE).1 then
      (p.match_ .WHILE).2.whileStatement (Parser.statement fuel) (fuel + 1)
    else if (p.match_ .LBRACE).1 then
      (p.match_ .LBRACE).2.blockStatement (Parser.statement fuel) (fuel + 1)
    else
      match Parser.expression (fuel + 1) p with
      | .error e => .error e
      | .ok (expr, p1) => .ok (.ExprStmt expr, p1)

/-- The loop of `Parser::parse`. -/
def Parser.parseLoop (budget : Nat) : Nat → List Stmt → Parser → PResult (List Stmt)
  | 0, _, _ => .error .fuelExhausted
  | fuel + 1, statements, p =>
    if !p.isAtEnd then
      match Parser.statement budget p with
      | .error e => .error e
      | .ok (s, p1) => Parser.parseLoop budget fuel (statements ++ [s]) p1
    else .ok (statements, p)

/-- The method `Parser::parse`, with the state it leaves the parser in. The
fuel of every loop and of the recursion is the length of the token sequence. -/
def Parser.parse (p : Parser) : PResult (List Stmt) :=
  Parser.parseLoop p.tokens.length p.tokens.length [] p

/-- The call `Parser(tokens).parse()` of `main.cpp`. -/
def parse (tokens : List Token) : Except CompileError (List Stmt) :=
  match (Parser.new tokens).parse with
  | .error e => .error e
  | .ok (statements, _) => .ok statements


/-! ## Reading a parser run -/

/-- The state with the cursor one token further. -/
def Parser.step (p : Parser) : Parser :=
  ⟨p.tokens, p.current + 1⟩

/-- The number of tokens from the cursor to the end of the sequence. -/
def Parser.remaining (p : Parser) : Nat :=
  p.tokens.length - p.current

/-- An END_OF_FILE token lies at the cursor or after it. -/
def Parser.Bounded (p : Parser) : Prop :=
  ∃ i t, p.current ≤ i ∧ p.tokens[i]? = some t ∧ t.type = .END_OF_FILE

/-- The outcome of a rule started in state `p`: an exception of the program,
or a value together with a state over the same tokens whose cursor has moved
forward by at least one token and has not passed the END_OF_FILE token. -/
def Parser.Progress {α : Type} (p : Parser) (r : PResult α) : Prop :=
  match r with
  | .error e => e ≠ .fuelExhausted
  | .ok (_, p1) => p1.tokens = p.tokens ∧ p.current < p1.current ∧ p1.Bounded

/-- The outcome of a loop started in state `p`: as `Progress`, but the cursor
may also have stayed where it was. -/
def Parser.Advance {α : Type} (p : Parser) (r : PResult α) : Prop :=
  match r with
  | .error e => e ≠ .fuelExhausted
  | .ok (_, p1) => p1.tokens = p.tokens ∧ p.current ≤ p1.current ∧ p1.Bounded

/-- The token range from cursor `c` to cursor `c2` of `tokens` is cut into
consecutive non-empty pieces, and `statement` turns each piece into the
statement at the same place of the list. -/
inductive Parser.Tiles (budget : Nat) (tokens : List Token) : Nat → List Stmt → Nat → Prop where
  | nil (c : Nat) : Parser.Tiles budget tokens c [] c
  | cons (c c1 c2 : Nat) (s : Stmt) (rest : List Stmt)
      (hs : Parser.statement budget ⟨tokens, c⟩ = .ok (s, ⟨tokens, c1⟩)) (hlt : c < c1)
      (hrest : Parser.Tiles budget tokens c1 rest c2) :
      Parser.Tiles budget tokens c (s :: rest) c2

/-- The precedence level of a binary operator, by the rule that consumes it:
1 for `equality`, 2 for `comparison`, 3 for `term`, 4 for `factor`; 0 for a
token that no operator loop consumes. -/
def precedence : TokenType → Nat
  | .EQUAL => 1
  | .LESS => 2
  | .GREATER => 2
  | .PLUS => 3
  | .MINUS => 3
  | .MULTIPLY => 4
  | .DIVIDE => 4
  | _ => 0

/-! ## codegen.h, codegen.cpp -/

/-- The fields of `class CodeGenerator` (`variables_` is the field `variables`,
a reserved word here). The `unordered_map` is a list of
(name, slot) pairs with one pair per name; `find`, `operator[]` and `size` are
`List.lookup`, `assignVariable` and `List.length`. -/
structure CodeGenerator where
  assembly : List String
  variables_ : List (String × Nat)
  labelCounter : Nat
  deriving DecidableEq, Repr

/-- The assignment `variables[name] = offset` of `std::unordered_map`: overwrite
the value of an existing key, insert a missing one. -/
def assignVariable : List (String × Nat) → String → Nat → List (String × Nat)
  | [], name, offset => [(name, offset)]
  | (k, v) :: rest, name, offset =>
    if k = name then (k, offset) :: rest else (k, v) :: assignVariable rest name offset

/-- The constructor `CodeGenerator::CodeGenerator`: the prologue lines. -/
def CodeGenerator.new : CodeGenerator :=
  ⟨["section .text", "global _start", "_start:", "    push rbp", "    mov rbp, rsp"], [], 0⟩

/-- The call `assembly.push_back(line)`. -/
def CodeGenerator.emit (cg : CodeGenerator) (line : String) : CodeGenerator :=
  { cg with assembly := cg.assembly ++ [line] }

/-- The method `CodeGenerator::newLabel`: the label and the bumped counter. -/
def CodeGenerator.newLabel (cg : CodeGenerator) : String × CodeGenerator :=
  ("L" ++ toString cg.labelCounter, { cg with labelCounter := cg.labelCounter + 1 })

/-- The method `CodeGenerator::generateNumberExpr`. -/
def CodeGenerator.generateNumberExpr (cg : CodeGenerator) (value : Int) : CodeGenerator :=
  cg.emit ("    push " ++ toString value)

/-- The method `CodeGenerator::generateIdentifierExpr`. -/
def CodeGenerator.generateIdentifierExpr (cg : CodeGenerator) (name : String) :
    Except CompileError CodeGenerator :=
  match cg.variables_.lookup name with
  | none => .error (.runtime_error ("Undefined variable: " ++ name))
  | some slot => .ok (cg.emit ("    push QWORD [rbp - " ++ toString (slot * 8) ++ "]"))

/-- The `switch (expr.op)` of `CodeGenerator::generateBinaryExpr`. -/
def CodeGenerator.generateOperator (cg : CodeGenerator) (op : TokenType) :
    Except CompileError CodeGenerator :=
  match op with
  | .PLUS => .ok (cg.emit "    add rax, rbx")
  | .MINUS => .ok (cg.emit "    sub rax, rbx")
  | .MULTIPLY => .ok (cg.emit "    imul rax, rbx")
  | .DIVIDE => .ok ((cg.emit "    cqo").emit "    idiv rbx")
  | .EQUAL => .ok (((cg.emit "    cmp rax, rbx").emit "    sete al").emit "    movzx rax, al")
  | .LESS => .ok (((cg.emit "    cmp rax, rbx").emit "    setl al").emit "    movzx rax, al")
  | .GREATER => .ok (((cg.emit "    cmp rax, rbx").emit "    setg al").emit "    movzx rax, al")
  | _ => .error (.runtime_error "Unsupported binary operator")

/-- The method `CodeGenerator::generateExpr`, with `generateBinaryExpr` as its
third case. -/
def CodeGenerator.generateExpr : Expr → CodeGenerator → Except CompileError CodeGenerator
  | .NumberExpr value, cg => .ok (cg.generateNumberExpr value)
  | .IdentifierExpr name, cg => cg.generateIdentifierExpr name
  | .BinaryExpr op left right, cg =>
    match CodeGenerator.generateExpr left cg with
    | .error e => .error e
    | .ok cg1 =>
      match CodeGenerator.generateExpr right cg1 with
      | .error e => .error e
      | .ok cg2 =>
        match ((cg2.emit "    pop rbx").emit "    pop rax").generateOperator op with
        | .error e => .error e
        | .ok cg3 => .ok (cg3.emit "    push rax")

/-- The tail of `CodeGenerator::generateLetStmt`, after the value expression. -/
def CodeGenerator.bindVariable (cg : CodeGenerator) (name : String) : CodeGenerator :=
  let offset := cg.variables_.length + 1
  let cg1 : CodeGenerator := { cg with variables_ := assignVariable cg.variables_ name offset }
  cg1.emit ("    pop QWORD [rbp - " ++ toString (offset * 8) ++ "]")

mutual
/-- The method `CodeGenerator::generateStmt`, with the five statement
generators as its cases. -/
def CodeGenerator.generateStmt : Stmt → CodeGenerator → Except CompileError CodeGenerator
  | .LetStmt name value, cg =>
    match CodeGenerator.generateExpr value cg with
    | .error e => .error e
    | .ok cg1 => .ok (cg1.bindVariable name)
  | .ExprStmt expr, cg =>
    match CodeGenerator.generateExpr expr cg with
    | .error e => .error e
    | .ok cg1 => .ok (cg1.emit "    pop rax")
  | .BlockStmt statements, cg => CodeGenerator.generateStmts statements cg
  | .IfStmt condition thenBranch elseBranch, cg =>
    let elseLabel := cg.newLabel.1
    let endLabel := cg.newLabel.2.newLabel.1
    match CodeGenerator.generateExpr condition cg.newLabel.2.newLabel.2 with
    | .error e => .error e
    | .ok cg1 =>
      match CodeGenerator.generateStmt thenBranch
          (((cg1.emit "    pop rax").emit "    test rax, rax").emit ("    jz " ++ elseLabel)) with
      | .error e => .error e
      | .ok cg2 =>
        match CodeGenerator.generateElse elseBranch
            ((cg2.emit ("    jmp " ++ endLabel)).emit (elseLabel ++ ":")) with
        | .error e => .error e
        | .ok cg3 => .ok (cg3.emit (endLabel ++ ":"))
  | .WhileStmt condition body, cg =>
    let startLabel := cg.newLabel.1
    let endLabel := cg.newLabel.2.newLabel.1
    match CodeGenerator.generateExpr condition
        (cg.newLabel.2.newLabel.2.emit (startLabel ++ ":")) with
    | .error e => .error e
    | .ok cg1 =>
      match CodeGenerator.generateStmt body
          (((cg1.emit "    pop rax").emit "    test rax, rax").emit ("    jz " ++ endLabel)) with
      | .error e => .error e
      | .ok cg2 => .ok ((cg2.emit ("    jmp " ++ startLabel)).emit (endLabel ++ ":"))
/-- The loop `for (const auto& s : statements) generateStmt(*s)` of
`generateBlockStmt` and of `generate`. -/
def CodeGenerator.generateStmts : List Stmt → CodeGenerator → Except CompileError CodeGenerator
  | [], cg => .ok cg
  | s :: rest, cg =>
    match CodeGenerator.generateStmt s cg with
    | .error e => .error e
    | .ok cg1 => CodeGenerator.generateStmts rest cg1
/-- The guarded call `if (stmt.elseBranch) generateStmt(*stmt.elseBranch)`. -/
def CodeGenerator.generateElse : Option Stmt → CodeGenerator → Except CompileError CodeGenerator
  | none, cg => .ok cg
  | some s, cg => CodeGenerator.generateStmt s cg
end

/-- The epilogue lines `generate` appends. -/
def epilogue : List String :=
  ["    mov rsp, rbp", "    pop rbp", "    mov rax, 60", "    xor rdi, rdi", "    syscall"]

/-- The final loop of `generate`: each line followed by a newline. -/
def joinLines (lines : List String) : String :=
  lines.foldl (fun acc line => acc ++ line ++ "\n") ""

/-- The statement loop of `CodeGenerator::generate` on a fresh generator: the
state of the generator when the loop ends. -/
def generateState (ast : List Stmt) : Except CompileError CodeGenerator :=
  CodeGenerator.generateStmts ast CodeGenerator.new

/-- The `assembly` vector at the end of `generate`: the lines of the statement
loop followed by the epilogue. -/
def generateLines (ast : List Stmt) : Except CompileError (List String) :=
  match generateState ast with
  | .error e => .error e
  | .ok cg => .ok (cg.assembly ++ epilogue)

/-- The method `CodeGenerator::generate` on a fresh generator. -/
def generate (ast : List Stmt) : Except CompileError String :=
  match generateLines ast with
  | .error e => .error e
  | .ok lines => .ok (joinLines lines)

/-! ## main.cpp -/

/-- The pipeline of `main`: `tokenize`, `parse`, `generate`. -/
def compile (source : String) : Except CompileError String :=
  match tokenize source.data with
  | none => .error .fuelExhausted
  | some tokens =>
    match parse tokens with
    | .error e => .error e
    | .ok ast => generate ast

/-- The generator state `main` reaches at the end of the statement loop of
`generate`, for a source text. -/
def compileState (source : String) : Except CompileError CodeGenerator :=
  match tokenize source.data with
  | none => .error .fuelExhausted
  | some tokens =>
    match parse tokens with
    | .error e => .error e
    | .ok ast => generateState ast

/-! ## Reading the emitted lines -/

/-- A line that pushes a value: it starts with `    push `. -/
def isPush (line : String) : Bool :=
  "    push ".data.isPrefixOf line.data

/-- A line that pops a value: it starts with `    pop `. -/
def isPop (line : String) : Bool :=
  "    pop ".data.isPrefixOf line.data

/-- A jump instruction: the line starts with `    jz ` or with `    jmp `. -/
def isJump (line : String) : Bool :=
  "    jz ".data.isPrefixOf line.data || "    jmp ".data.isPrefixOf line.data

/-- A line that starts with `L`, as the definition of a generated label does. -/
def startsWithL (line : String) : Bool :=
  "L".data.isPrefixOf line.data

/-- The text `newLabel` returns when the counter is `k`. -/
def labelText (k : Nat) : String :=
  "L" ++ toString k

/-- The number of lines that define the label of counter `k`: lines `Lk:`. -/
def labelDefs (k : Nat) (lines : List String) : Nat :=
  lines.count (labelText k ++ ":")

/-- The number of jumps to the label of counter `k`: lines `    jz Lk` and
lines `    jmp Lk`. -/
def labelJumps (k : Nat) (lines : List String) : Nat :=
  lines.count ("    jz " ++ labelText k) + lines.count ("    jmp " ++ labelText k)

mutual
/-- The number of `if` and `while` nodes of a statement, at any depth. -/
def Stmt.branches : Stmt → Nat
  | .LetStmt _ _ => 0
  | .ExprStmt _ => 0
  | .BlockStmt statements => Stmt.branchesList statements
  | .IfStmt _ thenBranch elseBranch => 1 + thenBranch.branches + Stmt.branchesOption elseBranch
  | .WhileStmt _ body => 1 + body.branches
/-- The number of `if` and `while` nodes of a statement list. -/
def Stmt.branchesList : List Stmt → Nat
  | [] => 0
  | s :: rest => s.branches + Stmt.branchesList rest
/-- The number of `if` and `while` nodes of an optional statement. -/
def Stmt.branchesOption : Option Stmt → Nat
  | none => 0
  | some s => s.branches
end

/-! ## Reading token positions, parse results and the generator's traversal -/

/-- The position `(l, k)` is not after the position `(l2, k2)`, in the
lexicographic order of (line, column). -/
def posLe (l k l2 k2 : Nat) : Prop :=
  l < l2 ∨ (l = l2 ∧ k ≤ k2)

/-- Every value the rule `f` returns, the rule `g` returns too. -/
def Parser.Extends {α : Type} (f g : Parser → PResult α) : Prop :=
  ∀ (q : Parser) (r : α × Parser), f q = .ok r → g q = .ok r

/-- The binary operators `generateBinaryExpr` has a case for. -/
def supportedOperator (op : TokenType) : Bool :=
  op = .PLUS || op = .MINUS || op = .MULTIPLY || op = .DIVIDE || op = .EQUAL || op = .LESS ||
    op = .GREATER

/-- Every `BinaryExpr` node of the expression carries a supported operator. -/
def Expr.opsSupported : Expr → Bool
  | .NumberExpr _ => true
  | .IdentifierExpr _ => true
  | .BinaryExpr op left right => supportedOperator op && left.opsSupported && right.opsSupported

mutual
/-- Every `BinaryExpr` node of the statement carries a supported operator. -/
def Stmt.opsSupported : Stmt → Bool
  | .LetStmt _ value => value.opsSupported
  | .ExprStmt expr => expr.opsSupported
  | .BlockStmt statements => Stmt.opsSupportedList statements
  | .IfStmt condition thenBranch elseBranch =>
    condition.opsSupported && thenBranch.opsSupported && Stmt.opsSupportedOption elseBranch
  | .WhileStmt condition body => condition.opsSupported && body.opsSupported
/-- The same for a statement list. -/
def Stmt.opsSupportedList : List Stmt → Bool
  | [] => true
  | s :: rest => s.opsSupported && Stmt.opsSupportedList rest
/-- The same for an optional statement. -/
def Stmt.opsSupportedOption : Option Stmt → Bool
  | none => true
  | some s => s.opsSupported
end

mutual
/-- The number of `LetStmt` nodes of a statement, at any depth. -/
def Stmt.lets : Stmt → Nat
  | .LetStmt _ _ => 1
  | .ExprStmt _ => 0
  | .BlockStmt statements => Stmt.letsList statements
  | .IfStmt _ thenBranch elseBranch => thenBranch.lets + Stmt.letsOption elseBranch
  | .WhileStmt _ body => body.lets
/-- The number of `LetStmt` nodes of a statement list. -/
def Stmt.letsList : List Stmt → Nat
  | [] => 0
  | s :: rest => s.lets + Stmt.letsList rest
/-- The number of `LetStmt` nodes of an optional statement. -/
def Stmt.letsOption : Option Stmt → Nat
  | none => 0
  | some s => s.lets
end

/-- The number of tokens of kind `t` before the cursor. -/
def Parser.passed (t : TokenType) (p : Parser) : Nat :=
  (p.tokens.take p.current).countP (fun tok => tok.type = t)

/-- The kinds of token a rule of the grammar consumes, `;` apart. -/
def grammarKinds : List TokenType :=
  [.LET, .IF, .ELSE, .WHILE, .PLUS, .MINUS, .MULTIPLY, .DIVIDE, .ASSIGN, .EQUAL, .LESS,
    .GREATER, .LPAREN, .RPAREN, .LBRACE, .RBRACE, .IDENTIFIER, .NUMBER]

/-- The exceptions a parser run over `tokens` can end in: the fuel of the
embedding, a syntax error raised by `Parser::error` in some state over the
tokens, or the exception of `std::stoi` on the text of a NUMBER token. -/
def Parser.Raised (tokens : List Token) (e : CompileError) : Prop :=
  e = .fuelExhausted ∨ (∃ q : Parser, ∃ m : String, q.tokens = tokens ∧ e = q.error m) ∨
    ∃ tok ∈ tokens, tok.type = .NUMBER ∧ stoi tok.value = .error e

/-- What an expression rule started in `p` does with the tokens of kind `t`:
it passes none, and its expression has supported operators only. -/
def Parser.SoundExpr (t : TokenType) (p : Parser) (r : PResult Expr) : Prop :=
  match r with
  | .error e => Parser.Raised p.tokens e
  | .ok (e, q) => q.tokens = p.tokens ∧ q.passed t = p.passed t ∧ e.opsSupported = true

/-- What a statement rule started in `p` does with the tokens of kind `t`: it
passes one for each `let` of its statement when `t` is `;`, and none otherwise. -/
def Parser.SoundStmt (t : TokenType) (p : Parser) (r : PResult Stmt) : Prop :=
  match r with
  | .error e => Parser.Raised p.tokens e
  | .ok (s, q) => q.tokens = p.tokens ∧
      q.passed t = p.passed t + (if t = .SEMICOLON then s.lets else 0) ∧ s.opsSupported = true

/-- The same for a statement loop that started with the list `acc`. -/
def Parser.SoundStmts (t : TokenType) (p : Parser) (acc : List Stmt) (r : PResult (List Stmt)) :
    Prop :=
  match r with
  | .error e => Parser.Raised p.tokens e
  | .ok (ss, q) => q.tokens = p.tokens ∧
      q.passed t + (if t = .SEMICOLON then Stmt.letsList acc else 0) =
        p.passed t + (if t = .SEMICOLON then Stmt.letsList ss else 0) ∧
      Stmt.opsSupportedList ss = true

/-- Following the specification's words: the first identifier reference of an
expression, left operand before right operand, whose name is not among the
names bound so far. -/
def Expr.firstUnbound (bound : List String) : Expr → Option String
  | .NumberExpr _ => none
  | .IdentifierExpr name => if name ∈ bound then none else some name
  | .BinaryExpr _ left right =>
    match left.firstUnbound bound with
    | some n => some n
    | none => right.firstUnbound bound

mutual
/-- Following the specification's words: the single traversal of a statement
from the names bound so far. It stops at the first identifier reference whose
name is unbound and returns that name, or returns the names bound at the end. A
let's value is visited before its name is bound, a condition before the
then-branch before the else-branch, the statements of a block in sequence; a
name bound inside a branch or block stays bound. -/
def Stmt.scan : Stmt → List String → Except String (List String)
  | .LetStmt name value, bound =>
    match value.firstUnbound bound with
    | some n => .error n
    | none => .ok (name :: bound)
  | .ExprStmt expr, bound =>
    match expr.firstUnbound bound with
    | some n => .error n
    | none => .ok bound
  | .BlockStmt statements, bound => Stmt.scanList statements bound
  | .IfStmt condition thenBranch elseBranch, bound =>
    match condition.firstUnbound bound with
    | some n => .error n
    | none =>
      match thenBranch.scan bound with
      | .error n => .error n
      | .ok bound1 => Stmt.scanOption elseBranch bound1
  | .WhileStmt condition body, bound =>
    match condition.firstUnbound bound with
    | some n => .error n
    | none => body.scan bound
/-- The traversal of a statement list, in sequence. -/
def Stmt.scanList : List Stmt → List String → Except String (List String)
  | [], bound => .ok bound
  | s :: rest, bound =>
    match s.scan bound with
    | .error n => .error n
    | .ok bound1 => Stmt.scanList rest bound1
/-- The traversal of an optional else-branch. -/
def Stmt.scanOption : Option Stmt → List String → Except String (List String)
  | none, bound => .ok bound
  | some s, bound => s.scan bound
end

/-- The names bound so far are the names with an entry in the variable table. -/
def CodeGenerator.Agree (bound : List String) (cg : CodeGenerator) : Prop :=
  ∀ x : String, x ∈ bound ↔ (cg.variables_.lookup x).isSome = true

/-- The depth of the evaluation stack after the lines, starting from depth `d`:
a line that starts with `    push ` adds one, a line that starts with
`    pop ` takes one away; `none` when a `pop` line meets an empty stack. -/
def stackDepth : Nat → List String → Option Nat
  | d, [] => some d
  | d, line :: rest =>
    let d1 := if isPush line then d + 1 else d
    if isPop line then
      if d1 = 0 then none else stackDepth (d1 - 1) rest
    else stackDepth d1 rest

/-! # Theorems -/

/-! ## Re-binding a name (C1, C2) -/

/-- C1, the code at the failing input: in the program of the claim the second
`let z` pops into slot 4, `[rbp - 32]`, where the claim has slot 3,
`[rbp - 24]`. -/
theorem rebind_stores_to_fresh_offset :
    compile
        "let x = 1; let y = 2; if (x < y) \x7b let z = 1; \x7d else \x7b let z = 0; \x7d" =
      .ok ("section .text\nglobal _start\n_start:\n    push rbp\n    mov rbp, rsp\n" ++
        "    push 1\n    pop QWORD [rbp - 8]\n    push 2\n    pop QWORD [rbp - 16]\n" ++
        "    push QWORD [rbp - 8]\n    push QWORD [rbp - 16]\n    pop rbx\n    pop rax\n" ++
        "    cmp rax, rbx\n    setl al\n    movzx rax, al\n    push rax\n" ++
        "    pop rax\n    test rax, rax\n    jz L0\n" ++
        "    push 1\n    pop QWORD [rbp - 24]\n    jmp L1\nL0:\n" ++
        "    push 0\n    pop QWORD [rbp - 32]\nL1:\n" ++
        "    mov rsp, rbp\n    pop rbp\n    mov rax, 60\n    xor rdi, rdi\n    syscall\n") := by
  decide!

/-- C2, the code at the failing input: after
`let x = 1; let y = 2; let x = 3; let z = 4;` the variable table maps the two
names `x` and `z` to the same slot 3. -/
theorem rebind_makes_slots_collide :
    (compileState "let x = 1; let y = 2; let x = 3; let z = 4;").map
        (fun cg => cg.variables_) = .ok [("x", 3), ("y", 2), ("z", 3)] := by
  decide!

/-! ## Assignment-shaped statements (C3) -/


/-- C3, counterexample: the source `x = 1;` is lexed and then rejected by the
parser, so compilation does not end in the undefined-variable error. -/
theorem assignment_example_rejected_at_parse :
    (tokenize "x = 1;".data).map parse =
        some (.error (.runtime_error "Expected expression at line 1")) ∧
      compile "x = 1;" = .error (.runtime_error "Expected expression at line 1") ∧
      compile "x = 1;" ≠ .error (.runtime_error "Undefined variable: x") :=
  ⟨by rfl, by decide!, by decide!⟩

/-- C3, amended: whenever the top-level loop of `parse` stands on an IDENTIFIER
token that is followed by an ASSIGN token, parsing fails with the syntax error
`Expected expression` at the line of the ASSIGN token; no AST reaches the
generator. -/
theorem assignment_statement_fails_parsing (budget fuel : Nat) (statements : List Stmt)
    (p : Parser) (hb : 2 ≤ budget) (hf : 2 ≤ fuel) (hx : p.peek.type = .IDENTIFIER)
    (ha : (Parser.mk p.tokens (p.current + 1)).peek.type = .ASSIGN) :
    Parser.parseLoop budget fuel statements p =
      .error (.runtime_error ("Expected expression at line " ++
        toString (Parser.mk p.tokens (p.current + 1)).peek.line)) := by
  obtain ⟨b, rfl⟩ : ∃ b, budget = b + 2 := ⟨budget - 2, by omega⟩
  obtain ⟨f, rfl⟩ : ∃ f, fuel = f + 2 := ⟨fuel - 2, by omega⟩
  simp [Parser.parseLoop, Parser.statement, Parser.isAtEnd, hx, ha, Parser.match_,
    Parser.check, Parser.expression, Parser.equality, Parser.comparison, Parser.term,
    Parser.factor, Parser.primary, Parser.advance, Parser.binaryLoop, Parser.matchEither,
    Parser.error]

/-- C3, the amended claim at the tokens of the source `x = 1;`. -/
theorem assignment_statement_fails_parsing_witness :
    parse [⟨.IDENTIFIER, "x", 1, 2⟩, ⟨.ASSIGN, "=", 1, 4⟩, ⟨.NUMBER, "1", 1, 5⟩,
        ⟨.SEMICOLON, ";", 1, 6⟩, ⟨.END_OF_FILE, "", 1, 6⟩] =
      .error (.runtime_error "Expected expression at line 1") := by
  have h := assignment_statement_fails_parsing 5 5 []
    (Parser.new [⟨.IDENTIFIER, "x", 1, 2⟩, ⟨.ASSIGN, "=", 1, 4⟩, ⟨.NUMBER, "1", 1, 5⟩,
        ⟨.SEMICOLON, ";", 1, 6⟩, ⟨.END_OF_FILE, "", 1, 6⟩])
    (by decide) (by decide) (by decide) (by decide)
  simp only [parse, Parser.parse, List.length]
  rw [h]
  rfl

/-! ## The lexer loops in closed form -/

theorem Lexer.current_cons (c : Char) (cs : List Char) (l k : Nat) :
    (Lexer.mk (c :: cs) l k).current = c := rfl

theorem Lexer.current_nil (l k : Nat) : (Lexer.mk [] l k).current = Char.ofNat 0 := rfl

theorem Lexer.next_rest (lx : Lexer) : lx.next.2.rest = lx.rest.tail := by
  obtain ⟨s, l, k⟩ := lx
  cases s with
  | nil => rfl
  | cons c cs => by_cases h : c = '\n' <;> simp [Lexer.next, h]

theorem isspace_nul : isspace (Char.ofNat 0) = false := by decide

theorem isdigit_nul : isdigit (Char.ofNat 0) = false := by decide

theorem isalnum_nul : isalnum (Char.ofNat 0) = false := by decide

theorem Lexer.skipWhitespaceLoop_rest (fuel : Nat) (lx : Lexer) (h : lx.rest.length ≤ fuel) :
    (Lexer.skipWhitespaceLoop fuel lx).rest = lx.rest.dropWhile isspace := by
  induction fuel generalizing lx with
  | zero =>
    obtain ⟨s, l, k⟩ := lx
    have : s = [] := List.length_eq_zero.mp (Nat.le_zero.mp h)
    subst this
    rfl
  | succ n ih =>
    obtain ⟨s, l, k⟩ := lx
    cases s with
    | nil => simp [Lexer.skipWhitespaceLoop, Lexer.current, isspace_nul]
    | cons c cs =>
      by_cases hc : isspace c = true
      · have hlen : (Lexer.mk (c :: cs) l k).next.2.rest.length ≤ n := by
          rw [Lexer.next_rest]
          simpa using h
        simp [Lexer.skipWhitespaceLoop, Lexer.current, hc, ih _ hlen, Lexer.next_rest]
      · simp [Lexer.skipWhitespaceLoop, Lexer.current, hc]

theorem Lexer.skipWhitespace_rest (lx : Lexer) :
    lx.skipWhitespace.rest = lx.rest.dropWhile isspace :=
  Lexer.skipWhitespaceLoop_rest _ lx (le_refl _)

theorem Lexer.readNumberLoop_spec (fuel : Nat) (value : String) (lx : Lexer)
    (h : lx.rest.length ≤ fuel) :
    (Lexer.readNumberLoop fuel value lx).1.data = value.data ++ lx.rest.takeWhile isdigit ∧
      (Lexer.readNumberLoop fuel value lx).2.rest = lx.rest.dropWhile isdigit := by
  induction fuel generalizing lx value with
  | zero =>
    obtain ⟨s, l, k⟩ := lx
    have : s = [] := List.length_eq_zero.mp (Nat.le_zero.mp h)
    subst this
    simp [Lexer.readNumberLoop]
  | succ n ih =>
    obtain ⟨s, l, k⟩ := lx
    cases s with
    | nil => simp [Lexer.readNumberLoop, Lexer.current, isdigit_nul]
    | cons c cs =>
      by_cases hc : isdigit c = true
      · have hlen : (Lexer.mk (c :: cs) l k).next.2.rest.length ≤ n := by
          rw [Lexer.next_rest]
          simpa using h
        have := ih (value.push c) _ hlen
        simp [Lexer.readNumberLoop, Lexer.current, hc, this, Lexer.next_rest]
      · simp [Lexer.readNumberLoop, Lexer.current, hc]

theorem Lexer.readIdentifierLoop_spec (fuel : Nat) (value : String) (lx : Lexer)
    (h : lx.rest.length ≤ fuel) :
    (Lexer.readIdentifierLoop fuel value lx).1.data =
        value.data ++ lx.rest.takeWhile (fun c => isalnum c || decide (c = '_')) ∧
      (Lexer.readIdentifierLoop fuel value lx).2.rest =
        lx.rest.dropWhile (fun c => isalnum c || decide (c = '_')) := by
  induction fuel generalizing lx value with
  | zero =>
    obtain ⟨s, l, k⟩ := lx
    have : s = [] := List.length_eq_zero.mp (Nat.le_zero.mp h)
    subst this
    simp [Lexer.readIdentifierLoop]
  | succ n ih =>
    obtain ⟨s, l, k⟩ := lx
    cases s with
    | nil =>
      have h0 : (Char.ofNat 0 = '_') = False := by decide
      simp [Lexer.readIdentifierLoop, Lexer.current, isalnum_nul, h0]
    | cons c cs =>
      by_cases hc : (isalnum c || decide (c = '_')) = true
      · have hlen : (Lexer.mk (c :: cs) l k).next.2.rest.length ≤ n := by
          rw [Lexer.next_rest]
          simpa using h
        have := ih (value.push c) _ hlen
        have hc2 := hc
        simp only [Bool.or_eq_true, decide_eq_true_eq] at hc2
        simp [Lexer.readIdentifierLoop, Lexer.current, hc, hc2, this, Lexer.next_rest]
      · have hc2 := hc
        simp only [Bool.or_eq_true, decide_eq_true_eq] at hc2
        simp [Lexer.readIdentifierLoop, Lexer.current, hc, hc2]

theorem keywords_lookup_ne_eof (v : String) (kw : TokenType)
    (h : keywords.lookup v = some kw) : kw ≠ .END_OF_FILE := by
  simp only [keywords, List.lookup] at h
  repeat' split at h
  all_goals first | (cases h; decide) | simp at h

theorem Lexer.readNumber_text (c : Char) (cs : List Char) (l k : Nat) :
    (Lexer.mk (c :: cs) l k).readNumber.1.type = .NUMBER ∧
      (Lexer.mk (c :: cs) l k).readNumber.1.value.data = (c :: cs).takeWhile isdigit ∧
      (Lexer.mk (c :: cs) l k).readNumber.2.rest = (c :: cs).dropWhile isdigit := by
  have h := Lexer.readNumberLoop_spec (c :: cs).length "" (Lexer.mk (c :: cs) l k) (le_refl _)
  exact ⟨rfl, by simpa using h.1, h.2⟩

theorem Lexer.readIdentifier_text (s : List Char) (l k : Nat) :
    (Lexer.mk s l k).readIdentifier.1.type ≠ .END_OF_FILE ∧
      (Lexer.mk s l k).readIdentifier.1.value.data =
        s.takeWhile (fun c => isalnum c || decide (c = '_')) ∧
      (Lexer.mk s l k).readIdentifier.2.rest =
        s.dropWhile (fun c => isalnum c || decide (c = '_')) := by
  have h := Lexer.readIdentifierLoop_spec s.length "" (Lexer.mk s l k) (le_refl _)
  simp only [Lexer.readIdentifier]
  split
  · rename_i kw hkw
    refine ⟨keywords_lookup_ne_eof _ _ hkw, ?_, h.2⟩
    simpa using h.1
  · refine ⟨fun hne => TokenType.noConfusion hne, ?_, h.2⟩
    simpa using h.1

theorem Lexer.readOperator_text (c : Char) (cs : List Char) (l k : Nat) :
    (Lexer.mk (c :: cs) l k).readOperator.1.type ≠ .END_OF_FILE ∧
      (Lexer.mk (c :: cs) l k).readOperator.1.value.data ≠ [] ∧
      (Lexer.mk (c :: cs) l k).readOperator.1.value.data ++
        (Lexer.mk (c :: cs) l k).readOperator.2.rest = c :: cs := by
  have hr : (Lexer.mk (c :: cs) l k).next.2.rest = cs := by rw [Lexer.next_rest]; rfl
  simp only [Lexer.readOperator, Lexer.current_cons]
  generalize (Lexer.mk (c :: cs) l k).next.2 = lx1 at hr ⊢
  obtain ⟨s1, l1, k1⟩ := lx1
  simp only at hr
  subst hr
  by_cases h1 : c = '+'
  · rw [if_pos h1, h1]; exact ⟨by simp, by simp, by simp⟩
  rw [if_neg h1]
  by_cases h2 : c = '-'
  · rw [if_pos h2, h2]; exact ⟨by simp, by simp, by simp⟩
  rw [if_neg h2]
  by_cases h3 : c = '*'
  · rw [if_pos h3, h3]; exact ⟨by simp, by simp, by simp⟩
  rw [if_neg h3]
  by_cases h4 : c = '/'
  · rw [if_pos h4, h4]; exact ⟨by simp, by simp, by simp⟩
  rw [if_neg h4]
  by_cases h5 : c = '='
  · rw [if_pos h5, h5]
    cases s1 with
    | nil =>
      rw [Lexer.current_nil, if_neg (by decide)]
      exact ⟨by simp, by simp, by simp⟩
    | cons d ds =>
      rw [Lexer.current_cons]
      by_cases h6 : d = '='
      · rw [if_pos h6, h6]
        refine ⟨by simp, by simp, ?_⟩
        simp only [Lexer.next_rest]
        rfl
      · rw [if_neg h6]; exact ⟨by simp, by simp, by simp⟩
  rw [if_neg h5]
  by_cases h7 : c = '<'
  · rw [if_pos h7, h7]; exact ⟨by simp, by simp, by simp⟩
  rw [if_neg h7]
  by_cases h8 : c = '>'
  · rw [if_pos h8, h8]; exact ⟨by simp, by simp, by simp⟩
  rw [if_neg h8]
  by_cases h9 : c = '('
  · rw [if_pos h9, h9]; exact ⟨by simp, by simp, by simp⟩
  rw [if_neg h9]
  by_cases h10 : c = ')'
  · rw [if_pos h10, h10]; exact ⟨by simp, by simp, by simp⟩
  rw [if_neg h10]
  by_cases h11 : c = '\x7b'
  · rw [if_pos h11, h11]; exact ⟨by simp, by simp, by simp⟩
  rw [if_neg h11]
  by_cases h12 : c = '\x7d'
  · rw [if_pos h12, h12]; exact ⟨by simp, by simp, by simp⟩
  rw [if_neg h12]
  by_cases h13 : c = ';'
  · rw [if_pos h13, h13]; exact ⟨by simp, by simp, by simp⟩
  rw [if_neg h13]
  by_cases h14 : c = ','
  · rw [if_pos h14, h14]; exact ⟨by simp, by simp, by simp⟩
  rw [if_neg h14]
  exact ⟨by simp, by simp [String.singleton], by simp [String.singleton]⟩

/-- What `getNextToken` returns: either END_OF_FILE, with the cursor on the end
of the text or on a NUL character, or a token other than END_OF_FILE whose
non-empty text is what was consumed after the leading whitespace. -/
theorem Lexer.getNextToken_text (lx : Lexer) :
    (lx.getNextToken.1.type = .END_OF_FILE ∧ lx.getNextToken.1.value = "" ∧
        lx.getNextToken.2.rest = lx.rest.dropWhile isspace ∧
        (lx.rest.dropWhile isspace = [] ∨
          (lx.rest.dropWhile isspace).head? = some (Char.ofNat 0))) ∨
      (lx.getNextToken.1.type ≠ .END_OF_FILE ∧ lx.getNextToken.1.value.data ≠ [] ∧
        lx.getNextToken.1.value.data ++ lx.getNextToken.2.rest =
          lx.rest.dropWhile isspace) := by
  have hs := Lexer.skipWhitespace_rest lx
  simp only [Lexer.getNextToken]
  generalize lx.skipWhitespace = lx0 at hs ⊢
  obtain ⟨s0, l0, k0⟩ := lx0
  simp only at hs
  rw [← hs]
  cases s0 with
  | nil => left; simp [Lexer.current]
  | cons c cs =>
    rw [Lexer.current_cons]
    by_cases h0 : c = Char.ofNat 0
    · left; simp [h0]
    · right
      rw [if_neg h0]
      by_cases hd : isdigit c = true
      · rw [if_pos hd]
        obtain ⟨h1, h2, h3⟩ := Lexer.readNumber_text c cs l0 k0
        refine ⟨by rw [h1]; decide, ?_, ?_⟩
        · rw [h2]; simp [List.takeWhile, hd]
        · rw [h2, h3]; exact List.takeWhile_append_dropWhile _ _
      · rw [if_neg hd]
        by_cases ha : (isalpha c || decide (c = '_')) = true
        · have ha2 : (isalnum c || decide (c = '_')) = true := by
            simp only [isalnum, Bool.or_eq_true, decide_eq_true_eq] at ha ⊢
            tauto
          obtain ⟨h1, h2, h3⟩ := Lexer.readIdentifier_text (c :: cs) l0 k0
          have ha3 := ha
          simp only [Bool.or_eq_true, decide_eq_true_eq] at ha3
          rw [if_pos (by simpa using ha3)]
          refine ⟨h1, ?_, ?_⟩
          · rw [h2]; simp only [List.takeWhile, ha2]; simp
          · rw [h2, h3]; exact List.takeWhile_append_dropWhile _ _
        · have ha3 := ha
          simp only [Bool.or_eq_true, decide_eq_true_eq] at ha3
          rw [if_neg (by simpa using ha3)]
          exact Lexer.readOperator_text c cs l0 k0

theorem Lexer.getNextToken_rest_le (lx : Lexer) :
    lx.getNextToken.2.rest.length ≤ lx.rest.length := by
  have hdrop : (lx.rest.dropWhile isspace).length ≤ lx.rest.length :=
    (List.dropWhile_sublist _).length_le
  rcases Lexer.getNextToken_text lx with ⟨_, _, h, _⟩ | ⟨_, _, h⟩
  · rw [h]; exact hdrop
  · have := congrArg List.length h
    rw [List.length_append] at this
    omega

theorem Lexer.getNextToken_rest_lt (lx : Lexer) (h : lx.getNextToken.1.type ≠ .END_OF_FILE) :
    lx.getNextToken.2.rest.length < lx.rest.length := by
  have hdrop : (lx.rest.dropWhile isspace).length ≤ lx.rest.length :=
    (List.dropWhile_sublist _).length_le
  rcases Lexer.getNextToken_text lx with ⟨h1, _⟩ | ⟨_, h2, h3⟩
  · exact absurd h1 h
  · have := congrArg List.length h3
    rw [List.length_append] at this
    have : 0 < lx.getNextToken.1.value.data.length := List.length_pos.mpr h2
    omega

theorem Lexer.tokenizeLoop_spec (fuel : Nat) (tokens : List Token) (token : Token) (lx : Lexer)
    (h1 : 1 ≤ fuel) (h2 : token.type ≠ .END_OF_FILE → lx.rest.length + 2 ≤ fuel) :
    ∃ body eof, Lexer.tokenizeLoop fuel tokens token lx = some (tokens ++ body ++ [eof]) ∧
      eof.type = .END_OF_FILE ∧ ∀ t ∈ body, t.type ≠ .END_OF_FILE := by
  induction fuel generalizing tokens token lx with
  | zero => omega
  | succ n ih =>
    by_cases ht : token.type = .END_OF_FILE
    · exact ⟨[], token, by simp [Lexer.tokenizeLoop, ht], ht, by simp⟩
    · have hlen := h2 ht
      have hle := Lexer.getNextToken_rest_le lx
      obtain ⟨body, eof, hrun, heof, hbody⟩ :=
        ih (tokens ++ [token]) lx.getNextToken.1 lx.getNextToken.2 (by omega)
          (fun hne => by have := Lexer.getNextToken_rest_lt lx hne; omega)
      refine ⟨token :: body, eof, ?_, heof, ?_⟩
      · simp [Lexer.tokenizeLoop, ht, hrun]
      · intro t htmem
        rcases List.mem_cons.mp htmem with rfl | hmem
        · exact ht
        · exact hbody t hmem

theorem Lexer.tokenize_spec (lx : Lexer) :
    ∃ body eof, lx.tokenize = some (body ++ [eof]) ∧ eof.type = .END_OF_FILE ∧
      ∀ t ∈ body, t.type ≠ .END_OF_FILE := by
  have h := Lexer.tokenizeLoop_spec (lx.rest.length + 1) [] lx.getNextToken.1
    lx.getNextToken.2 (by omega)
    (fun hne => by have := Lexer.getNextToken_rest_lt lx hne; omega)
  simpa [Lexer.tokenize] using h

theorem Lexer.tokenizeLoop_acc (fuel : Nat) (tokens : List Token) (token : Token) (lx : Lexer) :
    Lexer.tokenizeLoop fuel tokens token lx =
      (Lexer.tokenizeLoop fuel [] token lx).map (fun r => tokens ++ r) := by
  induction fuel generalizing tokens token lx with
  | zero => rfl
  | succ n ih =>
    by_cases ht : token.type = .END_OF_FILE
    · simp [Lexer.tokenizeLoop, ht]
    · simp only [Lexer.tokenizeLoop, ne_eq, ht, not_false_eq_true, if_true, List.nil_append]
      rw [ih (tokens ++ [token]), ih [token]]
      simp [Option.map_map, Function.comp_def]

theorem Lexer.tokenizeLoop_mono (fuel : Nat) (tokens : List Token) (token : Token) (lx : Lexer)
    (r : List Token) (h : Lexer.tokenizeLoop fuel tokens token lx = some r) :
    Lexer.tokenizeLoop (fuel + 1) tokens token lx = some r := by
  induction fuel generalizing tokens token lx with
  | zero => simp [Lexer.tokenizeLoop] at h
  | succ n ih =>
    by_cases ht : token.type = .END_OF_FILE
    · simpa [Lexer.tokenizeLoop, ht] using h
    · simp only [Lexer.tokenizeLoop, ne_eq, ht, not_false_eq_true, if_true] at h
      have := ih _ _ _ h
      rw [Lexer.tokenizeLoop]
      simpa [ht] using this

theorem Lexer.tokenizeLoop_mono_le (fuel fuel' : Nat) (tokens : List Token) (token : Token)
    (lx : Lexer) (r : List Token) (hle : fuel ≤ fuel')
    (h : Lexer.tokenizeLoop fuel tokens token lx = some r) :
    Lexer.tokenizeLoop fuel' tokens token lx = some r := by
  induction hle with
  | refl => exact h
  | step _ ih => exact Lexer.tokenizeLoop_mono _ _ _ _ _ ih

/-- The loop of `tokenize`, unrolled once: the first token, then the tokens of
the rest of the text. -/
theorem Lexer.tokenize_eq (lx : Lexer) :
    lx.tokenize =
      if lx.getNextToken.1.type = .END_OF_FILE then some [lx.getNextToken.1]
      else lx.getNextToken.2.tokenize.map (fun r => lx.getNextToken.1 :: r) := by
  by_cases ht : lx.getNextToken.1.type = .END_OF_FILE
  · simp [Lexer.tokenize, Lexer.tokenizeLoop, ht]
  · rw [if_neg ht]
    obtain ⟨body, eof, hrun, -, -⟩ := Lexer.tokenize_spec lx.getNextToken.2
    have hlt := Lexer.getNextToken_rest_lt lx ht
    have hbig := Lexer.tokenizeLoop_mono_le _ lx.rest.length [] _ _ _ (by omega) hrun
    rw [hrun]
    simp only [Lexer.tokenize, Lexer.tokenizeLoop, ne_eq, ht, not_false_eq_true, if_true,
      List.nil_append]
    rw [Lexer.tokenizeLoop_acc, hbig]
    simp

/-! ## The next token depends only on the text under the cursor -/

theorem takeWhile_dropWhile_append_of_stop {α : Type} (p : α → Bool) (x b : List α)
    (h : x.dropWhile p ≠ []) :
    (x ++ b).takeWhile p = x.takeWhile p ∧ (x ++ b).dropWhile p = x.dropWhile p ++ b := by
  induction x with
  | nil => simp at h
  | cons c cs ih =>
    by_cases hc : p c = true
    · have h2 : cs.dropWhile p ≠ [] := by simpa [List.dropWhile, hc] using h
      simp [List.takeWhile, List.dropWhile, hc, ih h2]
    · simp [List.takeWhile, List.dropWhile, hc]

theorem takeWhile_dropWhile_append_of_head {α : Type} (p : α → Bool) (x b : List α)
    (h : ∀ c, b.head? = some c → p c = false) :
    (x ++ b).takeWhile p = x.takeWhile p ∧ (x ++ b).dropWhile p = x.dropWhile p ++ b := by
  induction x with
  | nil =>
    cases b with
    | nil => simp
    | cons d ds =>
      have := h d rfl
      simp [List.takeWhile, List.dropWhile, this]
  | cons c cs ih =>
    by_cases hc : p c = true
    · simp [List.takeWhile, List.dropWhile, hc, ih]
    · simp [List.takeWhile, List.dropWhile, hc]

theorem dropWhile_ne_nil_of_getLast {α : Type} (p : α → Bool) (x : List α) (c : α)
    (h : x.getLast? = some c) (hc : p c = false) : x.dropWhile p ≠ [] := by
  intro hnil
  have hall : ∀ a ∈ x, p a = true := by
    intro a ha
    by_contra hpa
    have hmem : a ∈ x.dropWhile p := by
      induction x with
      | nil => simp at ha
      | cons d ds ih =>
        by_cases hd : p d = true
        · rcases List.mem_cons.mp ha with rfl | hmem
          · exact absurd hd hpa
          · simp only [List.dropWhile, hd] at hnil ⊢
            have hlast : ds.getLast? = some c := by
              cases ds with
              | nil => simp at hmem
              | cons e es => simpa [List.getLast?_cons_cons] using h
            exact ih hlast hnil hmem
        · simp [List.dropWhile, hd] at hnil
    rw [hnil] at hmem
    simp at hmem
  have hcmem : c ∈ x := List.mem_of_getLast?_eq_some h
  have := hall c hcmem
  rw [hc] at this
  exact Bool.noConfusion this

theorem Lexer.readIdentifier_type (lx : Lexer) :
    lx.readIdentifier.1.type = (keywords.lookup lx.readIdentifier.1.value).getD .IDENTIFIER := by
  simp only [Lexer.readIdentifier]
  split
  · rename_i kw hkw
    simp [hkw]
  · rename_i hkw
    simp [hkw]

theorem Lexer.readOperator_append (c : Char) (cs b : List Char) (l k l' k' : Nat)
    (hb : ∀ d, b.head? = some d → d ≠ '=') :
    (Lexer.mk (c :: (cs ++ b)) l k).readOperator.1.type =
        (Lexer.mk (c :: cs) l' k').readOperator.1.type ∧
      (Lexer.mk (c :: (cs ++ b)) l k).readOperator.1.value =
        (Lexer.mk (c :: cs) l' k').readOperator.1.value ∧
      (Lexer.mk (c :: (cs ++ b)) l k).readOperator.2.rest =
        (Lexer.mk (c :: cs) l' k').readOperator.2.rest ++ b := by
  have hr : (Lexer.mk (c :: (cs ++ b)) l k).next.2.rest = cs ++ b := by
    rw [Lexer.next_rest]; rfl
  have hr' : (Lexer.mk (c :: cs) l' k').next.2.rest = cs := by rw [Lexer.next_rest]; rfl
  simp only [Lexer.readOperator, Lexer.current_cons]
  generalize (Lexer.mk (c :: (cs ++ b)) l k).next.2 = lx1 at hr ⊢
  generalize (Lexer.mk (c :: cs) l' k').next.2 = lx1' at hr' ⊢
  obtain ⟨s1, l1, k1⟩ := lx1
  obtain ⟨s1', l1', k1'⟩ := lx1'
  simp only at hr hr'
  subst hr hr'
  by_cases h5 : c = '='
  · subst h5
    simp only [Char.reduceEq, if_false, if_true]
    cases s1' with
    | nil =>
      cases b with
      | nil => simp [Lexer.current_nil]
      | cons d ds =>
        have hd : d ≠ '=' := hb d rfl
        simp [Lexer.current_nil, Lexer.current_cons, hd]
    | cons e es =>
      by_cases he : e = '='
      · subst he
        simp [Lexer.current_cons, Lexer.next_rest]
      · simp [Lexer.current_cons, he]
  · simp only [h5, if_false]
    by_cases g0 : c = '+'
    · simp [g0]
    simp only [g0, if_false]
    by_cases g1 : c = '-'
    · simp [g1]
    simp only [g1, if_false]
    by_cases g2 : c = '*'
    · simp [g2]
    simp only [g2, if_false]
    by_cases g3 : c = '/'
    · simp [g3]
    simp only [g3, if_false]
    by_cases g4 : c = '<'
    · simp [g4]
    simp only [g4, if_false]
    by_cases g5 : c = '>'
    · simp [g5]
    simp only [g5, if_false]
    by_cases g6 : c = '('
    · simp [g6]
    simp only [g6, if_false]
    by_cases g7 : c = ')'
    · simp [g7]
    simp only [g7, if_false]
    by_cases g8 : c = '\x7b'
    · simp [g8]
    simp only [g8, if_false]
    by_cases g9 : c = '\x7d'
    · simp [g9]
    simp only [g9, if_false]
    by_cases g10 : c = ';'
    · simp [g10]
    simp only [g10, if_false]
    by_cases g11 : c = ','
    · simp [g11]
    simp only [g11, if_false]
    simp

/-- Locality of `getNextToken`: the token read at the front of `a` is also the
token read at the front of `a ++ b`, and the text `b` is left untouched, as
long as the token cannot run on into `b`. With `b` empty this says that the
kind, the text and the remaining input do not depend on the positions. -/
theorem Lexer.getNextToken_append (a b : List Char) (l k l' k' : Nat)
    (hne : a.dropWhile isspace ≠ [] ∨ b = [])
    (hb : ∀ d, b.head? = some d → isdigit d = false ∧ d ≠ '=')
    (hid : b = [] ∨ ∀ d, a.getLast? = some d → (isalnum d || decide (d = '_')) = false) :
    (Lexer.mk (a ++ b) l k).getNextToken.1.type = (Lexer.mk a l' k').getNextToken.1.type ∧
      (Lexer.mk (a ++ b) l k).getNextToken.1.value =
        (Lexer.mk a l' k').getNextToken.1.value ∧
      (Lexer.mk (a ++ b) l k).getNextToken.2.rest =
        (Lexer.mk a l' k').getNextToken.2.rest ++ b := by
  have hs := Lexer.skipWhitespace_rest (Lexer.mk (a ++ b) l k)
  have hs' := Lexer.skipWhitespace_rest (Lexer.mk a l' k')
  simp only [Lexer.getNextToken]
  generalize (Lexer.mk (a ++ b) l k).skipWhitespace = lx0 at hs ⊢
  generalize (Lexer.mk a l' k').skipWhitespace = lx0' at hs' ⊢
  obtain ⟨s0, l0, k0⟩ := lx0
  obtain ⟨s0', l0', k0'⟩ := lx0'
  simp only at hs hs'
  subst hs hs'
  cases hdrop : a.dropWhile isspace with
  | nil =>
    have hbnil : b = [] := by
      rcases hne with h | h
      · exact absurd hdrop h
      · exact h
    subst hbnil
    simp [hdrop, Lexer.current_nil]
  | cons c cs =>
    have happ : (a ++ b).dropWhile isspace = c :: (cs ++ b) := by
      rw [(takeWhile_dropWhile_append_of_stop isspace a b (by rw [hdrop]; simp)).2, hdrop]
      rfl
    rw [happ]
    simp only [Lexer.current_cons]
    by_cases h0 : c = Char.ofNat 0
    · simp [h0]
    · simp only [h0, if_false]
      by_cases hd : isdigit c = true
      · simp only [hd, if_true]
        obtain ⟨h1, h2, h3⟩ := Lexer.readNumber_text c (cs ++ b) l0 k0
        obtain ⟨h1', h2', h3'⟩ := Lexer.readNumber_text c cs l0' k0'
        have hlist := takeWhile_dropWhile_append_of_head isdigit (c :: cs) b
          (fun d hd => (hb d hd).1)
        refine ⟨by rw [h1, h1'], ?_, ?_⟩
        · apply String.ext
          rw [h2, h2']
          exact hlist.1
        · rw [h3, h3']
          exact hlist.2
      · simp only [hd, Bool.false_eq_true, if_false]
        by_cases ha : (isalpha c || decide (c = '_')) = true
        · simp only [ha, if_true]
          obtain ⟨-, h2, h3⟩ := Lexer.readIdentifier_text (c :: (cs ++ b)) l0 k0
          obtain ⟨-, h2', h3'⟩ := Lexer.readIdentifier_text (c :: cs) l0' k0'
          have hlist : ((c :: cs) ++ b).takeWhile (fun c => isalnum c || decide (c = '_')) =
                (c :: cs).takeWhile (fun c => isalnum c || decide (c = '_')) ∧
              ((c :: cs) ++ b).dropWhile (fun c => isalnum c || decide (c = '_')) =
                (c :: cs).dropWhile (fun c => isalnum c || decide (c = '_')) ++ b := by
            rcases hid with hbnil | hlast
            · subst hbnil
              simp
            · apply takeWhile_dropWhile_append_of_stop
              have hsplit := List.takeWhile_append_dropWhile isspace a
              rw [hdrop] at hsplit
              have hlast2 : (c :: cs).getLast? = a.getLast? := by
                rw [← hsplit, List.getLast?_append_of_ne_nil _ (by simp)]
              obtain ⟨d, hd2⟩ : ∃ d, (c :: cs).getLast? = some d :=
                ⟨(c :: cs).getLast (by simp), List.getLast?_eq_getLast _ _⟩
              exact dropWhile_ne_nil_of_getLast _ _ d hd2 (hlast d (hlast2 ▸ hd2))
          have hval : (Lexer.mk (c :: (cs ++ b)) l0 k0).readIdentifier.1.value =
              (Lexer.mk (c :: cs) l0' k0').readIdentifier.1.value := by
            apply String.ext
            rw [h2, h2']
            exact hlist.1
          refine ⟨?_, hval, ?_⟩
          · rw [Lexer.readIdentifier_type, Lexer.readIdentifier_type, hval]
          · rw [h3, h3']
            exact hlist.2
        · simp only [ha, Bool.false_eq_true, if_false]
          exact Lexer.readOperator_append c cs b l0 k0 l0' k0' (fun d hd => (hb d hd).2)

theorem Lexer.getNextToken_indep (s : List Char) (l k l' k' : Nat) :
    (Lexer.mk s l k).getNextToken.1.type = (Lexer.mk s l' k').getNextToken.1.type ∧
      (Lexer.mk s l k).getNextToken.1.value = (Lexer.mk s l' k').getNextToken.1.value ∧
      (Lexer.mk s l k).getNextToken.2.rest = (Lexer.mk s l' k').getNextToken.2.rest := by
  have h := Lexer.getNextToken_append s [] l k l' k' (Or.inr rfl) (by simp) (Or.inl rfl)
  simpa using h

theorem Lexer.tokenTexts_eq (lx : Lexer) :
    lx.tokenize.map tokenTexts =
      if lx.getNextToken.1.type = .END_OF_FILE then
        some [(lx.getNextToken.1.type, lx.getNextToken.1.value)]
      else (lx.getNextToken.2.tokenize.map tokenTexts).map
        (fun r => (lx.getNextToken.1.type, lx.getNextToken.1.value) :: r) := by
  rw [Lexer.tokenize_eq]
  by_cases ht : lx.getNextToken.1.type = .END_OF_FILE
  · simp [ht, tokenTexts]
  · simp [ht, tokenTexts, Option.map_map, Function.comp_def]

theorem Lexer.tokenTexts_indep (n : Nat) (s : List Char) (hn : s.length ≤ n)
    (l k l' k' : Nat) :
    (Lexer.mk s l k).tokenize.map tokenTexts = (Lexer.mk s l' k').tokenize.map tokenTexts := by
  induction n generalizing s l k l' k' with
  | zero =>
    have : s = [] := List.length_eq_zero.mp (Nat.le_zero.mp hn)
    subst this
    rfl
  | succ n ih =>
    obtain ⟨h1, h2, h3⟩ := Lexer.getNextToken_indep s l k l' k'
    rw [Lexer.tokenTexts_eq, Lexer.tokenTexts_eq (Lexer.mk s l' k'), ← h1, ← h2]
    by_cases ht : (Lexer.mk s l k).getNextToken.1.type = .END_OF_FILE
    · simp [ht]
    · have hlt := Lexer.getNextToken_rest_lt _ ht
      simp only [ht, if_false]
      generalize (Lexer.mk s l k).getNextToken.2 = lx1 at h3 hlt ⊢
      generalize (Lexer.mk s l' k').getNextToken.2 = lx1' at h3 ⊢
      obtain ⟨s1, l1, k1⟩ := lx1
      obtain ⟨s1', l1', k1'⟩ := lx1'
      simp only at h3 hlt
      subst h3
      rw [ih s1 (by omega) l1 k1 l1' k1']

/-! ## Termination of the lexer (C6) -/

/-- C6: for every input text `tokenize` returns a token sequence; the sequence
ends in an END_OF_FILE token (so it is not empty) and holds no END_OF_FILE
token before the last one. -/
theorem tokenize_ends_in_single_eof (source : List Char) :
    ∃ body eof, tokenize source = some (body ++ [eof]) ∧ eof.type = .END_OF_FILE ∧
      ∀ t ∈ body, t.type ≠ .END_OF_FILE :=
  Lexer.tokenize_spec (Lexer.new source)

/-! ## Operators and delimiters (C8) -/

theorem Lexer.getNextToken_operator (lx : Lexer) (c : Char) (cs : List Char)
    (h : lx.rest.dropWhile isspace = c :: cs) (h0 : c ≠ Char.ofNat 0)
    (hd : isdigit c = false) (ha : isalpha c = false) (hu : c ≠ '_') :
    ∃ l k, lx.getNextToken = (Lexer.mk (c :: cs) l k).readOperator := by
  have hs := Lexer.skipWhitespace_rest lx
  simp only [Lexer.getNextToken]
  generalize lx.skipWhitespace = lx0 at hs ⊢
  obtain ⟨s0, l0, k0⟩ := lx0
  simp only at hs
  rw [h] at hs
  subst hs
  refine ⟨l0, k0, ?_⟩
  rw [Lexer.current_cons, if_neg h0, hd, ha]
  simp [hu]

/-- C8, counterexample: the characters `<` and `>` are none of
`+ - * / ( ) { } ; , =`, nor whitespace, digits, letters or underscores, and
they are lexed as LESS and GREATER, not as INVALID; and a NUL character is
lexed as END_OF_FILE. -/
theorem less_greater_are_not_invalid :
    (tokenize "<".data).map tokenTexts = some [(.LESS, "<"), (.END_OF_FILE, "")] ∧
      (tokenize ">".data).map tokenTexts = some [(.GREATER, ">"), (.END_OF_FILE, "")] ∧
      (tokenize [Char.ofNat 0, '+']).map tokenTexts = some [(.END_OF_FILE, "")] ∧
      (isspace '<' || isdigit '<' || isalpha '<' || decide ('<' = '_')) = false ∧
      (isspace '>' || isdigit '>' || isalpha '>' || decide ('>' = '_')) = false ∧
      (isspace (Char.ofNat 0) || isdigit (Char.ofNat 0) || isalpha (Char.ofNat 0) ||
        decide (Char.ofNat 0 = '_')) = false := by
  decide!

/-- C8, amended: when the first character after the whitespace under the cursor
is `c`, `getNextToken` returns the token of `c` and consumes exactly `c`: each
of `+ - * / < > ( ) { } ; ,` gives its own kind, `=` gives EQUAL (consuming
both characters) when the next character is `=` and ASSIGN otherwise, and every
other character that is not NUL, a digit, a letter or an underscore gives
INVALID with that single character as its text. -/
theorem operator_lexing (lx : Lexer) (c : Char) (cs : List Char)
    (h : lx.rest.dropWhile isspace = c :: cs) :
    (c = '+' → lx.getNextToken.1.type = .PLUS ∧ lx.getNextToken.1.value = "+" ∧
        lx.getNextToken.2.rest = cs) ∧
      (c = '-' → lx.getNextToken.1.type = .MINUS ∧ lx.getNextToken.1.value = "-" ∧
        lx.getNextToken.2.rest = cs) ∧
      (c = '*' → lx.getNextToken.1.type = .MULTIPLY ∧ lx.getNextToken.1.value = "*" ∧
        lx.getNextToken.2.rest = cs) ∧
      (c = '/' → lx.getNextToken.1.type = .DIVIDE ∧ lx.getNextToken.1.value = "/" ∧
        lx.getNextToken.2.rest = cs) ∧
      (c = '<' → lx.getNextToken.1.type = .LESS ∧ lx.getNextToken.1.value = "<" ∧
        lx.getNextToken.2.rest = cs) ∧
      (c = '>' → lx.getNextToken.1.type = .GREATER ∧ lx.getNextToken.1.value = ">" ∧
        lx.getNextToken.2.rest = cs) ∧
      (c = '(' → lx.getNextToken.1.type = .LPAREN ∧ lx.getNextToken.1.value = "(" ∧
        lx.getNextToken.2.rest = cs) ∧
      (c = ')' → lx.getNextToken.1.type = .RPAREN ∧ lx.getNextToken.1.value = ")" ∧
        lx.getNextToken.2.rest = cs) ∧
      (c = '\x7b' → lx.getNextToken.1.type = .LBRACE ∧ lx.getNextToken.1.value = "\x7b" ∧
        lx.getNextToken.2.rest = cs) ∧
      (c = '\x7d' → lx.getNextToken.1.type = .RBRACE ∧ lx.getNextToken.1.value = "\x7d" ∧
        lx.getNextToken.2.rest = cs) ∧
      (c = ';' → lx.getNextToken.1.type = .SEMICOLON ∧ lx.getNextToken.1.value = ";" ∧
        lx.getNextToken.2.rest = cs) ∧
      (c = ',' → lx.getNextToken.1.type = .COMMA ∧ lx.getNextToken.1.value = "," ∧
        lx.getNextToken.2.rest = cs) ∧
      (c = '=' → cs.head? = some '=' →
        lx.getNextToken.1.type = .EQUAL ∧ lx.getNextToken.1.value = "==" ∧
        lx.getNextToken.2.rest = cs.tail) ∧
      (c = '=' → cs.head? ≠ some '=' →
        lx.getNextToken.1.type = .ASSIGN ∧ lx.getNextToken.1.value = "=" ∧
        lx.getNextToken.2.rest = cs) ∧
      (c ∉ ['+', '-', '*', '/', '<', '>', '(', ')', '\x7b', '\x7d', ';', ',', '='] →
        c ≠ Char.ofNat 0 → isdigit c = false → isalpha c = false → c ≠ '_' →
        lx.getNextToken.1.type = .INVALID ∧ lx.getNextToken.1.value = String.singleton c ∧
        lx.getNextToken.2.rest = cs) := by
  have hr : ∀ l k, (Lexer.mk (c :: cs) l k).next.2.rest = cs := by
    intro l k; rw [Lexer.next_rest]; rfl
  refine ⟨?_, ?_, ?_, ?_, ?_, ?_, ?_, ?_, ?_, ?_, ?_, ?_, ?_, ?_, ?_⟩
  all_goals try (
    intro hc; subst hc
    obtain ⟨l, k, hg⟩ := Lexer.getNextToken_operator lx _ cs h (by decide) (by decide)
      (by decide) (by decide)
    rw [hg]
    simp [Lexer.readOperator, Lexer.current_cons, hr]
    done)
  · intro hc hnext
    subst hc
    obtain ⟨l, k, hg⟩ := Lexer.getNextToken_operator lx _ cs h (by decide) (by decide)
      (by decide) (by decide)
    rw [hg]
    cases cs with
    | nil => simp at hnext
    | cons d ds =>
      simp only [List.head?_cons, Option.some.injEq] at hnext
      subst hnext
      have hr1 := hr l k
      simp only [Lexer.readOperator, Lexer.current_cons]
      generalize (Lexer.mk ('=' :: '=' :: ds) l k).next.2 = lx1 at hr1 ⊢
      obtain ⟨s1, l1, k1⟩ := lx1
      simp only at hr1
      subst hr1
      simp [Lexer.current_cons, Lexer.next_rest]
  · intro hc hnext
    subst hc
    obtain ⟨l, k, hg⟩ := Lexer.getNextToken_operator lx _ cs h (by decide) (by decide)
      (by decide) (by decide)
    rw [hg]
    have hr1 := hr l k
    simp only [Lexer.readOperator, Lexer.current_cons]
    generalize (Lexer.mk ('=' :: cs) l k).next.2 = lx1 at hr1 ⊢
    obtain ⟨s1, l1, k1⟩ := lx1
    simp only at hr1
    subst hr1
    cases s1 with
    | nil => simp [Lexer.current_nil]
    | cons d ds =>
      have hd : d ≠ '=' := by simpa using hnext
      simp [Lexer.current_cons, hd]
  · intro hc h0 hd ha hu
    obtain ⟨l, k, hg⟩ := Lexer.getNextToken_operator lx _ cs h h0 hd ha hu
    rw [hg]
    simp only [List.mem_cons, List.mem_singleton, not_or, List.not_mem_nil, or_false] at hc
    obtain ⟨c1, c2, c3, c4, c5, c6, c7, c8, c9, c10, c11, c12, c13⟩ := hc
    simp [Lexer.readOperator, Lexer.current_cons, hr, c1, c2, c3, c4, c5, c6, c7, c8, c9, c10,
      c11, c12, c13]

/-- C8, the amended claim on the text ` ==1`: after the blank, the two
characters `==` give one EQUAL token. -/
theorem operator_lexing_witness :
    (Lexer.new " ==1".data).rest.dropWhile isspace = '=' :: "=1".data ∧
      (Lexer.new " ==1".data).getNextToken.1.type = .EQUAL ∧
      (Lexer.new " ==1".data).getNextToken.1.value = "==" ∧
      (Lexer.new " ==1".data).getNextToken.2.rest = "1".data :=
  ⟨by decide,
    (operator_lexing (Lexer.new " ==1".data) '=' "=1".data
      (by decide)).2.2.2.2.2.2.2.2.2.2.2.2.1 rfl rfl⟩

/-! ## Identifiers and keywords (C9) -/

theorem isalpha_or_underscore_facts (c : Char)
    (h : (isalpha c || decide (c = '_')) = true) :
    c ≠ Char.ofNat 0 ∧ isdigit c = false ∧ isspace c = false ∧
      (isalnum c || decide (c = '_')) = true := by
  simp only [Bool.or_eq_true, decide_eq_true_eq] at h
  rcases h with h | h
  · have hn : c ≠ Char.ofNat 0 := by
      intro h0
      rw [h0] at h
      exact absurd h (by decide)
    simp only [isalpha, Bool.or_eq_true, Bool.and_eq_true, decide_eq_true_eq] at h
    refine ⟨hn, ?_, ?_, ?_⟩
    · simp only [isdigit, Bool.and_eq_false_imp, decide_eq_true_eq, decide_eq_false_iff_not]
      omega
    · simp only [isspace, Bool.or_eq_false_iff, decide_eq_false_iff_not, Bool.and_eq_false_imp,
        decide_eq_true_eq]
      omega
    · simp only [isalnum, isalpha, Bool.or_eq_true, Bool.and_eq_true, decide_eq_true_eq]
      left; left; exact h
  · subst h
    decide

theorem Lexer.getNextToken_identifier (lx : Lexer) (w post : List Char)
    (h : lx.rest.dropWhile isspace = w ++ post)
    (hstart : ∃ c, w.head? = some c ∧ (isalpha c || decide (c = '_')) = true)
    (hall : ∀ c ∈ w, (isalnum c || decide (c = '_')) = true)
    (hright : ∀ c, post.head? = some c → (isalnum c || decide (c = '_')) = false) :
    lx.getNextToken.1.type = (keywords.lookup (String.mk w)).getD .IDENTIFIER ∧
      lx.getNextToken.1.value = String.mk w ∧ lx.getNextToken.2.rest = post := by
  obtain ⟨c, hc, hca⟩ := hstart
  obtain ⟨h0, hd, -, -⟩ := isalpha_or_underscore_facts c hca
  obtain ⟨cs, rfl⟩ : ∃ cs, w = c :: cs := by
    cases w with
    | nil => simp at hc
    | cons d ds => simp only [List.head?_cons, Option.some.injEq] at hc; exact ⟨ds, by rw [hc]⟩
  have hs := Lexer.skipWhitespace_rest lx
  rw [h] at hs
  have htake : ((c :: cs) ++ post).takeWhile (fun c => isalnum c || decide (c = '_')) =
      c :: cs := by
    rw [List.takeWhile_append_of_pos hall]
    cases post with
    | nil => simp
    | cons d ds => simp [List.takeWhile, hright d rfl]
  have hdrop : ((c :: cs) ++ post).dropWhile (fun c => isalnum c || decide (c = '_')) =
      post := by
    rw [List.dropWhile_append_of_pos hall]
    cases post with
    | nil => simp
    | cons d ds => simp [List.dropWhile, hright d rfl]
  simp only [Lexer.getNextToken]
  generalize lx.skipWhitespace = lx0 at hs ⊢
  obtain ⟨s0, l0, k0⟩ := lx0
  simp only at hs
  subst hs
  have hcur : (Lexer.mk (c :: cs ++ post) l0 k0).current = c := rfl
  rw [hcur, if_neg h0, hd]
  simp only [Bool.false_eq_true, if_false, hca, if_true]
  obtain ⟨-, h2, h3⟩ := Lexer.readIdentifier_text (c :: cs ++ post) l0 k0
  have hval : (Lexer.mk (c :: cs ++ post) l0 k0).readIdentifier.1.value = String.mk (c :: cs) := by
    apply String.ext
    rw [h2, htake]
  refine ⟨?_, hval, ?_⟩
  · rw [Lexer.readIdentifier_type, hval]
  · rw [h3, hdrop]

theorem Lexer.tokenTexts_identifier_run (n : Nat) (pre w post : List Char)
    (hn : pre.length ≤ n) (l k : Nat) (hnul : Char.ofNat 0 ∉ pre)
    (hstart : ∃ c, w.head? = some c ∧ (isalpha c || decide (c = '_')) = true)
    (hall : ∀ c ∈ w, (isalnum c || decide (c = '_')) = true)
    (hleft : ∀ c, pre.getLast? = some c → (isalnum c || decide (c = '_')) = false)
    (hright : ∀ c, post.head? = some c → (isalnum c || decide (c = '_')) = false) :
    ∃ before after,
      (Lexer.mk pre l k).tokenize.map tokenTexts = some (before ++ [(.END_OF_FILE, "")]) ∧
      (Lexer.mk post l k).tokenize.map tokenTexts = some after ∧
      (Lexer.mk (pre ++ (w ++ post)) l k).tokenize.map tokenTexts =
        some (before ++
          ((keywords.lookup (String.mk w)).getD .IDENTIFIER, String.mk w) :: after) := by
  induction n generalizing pre l k with
  | zero =>
    have hpre : pre = [] := List.length_eq_zero.mp (Nat.le_zero.mp hn)
    subst hpre
    obtain ⟨body, eof, hpost, -, -⟩ := Lexer.tokenize_spec (Lexer.mk post l k)
    obtain ⟨c, hc, hca⟩ := hstart
    obtain ⟨-, -, hsp, -⟩ := isalpha_or_underscore_facts c hca
    have hdw : (Lexer.mk ([] ++ (w ++ post)) l k).rest.dropWhile isspace = w ++ post := by
      cases w with
      | nil => simp at hc
      | cons d ds =>
        simp only [List.head?_cons, Option.some.injEq] at hc
        subst hc
        simp [List.dropWhile, hsp]
    obtain ⟨h1, h2, h3⟩ := Lexer.getNextToken_identifier _ w post hdw ⟨c, hc, hca⟩ hall hright
    have hne : (keywords.lookup (String.mk w)).getD .IDENTIFIER ≠ .END_OF_FILE := by
      cases hk : keywords.lookup (String.mk w) with
      | none => simp
      | some kw => simpa using keywords_lookup_ne_eof _ _ hk
    refine ⟨[], tokenTexts (body ++ [eof]), by rfl, by rw [hpost]; rfl, ?_⟩
    rw [Lexer.tokenTexts_eq, h1, h2, if_neg hne]
    generalize (Lexer.mk ([] ++ (w ++ post)) l k).getNextToken.2 = lx1 at h3 ⊢
    obtain ⟨s1, l1, k1⟩ := lx1
    simp only at h3
    subst h3
    rw [Lexer.tokenTexts_indep _ s1 (le_refl _) l1 k1 l k, hpost]
    rfl
  | succ n ih =>
    obtain ⟨c, hc, hca⟩ := hstart
    obtain ⟨-, hcd, hsp, -⟩ := isalpha_or_underscore_facts c hca
    obtain ⟨cs, rfl⟩ : ∃ cs, w = c :: cs := by
      cases w with
      | nil => simp at hc
      | cons d ds =>
        simp only [List.head?_cons, Option.some.injEq] at hc; exact ⟨ds, by rw [hc]⟩
    cases hdrop : pre.dropWhile isspace with
    | nil =>
      have hallsp : ∀ a ∈ pre, isspace a = true := by
        simpa [List.dropWhile_eq_nil_iff] using hdrop
      obtain ⟨body, eof, hpost, -, -⟩ := Lexer.tokenize_spec (Lexer.mk post l k)
      have hdw : (Lexer.mk (pre ++ (c :: cs ++ post)) l k).rest.dropWhile isspace =
          c :: cs ++ post := by
        simp only
        rw [List.dropWhile_append_of_pos hallsp]
        simp [List.dropWhile, hsp]
      obtain ⟨h1, h2, h3⟩ :=
        Lexer.getNextToken_identifier _ (c :: cs) post hdw ⟨c, hc, hca⟩ hall hright
      have hne : (keywords.lookup (String.mk (c :: cs))).getD .IDENTIFIER ≠ .END_OF_FILE := by
        cases hk : keywords.lookup (String.mk (c :: cs)) with
        | none => simp
        | some kw => simpa using keywords_lookup_ne_eof _ _ hk
      have hpreEof : (Lexer.mk pre l k).tokenize.map tokenTexts =
          some ([] ++ [(.END_OF_FILE, "")]) := by
        rw [Lexer.tokenTexts_eq]
        rcases Lexer.getNextToken_text (Lexer.mk pre l k) with ⟨g1, g2, -, -⟩ | ⟨-, g2, g3⟩
        · simp [g1, g2]
        · simp only [hdrop, List.append_eq_nil] at g3
          exact absurd g3.1 g2
      refine ⟨[], tokenTexts (body ++ [eof]), hpreEof, by rw [hpost]; rfl, ?_⟩
      rw [Lexer.tokenTexts_eq, h1, h2, if_neg hne]
      generalize (Lexer.mk (pre ++ (c :: cs ++ post)) l k).getNextToken.2 = lx1 at h3 ⊢
      obtain ⟨s1, l1, k1⟩ := lx1
      simp only at h3
      subst h3
      rw [Lexer.tokenTexts_indep _ s1 (le_refl _) l1 k1 l k, hpost]
      rfl
    | cons d ds =>
      have hsplit := List.takeWhile_append_dropWhile isspace pre
      rw [hdrop] at hsplit
      have hdmem : d ∈ pre := by rw [← hsplit]; simp
      have hd0 : d ≠ Char.ofNat 0 := fun h0 => hnul (h0 ▸ hdmem)
      -- the first token of `pre` is not END_OF_FILE
      have hfirst : (Lexer.mk pre l k).getNextToken.1.type ≠ .END_OF_FILE := by
        rcases Lexer.getNextToken_text (Lexer.mk pre l k) with ⟨-, -, -, g⟩ | ⟨g, -, -⟩
        · simp only [hdrop, List.head?_cons, Option.some.injEq] at g
          rcases g with g | g
          · exact absurd g (by simp)
          · exact absurd g hd0
        · exact g
      have htext : (Lexer.mk pre l k).getNextToken.1.value.data ++
          (Lexer.mk pre l k).getNextToken.2.rest = d :: ds := by
        rcases Lexer.getNextToken_text (Lexer.mk pre l k) with ⟨g, -, -, -⟩ | ⟨-, -, g⟩
        · exact absurd g hfirst
        · simpa [hdrop] using g
      have hlt := Lexer.getNextToken_rest_lt _ hfirst
      obtain ⟨g1, g2, g3⟩ := Lexer.getNextToken_append pre (c :: cs ++ post) l k l k
        (Or.inl (by rw [hdrop]; simp))
        (fun e he => by
          simp only [List.cons_append, List.head?_cons, Option.some.injEq] at he
          subst he
          refine ⟨hcd, ?_⟩
          intro heq
          rw [heq] at hca
          exact absurd hca (by decide))
        (Or.inr hleft)
      generalize hlx1 : (Lexer.mk pre l k).getNextToken.2 = lx1 at g3 htext hlt
      obtain ⟨pre1, l1, k1⟩ := lx1
      simp only at g3 htext hlt
      have hpre_eq : pre = (pre.takeWhile isspace ++
          (Lexer.mk pre l k).getNextToken.1.value.data) ++ pre1 := by
        rw [List.append_assoc, htext, hsplit]
      have hnul1 : Char.ofNat 0 ∉ pre1 := by
        intro hmem
        apply hnul
        rw [hpre_eq]
        exact List.mem_append_right _ hmem
      have hleft1 : ∀ c, pre1.getLast? = some c → (isalnum c || decide (c = '_')) = false := by
        intro e he
        apply hleft
        have hne1 : pre1 ≠ [] := by
          intro hnil
          rw [hnil] at he
          simp at he
        rw [hpre_eq, List.getLast?_append_of_ne_nil _ hne1]
        exact he
      obtain ⟨before1, after, i1, i2, i3⟩ :=
        ih pre1 (by omega) l k hnul1 hleft1
      refine ⟨((Lexer.mk pre l k).getNextToken.1.type,
        (Lexer.mk pre l k).getNextToken.1.value) :: before1, after, ?_, i2, ?_⟩
      · rw [Lexer.tokenTexts_eq, if_neg hfirst, hlx1,
          Lexer.tokenTexts_indep _ pre1 (le_refl _) l1 k1 l k, i1]
        rfl
      · rw [Lexer.tokenTexts_eq, g1, g2, if_neg hfirst]
        generalize (Lexer.mk (pre ++ (c :: cs ++ post)) l k).getNextToken.2 = lx2 at g3 ⊢
        obtain ⟨s2, l2, k2⟩ := lx2
        simp only at g3
        subst g3
        rw [Lexer.tokenTexts_indep _ _ (le_refl _) l2 k2 l k, i3]
        rfl

theorem keywords_lookup_eq (w : List Char) :
    (keywords.lookup (String.mk w)).getD .IDENTIFIER =
      if w = "let".data then .LET
      else if w = "if".data then .IF
      else if w = "else".data then .ELSE
      else if w = "while".data then .WHILE
      else if w = "return".data then .RETURN
      else .IDENTIFIER := by
  have hiff : ∀ t : String, (String.mk w == t) = decide (w = t.data) := by
    intro t
    by_cases h : w = t.data
    · subst h; simp
    · have : String.mk w ≠ t := fun heq => h (by rw [← heq])
      simp [h, this]
  simp only [keywords, List.lookup, hiff]
  by_cases h1 : w = "let".data
  · simp [h1]
  by_cases h2 : w = "if".data
  · simp [h2]
  by_cases h3 : w = "else".data
  · simp [h3]
  by_cases h4 : w = "while".data
  · simp [h4]
  by_cases h5 : w = "return".data
  · simp [h5]
  simp [h1, h2, h3, h4, h5]

/-- C9, counterexample: in the text made of a NUL character followed by `abc`
the run `abc` is maximal and starts with a letter, and `tokenize` returns the
END_OF_FILE token alone: no token has the text `abc`. -/
theorem run_after_nul_is_not_lexed :
    (tokenize (Char.ofNat 0 :: "abc".data)).map tokenTexts = some [(.END_OF_FILE, "")] ∧
      (isalnum (Char.ofNat 0) || decide (Char.ofNat 0 = '_')) = false := by
  decide!

/-- C9, amended: let the source be `pre ++ w ++ post` with no NUL character in
`pre`, where `w` is a maximal run of letters, digits and underscores (the
character before it and the character after it, if any, are none of these)
that starts with a letter or an underscore. Then `tokenize` emits the tokens
of `pre`, then exactly one token for `w`, with text `w` and with kind
LET, IF, ELSE, WHILE or RETURN when `w` is that keyword and IDENTIFIER
otherwise, then the tokens of `post`. -/
theorem identifier_lexing (pre w post : List Char) (hnul : Char.ofNat 0 ∉ pre)
    (hstart : ∃ c, w.head? = some c ∧ (isalpha c || decide (c = '_')) = true)
    (hall : ∀ c ∈ w, (isalnum c || decide (c = '_')) = true)
    (hleft : ∀ c, pre.getLast? = some c → (isalnum c || decide (c = '_')) = false)
    (hright : ∀ c, post.head? = some c → (isalnum c || decide (c = '_')) = false) :
    ∃ before after,
      (tokenize pre).map tokenTexts = some (before ++ [(.END_OF_FILE, "")]) ∧
      (tokenize post).map tokenTexts = some after ∧
      (tokenize (pre ++ w ++ post)).map tokenTexts =
        some (before ++
          [(if w = "let".data then TokenType.LET
            else if w = "if".data then .IF
            else if w = "else".data then .ELSE
            else if w = "while".data then .WHILE
            else if w = "return".data then .RETURN
            else .IDENTIFIER, String.mk w)] ++ after) := by
  obtain ⟨before, after, h1, h2, h3⟩ :=
    Lexer.tokenTexts_identifier_run pre.length pre w post (le_refl _) 1 1 hnul hstart hall
      hleft hright
  refine ⟨before, after, h1, h2, ?_⟩
  rw [← keywords_lookup_eq, List.append_assoc pre w post]
  simpa using h3

/-- C9, the amended claim on the source `x = letx;`: the run `letx` gives one
IDENTIFIER token between the tokens of `x = ` and those of `;`. -/
theorem identifier_lexing_witness :
    ∃ before after,
      (tokenize "x = ".data).map tokenTexts = some (before ++ [(.END_OF_FILE, "")]) ∧
      (tokenize ";".data).map tokenTexts = some after ∧
      (tokenize ("x = ".data ++ "letx".data ++ ";".data)).map tokenTexts =
        some (before ++ [(.IDENTIFIER, "letx")] ++ after) :=
  identifier_lexing "x = ".data "letx".data ";".data (by decide) ⟨'l', rfl, by decide⟩
    (by decide) (fun c hc => by cases hc; decide) (fun c hc => by cases hc; decide)

/-! ## The generator only appends lines -/

@[simp] theorem CodeGenerator.emit_assembly (cg : CodeGenerator) (line : String) :
    (cg.emit line).assembly = cg.assembly ++ [line] := rfl

@[simp] theorem CodeGenerator.emit_labelCounter (cg : CodeGenerator) (line : String) :
    (cg.emit line).labelCounter = cg.labelCounter := rfl

@[simp] theorem CodeGenerator.emit_variables (cg : CodeGenerator) (line : String) :
    (cg.emit line).variables_ = cg.variables_ := rfl

@[simp] theorem CodeGenerator.newLabel_assembly (cg : CodeGenerator) :
    cg.newLabel.2.assembly = cg.assembly := rfl

@[simp] theorem CodeGenerator.newLabel_labelCounter (cg : CodeGenerator) :
    cg.newLabel.2.labelCounter = cg.labelCounter + 1 := rfl

@[simp] theorem CodeGenerator.newLabel_text (cg : CodeGenerator) :
    cg.newLabel.1 = labelText cg.labelCounter := rfl

@[simp] theorem CodeGenerator.bindVariable_assembly (cg : CodeGenerator) (name : String) :
    (cg.bindVariable name).assembly =
      cg.assembly ++ ["    pop QWORD [rbp - " ++ toString ((cg.variables_.length + 1) * 8) ++ "]"] :=
  rfl

@[simp] theorem CodeGenerator.bindVariable_labelCounter (cg : CodeGenerator) (name : String) :
    (cg.bindVariable name).labelCounter = cg.labelCounter := rfl

/-! ## Stack balance (C5) -/

theorem CodeGenerator.generateOperator_balanced (cg cg' : CodeGenerator) (op : TokenType)
    (h : cg.generateOperator op = .ok cg') :
    ∃ out, cg'.assembly = cg.assembly ++ out ∧ out.countP isPush = 0 ∧ out.countP isPop = 0 := by
  cases op <;> simp only [CodeGenerator.generateOperator, Except.ok.injEq, reduceCtorEq] at h
  all_goals subst h
  · exact ⟨["    add rax, rbx"], by simp, by decide, by decide⟩
  · exact ⟨["    sub rax, rbx"], by simp, by decide, by decide⟩
  · exact ⟨["    imul rax, rbx"], by simp, by decide, by decide⟩
  · exact ⟨["    cqo", "    idiv rbx"], by simp, by decide, by decide⟩
  · exact ⟨["    cmp rax, rbx", "    sete al", "    movzx rax, al"], by simp, by decide,
      by decide⟩
  · exact ⟨["    cmp rax, rbx", "    setl al", "    movzx rax, al"], by simp, by decide,
      by decide⟩
  · exact ⟨["    cmp rax, rbx", "    setg al", "    movzx rax, al"], by simp, by decide,
      by decide⟩

theorem CodeGenerator.generateExpr_balanced (e : Expr) (cg cg' : CodeGenerator)
    (h : CodeGenerator.generateExpr e cg = .ok cg') :
    ∃ out, cg'.assembly = cg.assembly ++ out ∧ out.countP isPush = out.countP isPop + 1 := by
  induction e generalizing cg cg' with
  | NumberExpr value =>
    simp only [CodeGenerator.generateExpr, CodeGenerator.generateNumberExpr,
      Except.ok.injEq] at h
    subst h
    refine ⟨["    push " ++ toString value], by simp, ?_⟩
    have h1 : isPush ("    push " ++ toString value) = true := by
      simp [isPush, String.data_append, List.isPrefixOf]
    have h2 : isPop ("    push " ++ toString value) = false := by
      simp [isPop, String.data_append, List.isPrefixOf]
    simp [List.countP_cons, h1, h2]
  | IdentifierExpr name =>
    simp only [CodeGenerator.generateExpr, CodeGenerator.generateIdentifierExpr] at h
    split at h
    · exact absurd h (by simp)
    · rename_i slot _
      simp only [Except.ok.injEq] at h
      subst h
      refine ⟨["    push QWORD [rbp - " ++ toString (slot * 8) ++ "]"], by simp, ?_⟩
      have h1 : isPush ("    push QWORD [rbp - " ++ toString (slot * 8) ++ "]") = true := by
        simp [isPush, String.data_append, List.isPrefixOf]
      have h2 : isPop ("    push QWORD [rbp - " ++ toString (slot * 8) ++ "]") = false := by
        simp [isPop, String.data_append, List.isPrefixOf]
      simp [List.countP_cons, h1, h2]
  | BinaryExpr op left right ihl ihr =>
    simp only [CodeGenerator.generateExpr] at h
    split at h
    · exact absurd h (by simp)
    · rename_i cg1 h1
      split at h
      · exact absurd h (by simp)
      · rename_i cg2 h2
        split at h
        · exact absurd h (by simp)
        · rename_i cg3 h3
          simp only [Except.ok.injEq] at h
          subst h
          obtain ⟨o1, a1, b1⟩ := ihl cg cg1 h1
          obtain ⟨o2, a2, b2⟩ := ihr cg1 cg2 h2
          obtain ⟨o3, a3, b3, c3⟩ := CodeGenerator.generateOperator_balanced _ _ _ h3
          refine ⟨o1 ++ o2 ++ ["    pop rbx", "    pop rax"] ++ o3 ++ ["    push rax"], ?_, ?_⟩
          · simp [a3, a2, a1]
          · have p1 : isPush "    pop rbx" = false := by decide
            have p2 : isPush "    pop rax" = false := by decide
            have p3 : isPush "    push rax" = true := by decide
            have q1 : isPop "    pop rbx" = true := by decide
            have q2 : isPop "    pop rax" = true := by decide
            have q3 : isPop "    push rax" = false := by decide
            simp only [List.countP_append, List.countP_cons, List.countP_nil, p1, p2, p3, q1,
              q2, q3, b1, b2, b3, c3]
            simp
            omega

theorem isPush_label (k : Nat) :
    isPush (labelText k ++ ":") = false ∧ isPop (labelText k ++ ":") = false := by
  simp [isPush, isPop, labelText, String.data_append, List.isPrefixOf]

theorem isPush_jump (a : String) :
    isPush ("    jz " ++ a) = false ∧ isPop ("    jz " ++ a) = false ∧
      isPush ("    jmp " ++ a) = false ∧ isPop ("    jmp " ++ a) = false := by
  simp [isPush, isPop, String.data_append, List.isPrefixOf]

mutual
theorem CodeGenerator.generateStmt_balanced : ∀ (s : Stmt) (cg cg' : CodeGenerator),
    CodeGenerator.generateStmt s cg = .ok cg' →
    ∃ out, cg'.assembly = cg.assembly ++ out ∧ out.countP isPush = out.countP isPop
  | .LetStmt name value, cg, cg', h => by
    simp only [CodeGenerator.generateStmt] at h
    split at h
    · exact absurd h (by simp)
    · rename_i cg1 h1
      simp only [Except.ok.injEq] at h
      subst h
      obtain ⟨o1, a1, b1⟩ := CodeGenerator.generateExpr_balanced _ _ _ h1
      refine ⟨o1 ++ ["    pop QWORD [rbp - " ++ toString ((cg1.variables_.length + 1) * 8) ++
        "]"], by simp [a1], ?_⟩
      have p1 : isPush ("    pop QWORD [rbp - " ++ toString ((cg1.variables_.length + 1) * 8) ++
          "]") = false := by simp [isPush, String.data_append, List.isPrefixOf]
      have q1 : isPop ("    pop QWORD [rbp - " ++ toString ((cg1.variables_.length + 1) * 8) ++
          "]") = true := by simp [isPop, String.data_append, List.isPrefixOf]
      simp [List.countP_append, List.countP_cons, p1, q1, b1]
  | .ExprStmt expr, cg, cg', h => by
    simp only [CodeGenerator.generateStmt] at h
    split at h
    · exact absurd h (by simp)
    · rename_i cg1 h1
      simp only [Except.ok.injEq] at h
      subst h
      obtain ⟨o1, a1, b1⟩ := CodeGenerator.generateExpr_balanced _ _ _ h1
      refine ⟨o1 ++ ["    pop rax"], by simp [a1], ?_⟩
      have p1 : isPush "    pop rax" = false := by decide
      have q1 : isPop "    pop rax" = true := by decide
      simp [List.countP_append, List.countP_cons, p1, q1, b1]
  | .BlockStmt statements, cg, cg', h => by
    simp only [CodeGenerator.generateStmt] at h
    exact CodeGenerator.generateStmts_balanced statements cg cg' h
  | .IfStmt condition thenBranch elseBranch, cg, cg', h => by
    simp only [CodeGenerator.generateStmt] at h
    split at h
    · exact absurd h (by simp)
    · rename_i cg1 h1
      split at h
      · exact absurd h (by simp)
      · rename_i cg2 h2
        split at h
        · exact absurd h (by simp)
        · rename_i cg3 h3
          simp only [Except.ok.injEq] at h
          subst h
          obtain ⟨o1, a1, b1⟩ := CodeGenerator.generateExpr_balanced _ _ _ h1
          obtain ⟨o2, a2, b2⟩ := CodeGenerator.generateStmt_balanced thenBranch _ _ h2
          obtain ⟨o3, a3, b3⟩ := CodeGenerator.generateElse_balanced elseBranch _ _ h3
          refine ⟨o1 ++ ["    pop rax", "    test rax, rax",
            "    jz " ++ labelText cg.labelCounter] ++ o2 ++
            ["    jmp " ++ labelText (cg.labelCounter + 1), labelText cg.labelCounter ++ ":"] ++
            o3 ++ [labelText (cg.labelCounter + 1) ++ ":"], ?_, ?_⟩
          · simp [a3, a2, a1]
          · have p1 : isPush "    pop rax" = false := by decide
            have q1 : isPop "    pop rax" = true := by decide
            have p2 : isPush "    test rax, rax" = false := by decide
            have q2 : isPop "    test rax, rax" = false := by decide
            simp only [List.countP_append, List.countP_cons, List.countP_nil, p1, q1, p2, q2,
              isPush_jump, isPush_label, b1, b2, b3]
            simp
  | .WhileStmt condition body, cg, cg', h => by
    simp only [CodeGenerator.generateStmt] at h
    split at h
    · exact absurd h (by simp)
    · rename_i cg1 h1
      split at h
      · exact absurd h (by simp)
      · rename_i cg2 h2
        simp only [Except.ok.injEq] at h
        subst h
        obtain ⟨o1, a1, b1⟩ := CodeGenerator.generateExpr_balanced _ _ _ h1
        obtain ⟨o2, a2, b2⟩ := CodeGenerator.generateStmt_balanced body _ _ h2
        refine ⟨[labelText cg.labelCounter ++ ":"] ++ o1 ++ ["    pop rax", "    test rax, rax",
          "    jz " ++ labelText (cg.labelCounter + 1)] ++ o2 ++
          ["    jmp " ++ labelText cg.labelCounter, labelText (cg.labelCounter + 1) ++ ":"],
          ?_, ?_⟩
        · simp [a2, a1]
        · have p1 : isPush "    pop rax" = false := by decide
          have q1 : isPop "    pop rax" = true := by decide
          have p2 : isPush "    test rax, rax" = false := by decide
          have q2 : isPop "    test rax, rax" = false := by decide
          simp only [List.countP_append, List.countP_cons, List.countP_nil, p1, q1, p2, q2,
            isPush_jump, isPush_label, b1, b2]
          simp
theorem CodeGenerator.generateStmts_balanced : ∀ (ss : List Stmt) (cg cg' : CodeGenerator),
    CodeGenerator.generateStmts ss cg = .ok cg' →
    ∃ out, cg'.assembly = cg.assembly ++ out ∧ out.countP isPush = out.countP isPop
  | [], cg, cg', h => by
    simp only [CodeGenerator.generateStmts, Except.ok.injEq] at h
    subst h
    exact ⟨[], by simp, rfl⟩
  | s :: rest, cg, cg', h => by
    simp only [CodeGenerator.generateStmts] at h
    split at h
    · exact absurd h (by simp)
    · rename_i cg1 h1
      obtain ⟨o1, a1, b1⟩ := CodeGenerator.generateStmt_balanced s _ _ h1
      obtain ⟨o2, a2, b2⟩ := CodeGenerator.generateStmts_balanced rest _ _ h
      exact ⟨o1 ++ o2, by simp [a2, a1], by simp [List.countP_append, b1, b2]⟩
theorem CodeGenerator.generateElse_balanced : ∀ (e : Option Stmt) (cg cg' : CodeGenerator),
    CodeGenerator.generateElse e cg = .ok cg' →
    ∃ out, cg'.assembly = cg.assembly ++ out ∧ out.countP isPush = out.countP isPop
  | none, cg, cg', h => by
    simp only [CodeGenerator.generateElse, Except.ok.injEq] at h
    subst h
    exact ⟨[], by simp, rfl⟩
  | some s, cg, cg', h => by
    simp only [CodeGenerator.generateElse] at h
    exact CodeGenerator.generateStmt_balanced s cg cg' h
end

/-- C5: whenever generation of an expression succeeds, the lines it appended
hold exactly one more `push` than `pop`; whenever generation of a statement
(of any kind, at any nesting) succeeds, the lines it appended hold as many
`push` as `pop`. -/
theorem stack_balance :
    (∀ (e : Expr) (cg cg' : CodeGenerator), CodeGenerator.generateExpr e cg = .ok cg' →
      ∃ out, cg'.assembly = cg.assembly ++ out ∧
        out.countP isPush = out.countP isPop + 1) ∧
    (∀ (s : Stmt) (cg cg' : CodeGenerator), CodeGenerator.generateStmt s cg = .ok cg' →
      ∃ out, cg'.assembly = cg.assembly ++ out ∧ out.countP isPush = out.countP isPop) :=
  ⟨CodeGenerator.generateExpr_balanced, CodeGenerator.generateStmt_balanced⟩

/-- C5 on the expression `1 < x` and on the statement
`if (1 < x) x else let y = 3;`, generated with `x` bound to slot 1: the
expression appends three `push` and two `pop` lines, the statement five of
each. -/
theorem stack_balance_witness :
    (∃ out, ["    push 1", "    push QWORD [rbp - 8]", "    pop rbx", "    pop rax",
        "    cmp rax, rbx", "    setl al", "    movzx rax, al", "    push rax"] = [] ++ out ∧
      out.countP isPush = out.countP isPop + 1) ∧
    (∃ out, ["    push 1", "    push QWORD [rbp - 8]", "    pop rbx", "    pop rax",
        "    cmp rax, rbx", "    setl al", "    movzx rax, al", "    push rax", "    pop rax",
        "    test rax, rax", "    jz L0", "    push QWORD [rbp - 8]", "    pop rax",
        "    jmp L1", "L0:", "    push 3", "    pop QWORD [rbp - 16]", "L1:"] = [] ++ out ∧
      out.countP isPush = out.countP isPop) :=
  ⟨stack_balance.1 (.BinaryExpr .LESS (.NumberExpr 1) (.IdentifierExpr "x"))
      ⟨[], [("x", 1)], 0⟩
      ⟨["    push 1", "    push QWORD [rbp - 8]", "    pop rbx", "    pop rax",
        "    cmp rax, rbx", "    setl al", "    movzx rax, al", "    push rax"],
        [("x", 1)], 0⟩ (by decide),
    stack_balance.2
      (.IfStmt (.BinaryExpr .LESS (.NumberExpr 1) (.IdentifierExpr "x"))
        (.ExprStmt (.IdentifierExpr "x")) (some (.LetStmt "y" (.NumberExpr 3))))
      ⟨[], [("x", 1)], 0⟩
      ⟨["    push 1", "    push QWORD [rbp - 8]", "    pop rbx", "    pop rax",
        "    cmp rax, rbx", "    setl al", "    movzx rax, al", "    push rax", "    pop rax",
        "    test rax, rax", "    jz L0", "    push QWORD [rbp - 8]", "    pop rax",
        "    jmp L1", "L0:", "    push 3", "    pop QWORD [rbp - 16]", "L1:"],
        [("x", 1), ("y", 2)], 2⟩ (by decide)⟩

/-! ## Label texts are distinct -/

theorem digitChar_toNat (m : Nat) (h : m < 10) : (Nat.digitChar m).toNat - 48 = m := by
  interval_cases m <;> rfl

theorem toDigitsCore_decode (fuel n : Nat) (ds : List Char) (h : n < fuel) :
    (Nat.toDigitsCore 10 fuel n ds).foldl (fun a c => 10 * a + (c.toNat - 48)) 0 =
      ds.foldl (fun a c => 10 * a + (c.toNat - 48)) n := by
  induction fuel generalizing n ds with
  | zero => omega
  | succ f ih =>
    simp only [Nat.toDigitsCore]
    by_cases h0 : n / 10 = 0
    · simp only [h0, if_true, List.foldl_cons, Nat.mul_zero, Nat.zero_add]
      rw [digitChar_toNat _ (Nat.mod_lt _ (by decide))]
      congr 1
      omega
    · simp only [h0, if_false]
      rw [ih (n / 10) _ (by omega)]
      simp only [List.foldl_cons]
      rw [digitChar_toNat _ (Nat.mod_lt _ (by decide))]
      congr 1
      omega

theorem toString_nat_injective (a b : Nat) (h : toString a = toString b) : a = b := by
  have h1 : Nat.repr a = Nat.repr b := h
  have h2 := congrArg (fun s : String => s.data.foldl (fun a c => 10 * a + (c.toNat - 48)) 0) h1
  simp only [Nat.repr, List.asString, Nat.toDigits] at h2
  rw [toDigitsCore_decode _ _ _ (by omega), toDigitsCore_decode _ _ _ (by omega)] at h2
  simpa using h2

theorem labelText_injective (a b : Nat) (h : labelText a = labelText b) : a = b := by
  apply toString_nat_injective
  have h1 := congrArg String.data h
  simp only [labelText, String.data_append, List.append_cancel_left_eq] at h1
  exact String.ext h1

/-! ## Counting label definitions and jumps -/

theorem labelDefs_append (k : Nat) (x y : List String) :
    labelDefs k (x ++ y) = labelDefs k x + labelDefs k y := by
  simp [labelDefs, List.count_append]

theorem labelJumps_append (k : Nat) (x y : List String) :
    labelJumps k (x ++ y) = labelJumps k x + labelJumps k y := by
  simp only [labelJumps, List.count_append]
  omega

theorem labelDefs_nil (k : Nat) : labelDefs k [] = 0 := rfl

theorem labelJumps_nil (k : Nat) : labelJumps k [] = 0 := rfl

theorem startsWithL_label (k : Nat) :
    startsWithL (labelText k ++ ":") = true ∧ isJump (labelText k ++ ":") = false := by
  simp [startsWithL, isJump, labelText, String.data_append, List.isPrefixOf]

theorem startsWithL_jump (t : String) :
    startsWithL ("    jz " ++ t) = false ∧ isJump ("    jz " ++ t) = true ∧
      startsWithL ("    jmp " ++ t) = false ∧ isJump ("    jmp " ++ t) = true := by
  simp [startsWithL, isJump, String.data_append, List.isPrefixOf]

theorem labelDefs_label (k a : Nat) :
    labelDefs k [labelText a ++ ":"] = if a = k then 1 else 0 := by
  by_cases h : a = k
  · subst h; simp [labelDefs]
  · have hne : labelText a ++ ":" ≠ labelText k ++ ":" := by
      intro heq
      apply h
      apply labelText_injective
      have h1 := congrArg String.data heq
      simp only [String.data_append, List.append_cancel_right_eq] at h1
      exact String.ext h1
    simp [labelDefs, List.count_cons, h, hne]

theorem labelJumps_jz (k a : Nat) :
    labelJumps k ["    jz " ++ labelText a] = if a = k then 1 else 0 := by
  have hne2 : "    jz " ++ labelText a ≠ "    jmp " ++ labelText k := by
    intro heq
    have h1 := congrArg String.data heq
    simp [String.data_append] at h1
  by_cases h : a = k
  · subst h; simp [labelJumps, List.count_cons, hne2]
  · have hne : "    jz " ++ labelText a ≠ "    jz " ++ labelText k := by
      intro heq
      apply h
      apply labelText_injective
      have h1 := congrArg String.data heq
      simp only [String.data_append, List.append_cancel_left_eq] at h1
      exact String.ext h1
    simp [labelJumps, List.count_cons, h, hne, hne2]

theorem labelJumps_jmp (k a : Nat) :
    labelJumps k ["    jmp " ++ labelText a] = if a = k then 1 else 0 := by
  have hne2 : "    jmp " ++ labelText a ≠ "    jz " ++ labelText k := by
    intro heq
    have h1 := congrArg String.data heq
    simp [String.data_append] at h1
  by_cases h : a = k
  · subst h; simp [labelJumps, List.count_cons, hne2]
  · have hne : "    jmp " ++ labelText a ≠ "    jmp " ++ labelText k := by
      intro heq
      apply h
      apply labelText_injective
      have h1 := congrArg String.data heq
      simp only [String.data_append, List.append_cancel_left_eq] at h1
      exact String.ext h1
    simp [labelJumps, List.count_cons, h, hne, hne2]

theorem labelDefs_of_not_startsWithL (k : Nat) (out : List String)
    (h : ∀ l ∈ out, startsWithL l = false) : labelDefs k out = 0 := by
  rw [labelDefs, List.count_eq_zero]
  intro hmem
  have := h _ hmem
  rw [(startsWithL_label k).1] at this
  exact Bool.noConfusion this

theorem labelJumps_of_not_isJump (k : Nat) (out : List String)
    (h : ∀ l ∈ out, isJump l = false) : labelJumps k out = 0 := by
  have h1 : out.count ("    jz " ++ labelText k) = 0 := by
    rw [List.count_eq_zero]
    intro hmem
    have := h _ hmem
    rw [(startsWithL_jump _).2.1] at this
    exact Bool.noConfusion this
  have h2 : out.count ("    jmp " ++ labelText k) = 0 := by
    rw [List.count_eq_zero]
    intro hmem
    have := h _ hmem
    rw [(startsWithL_jump _).2.2.2] at this
    exact Bool.noConfusion this
  rw [labelJumps, h1, h2]

theorem countP_eq_zero_of_forall {p : String → Bool} (out : List String)
    (h : ∀ l ∈ out, p l = false) : out.countP p = 0 := by
  rw [List.countP_eq_zero]
  intro l hl
  simp [h l hl]

/-! ## Label uniqueness (C4) -/

theorem CodeGenerator.generateOperator_plain (cg cg' : CodeGenerator) (op : TokenType)
    (h : cg.generateOperator op = .ok cg') :
    ∃ out, cg'.assembly = cg.assembly ++ out ∧ cg'.labelCounter = cg.labelCounter ∧
      ∀ l ∈ out, startsWithL l = false ∧ isJump l = false := by
  cases op <;> simp only [CodeGenerator.generateOperator, Except.ok.injEq, reduceCtorEq] at h
  all_goals subst h
  · exact ⟨["    add rax, rbx"], by simp, rfl, by decide⟩
  · exact ⟨["    sub rax, rbx"], by simp, rfl, by decide⟩
  · exact ⟨["    imul rax, rbx"], by simp, rfl, by decide⟩
  · exact ⟨["    cqo", "    idiv rbx"], by simp, rfl, by decide⟩
  · exact ⟨["    cmp rax, rbx", "    sete al", "    movzx rax, al"], by simp, rfl, by decide⟩
  · exact ⟨["    cmp rax, rbx", "    setl al", "    movzx rax, al"], by simp, rfl, by decide⟩
  · exact ⟨["    cmp rax, rbx", "    setg al", "    movzx rax, al"], by simp, rfl, by decide⟩

theorem CodeGenerator.generateExpr_plain (e : Expr) (cg cg' : CodeGenerator)
    (h : CodeGenerator.generateExpr e cg = .ok cg') :
    ∃ out, cg'.assembly = cg.assembly ++ out ∧ cg'.labelCounter = cg.labelCounter ∧
      ∀ l ∈ out, startsWithL l = false ∧ isJump l = false := by
  induction e generalizing cg cg' with
  | NumberExpr value =>
    simp only [CodeGenerator.generateExpr, CodeGenerator.generateNumberExpr,
      Except.ok.injEq] at h
    subst h
    refine ⟨["    push " ++ toString value], by simp, rfl, ?_⟩
    simp [startsWithL, isJump, String.data_append, List.isPrefixOf]
  | IdentifierExpr name =>
    simp only [CodeGenerator.generateExpr, CodeGenerator.generateIdentifierExpr] at h
    split at h
    · exact absurd h (by simp)
    · rename_i slot _
      simp only [Except.ok.injEq] at h
      subst h
      refine ⟨["    push QWORD [rbp - " ++ toString (slot * 8) ++ "]"], by simp, rfl, ?_⟩
      simp [startsWithL, isJump, String.data_append, List.isPrefixOf]
  | BinaryExpr op left right ihl ihr =>
    simp only [CodeGenerator.generateExpr] at h
    split at h
    · exact absurd h (by simp)
    · rename_i cg1 h1
      split at h
      · exact absurd h (by simp)
      · rename_i cg2 h2
        split at h
        · exact absurd h (by simp)
        · rename_i cg3 h3
          simp only [Except.ok.injEq] at h
          subst h
          obtain ⟨o1, a1, b1, c1⟩ := ihl cg cg1 h1
          obtain ⟨o2, a2, b2, c2⟩ := ihr cg1 cg2 h2
          obtain ⟨o3, a3, b3, c3⟩ := CodeGenerator.generateOperator_plain _ _ _ h3
          refine ⟨o1 ++ o2 ++ ["    pop rbx", "    pop rax"] ++ o3 ++ ["    push rax"], ?_, ?_,
            ?_⟩
          · simp [a3, a2, a1]
          · simp [b3, b2, b1]
          · intro l hl
            simp only [List.mem_append, List.mem_cons, List.mem_singleton, List.not_mem_nil,
              or_false] at hl
            rcases hl with (((hl | hl) | hl | hl) | hl) | hl
            · exact c1 l hl
            · exact c2 l hl
            · subst hl; decide
            · subst hl; decide
            · exact c3 l hl
            · subst hl; decide

theorem plain_profile (out : List String)
    (h : ∀ l ∈ out, startsWithL l = false ∧ isJump l = false) (k : Nat) :
    labelDefs k out = 0 ∧ labelJumps k out = 0 ∧ out.countP startsWithL = 0 ∧
      out.countP isJump = 0 :=
  ⟨labelDefs_of_not_startsWithL k out (fun l hl => (h l hl).1),
    labelJumps_of_not_isJump k out (fun l hl => (h l hl).2),
    countP_eq_zero_of_forall out (fun l hl => (h l hl).1),
    countP_eq_zero_of_forall out (fun l hl => (h l hl).2)⟩

theorem plain_pop_test : ∀ l ∈ ["    pop rax", "    test rax, rax"],
    startsWithL l = false ∧ isJump l = false := by decide

theorem plain_pop_slot (n : Nat) : ∀ l ∈ ["    pop QWORD [rbp - " ++ toString n ++ "]"],
    startsWithL l = false ∧ isJump l = false := by
  simp [startsWithL, isJump, String.data_append, List.isPrefixOf]

theorem countP_label (a : Nat) :
    [labelText a ++ ":"].countP startsWithL = 1 ∧ [labelText a ++ ":"].countP isJump = 0 := by
  simp [List.countP_cons, startsWithL_label]

theorem countP_jump (t : String) :
    ["    jz " ++ t].countP startsWithL = 0 ∧ ["    jz " ++ t].countP isJump = 1 ∧
      ["    jmp " ++ t].countP startsWithL = 0 ∧ ["    jmp " ++ t].countP isJump = 1 := by
  simp [List.countP_cons, startsWithL_jump]

theorem labelDefs_jump (k : Nat) (t : String) :
    labelDefs k ["    jz " ++ t] = 0 ∧ labelDefs k ["    jmp " ++ t] = 0 :=
  ⟨labelDefs_of_not_startsWithL k _ (by simp [startsWithL_jump]),
    labelDefs_of_not_startsWithL k _ (by simp [startsWithL_jump])⟩

theorem labelJumps_label (k a : Nat) : labelJumps k [labelText a ++ ":"] = 0 :=
  labelJumps_of_not_isJump k _ (by simp [startsWithL_label])

mutual
theorem CodeGenerator.generateStmt_labels : ∀ (s : Stmt) (cg cg' : CodeGenerator),
    CodeGenerator.generateStmt s cg = .ok cg' →
    ∃ out, cg'.assembly = cg.assembly ++ out ∧
      cg'.labelCounter = cg.labelCounter + 2 * s.branches ∧
      (∀ k, labelDefs k out =
        if cg.labelCounter ≤ k ∧ k < cg.labelCounter + 2 * s.branches then 1 else 0) ∧
      (∀ k, labelJumps k out =
        if cg.labelCounter ≤ k ∧ k < cg.labelCounter + 2 * s.branches then 1 else 0) ∧
      out.countP startsWithL = 2 * s.branches ∧ out.countP isJump = 2 * s.branches
  | .LetStmt name value, cg, cg', h => by
    simp only [CodeGenerator.generateStmt] at h
    split at h
    · exact absurd h (by simp)
    · rename_i cg1 h1
      simp only [Except.ok.injEq] at h
      subst h
      obtain ⟨o1, a1, b1, c1⟩ := CodeGenerator.generateExpr_plain _ _ _ h1
      have hp : ∀ l ∈ o1 ++ ["    pop QWORD [rbp - " ++
          toString ((cg1.variables_.length + 1) * 8) ++ "]"],
          startsWithL l = false ∧ isJump l = false := by
        intro l hl
        rcases List.mem_append.mp hl with hl | hl
        · exact c1 l hl
        · exact plain_pop_slot _ l hl
      refine ⟨o1 ++ ["    pop QWORD [rbp - " ++
        toString ((cg1.variables_.length + 1) * 8) ++ "]"], by simp [a1],
        by simp [b1, Stmt.branches], ?_, ?_, ?_, ?_⟩
      · intro k; rw [(plain_profile _ hp k).1]; simp only [Stmt.branches]; split_ifs <;> omega
      · intro k; rw [(plain_profile _ hp k).2.1]; simp only [Stmt.branches]; split_ifs <;> omega
      · rw [(plain_profile _ hp 0).2.2.1]; simp [Stmt.branches]
      · rw [(plain_profile _ hp 0).2.2.2]; simp [Stmt.branches]
  | .ExprStmt expr, cg, cg', h => by
    simp only [CodeGenerator.generateStmt] at h
    split at h
    · exact absurd h (by simp)
    · rename_i cg1 h1
      simp only [Except.ok.injEq] at h
      subst h
      obtain ⟨o1, a1, b1, c1⟩ := CodeGenerator.generateExpr_plain _ _ _ h1
      have hp : ∀ l ∈ o1 ++ ["    pop rax"], startsWithL l = false ∧ isJump l = false := by
        intro l hl
        rcases List.mem_append.mp hl with hl | hl
        · exact c1 l hl
        · simp only [List.mem_singleton] at hl; subst hl; decide
      refine ⟨o1 ++ ["    pop rax"], by simp [a1], by simp [b1, Stmt.branches], ?_, ?_, ?_, ?_⟩
      · intro k; rw [(plain_profile _ hp k).1]; simp only [Stmt.branches]; split_ifs <;> omega
      · intro k; rw [(plain_profile _ hp k).2.1]; simp only [Stmt.branches]; split_ifs <;> omega
      · rw [(plain_profile _ hp 0).2.2.1]; simp [Stmt.branches]
      · rw [(plain_profile _ hp 0).2.2.2]; simp [Stmt.branches]
  | .BlockStmt statements, cg, cg', h => by
    simp only [CodeGenerator.generateStmt] at h
    simpa only [Stmt.branches] using CodeGenerator.generateStmts_labels statements cg cg' h
  | .IfStmt condition thenBranch elseBranch, cg, cg', h => by
    simp only [CodeGenerator.generateStmt] at h
    split at h
    · exact absurd h (by simp)
    · rename_i cg1 h1
      split at h
      · exact absurd h (by simp)
      · rename_i cg2 h2
        split at h
        · exact absurd h (by simp)
        · rename_i cg3 h3
          simp only [Except.ok.injEq] at h
          subst h
          obtain ⟨o1, a1, b1, c1⟩ := CodeGenerator.generateExpr_plain _ _ _ h1
          obtain ⟨o2, a2, b2, d2, j2, l2, m2⟩ :=
            CodeGenerator.generateStmt_labels thenBranch _ _ h2
          obtain ⟨o3, a3, b3, d3, j3, l3, m3⟩ :=
            CodeGenerator.generateElse_labels elseBranch _ _ h3
          simp only [CodeGenerator.emit_labelCounter, CodeGenerator.newLabel_labelCounter,
            CodeGenerator.newLabel_text] at b1 b2 d2 j2 b3 d3 j3 a2 a3 ⊢
          simp only [b1] at b2 d2 j2
          simp only [b2] at b3 d3 j3
          refine ⟨o1 ++ ["    pop rax", "    test rax, rax"] ++
            ["    jz " ++ labelText cg.labelCounter] ++ o2 ++
            ["    jmp " ++ labelText (cg.labelCounter + 1)] ++
            [labelText cg.labelCounter ++ ":"] ++ o3 ++
            [labelText (cg.labelCounter + 1) ++ ":"], ?_, ?_, ?_, ?_, ?_, ?_⟩
          · simp [a3, a2, a1]
          · simp only [CodeGenerator.emit_labelCounter, b3, Stmt.branches]; omega
          · intro k
            simp only [labelDefs_append, (plain_profile _ c1 k).1,
              (plain_profile _ plain_pop_test k).1, (labelDefs_jump k _).1,
              (labelDefs_jump k _).2, labelDefs_label, d2 k, d3 k, Stmt.branches]
            split_ifs <;> omega
          · intro k
            simp only [labelJumps_append, (plain_profile _ c1 k).2.1,
              (plain_profile _ plain_pop_test k).2.1, labelJumps_jz, labelJumps_jmp,
              labelJumps_label, j2 k, j3 k, Stmt.branches]
            split_ifs <;> omega
          · simp only [List.countP_append, (plain_profile _ c1 0).2.2.1,
              (plain_profile _ plain_pop_test 0).2.2.1, (countP_label _).1, (countP_jump _).1,
              (countP_jump _).2.2.1, l2, l3, Stmt.branches]
            omega
          · simp only [List.countP_append, (plain_profile _ c1 0).2.2.2,
              (plain_profile _ plain_pop_test 0).2.2.2, (countP_label _).2, (countP_jump _).2.1,
              (countP_jump _).2.2.2, m2, m3, Stmt.branches]
            omega
  | .WhileStmt condition body, cg, cg', h => by
    simp only [CodeGenerator.generateStmt] at h
    split at h
    · exact absurd h (by simp)
    · rename_i cg1 h1
      split at h
      · exact absurd h (by simp)
      · rename_i cg2 h2
        simp only [Except.ok.injEq] at h
        subst h
        obtain ⟨o1, a1, b1, c1⟩ := CodeGenerator.generateExpr_plain _ _ _ h1
        obtain ⟨o2, a2, b2, d2, j2, l2, m2⟩ := CodeGenerator.generateStmt_labels body _ _ h2
        simp only [CodeGenerator.emit_labelCounter, CodeGenerator.newLabel_labelCounter,
          CodeGenerator.newLabel_text, CodeGenerator.emit_assembly,
          CodeGenerator.newLabel_assembly] at b1 b2 d2 j2 a1 a2 ⊢
        simp only [b1] at b2 d2 j2
        refine ⟨[labelText cg.labelCounter ++ ":"] ++ o1 ++
          ["    pop rax", "    test rax, rax"] ++
          ["    jz " ++ labelText (cg.labelCounter + 1)] ++ o2 ++
          ["    jmp " ++ labelText cg.labelCounter] ++
          [labelText (cg.labelCounter + 1) ++ ":"], ?_, ?_, ?_, ?_, ?_, ?_⟩
        · simp [a2, a1]
        · simp only [b2, Stmt.branches]; omega
        · intro k
          simp only [labelDefs_append, (plain_profile _ c1 k).1,
            (plain_profile _ plain_pop_test k).1, (labelDefs_jump k _).1,
            (labelDefs_jump k _).2, labelDefs_label, d2 k, Stmt.branches]
          split_ifs <;> omega
        · intro k
          simp only [labelJumps_append, (plain_profile _ c1 k).2.1,
            (plain_profile _ plain_pop_test k).2.1, labelJumps_jz, labelJumps_jmp,
            labelJumps_label, j2 k, Stmt.branches]
          split_ifs <;> omega
        · simp only [List.countP_append, (plain_profile _ c1 0).2.2.1,
            (plain_profile _ plain_pop_test 0).2.2.1, (countP_label _).1, (countP_jump _).1,
            (countP_jump _).2.2.1, l2, Stmt.branches]
          omega
        · simp only [List.countP_append, (plain_profile _ c1 0).2.2.2,
            (plain_profile _ plain_pop_test 0).2.2.2, (countP_label _).2, (countP_jump _).2.1,
            (countP_jump _).2.2.2, m2, Stmt.branches]
          omega
theorem CodeGenerator.generateStmts_labels : ∀ (ss : List Stmt) (cg cg' : CodeGenerator),
    CodeGenerator.generateStmts ss cg = .ok cg' →
    ∃ out, cg'.assembly = cg.assembly ++ out ∧
      cg'.labelCounter = cg.labelCounter + 2 * Stmt.branchesList ss ∧
      (∀ k, labelDefs k out =
        if cg.labelCounter ≤ k ∧ k < cg.labelCounter + 2 * Stmt.branchesList ss then 1 else 0) ∧
      (∀ k, labelJumps k out =
        if cg.labelCounter ≤ k ∧ k < cg.labelCounter + 2 * Stmt.branchesList ss then 1 else 0) ∧
      out.countP startsWithL = 2 * Stmt.branchesList ss ∧
      out.countP isJump = 2 * Stmt.branchesList ss
  | [], cg, cg', h => by
    simp only [CodeGenerator.generateStmts, Except.ok.injEq] at h
    subst h
    refine ⟨[], by simp, by simp [Stmt.branchesList], ?_, ?_, by simp [Stmt.branchesList],
      by simp [Stmt.branchesList]⟩
    · intro k; simp only [labelDefs_nil, Stmt.branchesList]; split_ifs <;> omega
    · intro k; simp only [labelJumps_nil, Stmt.branchesList]; split_ifs <;> omega
  | s :: rest, cg, cg', h => by
    simp only [CodeGenerator.generateStmts] at h
    split at h
    · exact absurd h (by simp)
    · rename_i cg1 h1
      obtain ⟨o1, a1, b1, d1, j1, l1, m1⟩ := CodeGenerator.generateStmt_labels s _ _ h1
      obtain ⟨o2, a2, b2, d2, j2, l2, m2⟩ := CodeGenerator.generateStmts_labels rest _ _ h
      simp only [b1] at b2 d2 j2
      refine ⟨o1 ++ o2, by simp [a2, a1], ?_, ?_, ?_, ?_, ?_⟩
      · simp only [b2, Stmt.branchesList]; omega
      · intro k
        simp only [labelDefs_append, d1 k, d2 k, Stmt.branchesList]
        split_ifs <;> omega
      · intro k
        simp only [labelJumps_append, j1 k, j2 k, Stmt.branchesList]
        split_ifs <;> omega
      · simp only [List.countP_append, l1, l2, Stmt.branchesList]; omega
      · simp only [List.countP_append, m1, m2, Stmt.branchesList]; omega
theorem CodeGenerator.generateElse_labels : ∀ (e : Option Stmt) (cg cg' : CodeGenerator),
    CodeGenerator.generateElse e cg = .ok cg' →
    ∃ out, cg'.assembly = cg.assembly ++ out ∧
      cg'.labelCounter = cg.labelCounter + 2 * Stmt.branchesOption e ∧
      (∀ k, labelDefs k out =
        if cg.labelCounter ≤ k ∧ k < cg.labelCounter + 2 * Stmt.branchesOption e then 1
        else 0) ∧
      (∀ k, labelJumps k out =
        if cg.labelCounter ≤ k ∧ k < cg.labelCounter + 2 * Stmt.branchesOption e then 1
        else 0) ∧
      out.countP startsWithL = 2 * Stmt.branchesOption e ∧
      out.countP isJump = 2 * Stmt.branchesOption e
  | none, cg, cg', h => by
    simp only [CodeGenerator.generateElse, Except.ok.injEq] at h
    subst h
    refine ⟨[], by simp, by simp [Stmt.branchesOption], ?_, ?_, by simp [Stmt.branchesOption],
      by simp [Stmt.branchesOption]⟩
    · intro k; simp only [labelDefs_nil, Stmt.branchesOption]; split_ifs <;> omega
    · intro k; simp only [labelJumps_nil, Stmt.branchesOption]; split_ifs <;> omega
  | some s, cg, cg', h => by
    simp only [CodeGenerator.generateElse] at h
    simpa only [Stmt.branchesOption] using CodeGenerator.generateStmt_labels s cg cg' h
end

theorem prologue_epilogue_plain :
    (∀ l ∈ CodeGenerator.new.assembly, startsWithL l = false ∧ isJump l = false) ∧
      (∀ l ∈ epilogue, startsWithL l = false ∧ isJump l = false) := by
  decide

/-- C4: when generation of an AST succeeds, with `N` the number of `if` and
`while` nodes of the AST and `lines` the lines of the output: the label texts
`Lk` are pairwise distinct; each label `L0 .. L(2N-1)` is defined by exactly one
line `Lk:` and is the target of exactly one jump line (`    jz Lk` or
`    jmp Lk`); no label of a higher counter is defined or jumped to; and the
output holds `2N` lines that start with `L` and `2N` jump lines in all. -/
theorem label_uniqueness (ast : List Stmt) (lines : List String)
    (h : generateLines ast = .ok lines) :
    generate ast = .ok (joinLines lines) ∧
      (∀ j k, labelText j = labelText k → j = k) ∧
      (∀ k, k < 2 * Stmt.branchesList ast → labelDefs k lines = 1 ∧ labelJumps k lines = 1) ∧
      (∀ k, 2 * Stmt.branchesList ast ≤ k → labelDefs k lines = 0 ∧ labelJumps k lines = 0) ∧
      lines.countP startsWithL = 2 * Stmt.branchesList ast ∧
      lines.countP isJump = 2 * Stmt.branchesList ast := by
  have hgen : generate ast = .ok (joinLines lines) := by simp [generate, h]
  simp only [generateLines, generateState] at h
  split at h
  · exact absurd h (by simp)
  · rename_i cg hcg
    simp only [Except.ok.injEq] at h
    subst h
    obtain ⟨out, a1, -, d1, j1, l1, m1⟩ := CodeGenerator.generateStmts_labels ast _ _ hcg
    have hpro := prologue_epilogue_plain.1
    have hepi := prologue_epilogue_plain.2
    have hzero : CodeGenerator.new.labelCounter = 0 := rfl
    simp only [hzero, Nat.zero_le, true_and, Nat.zero_add] at d1 j1
    refine ⟨hgen, labelText_injective, ?_, ?_, ?_, ?_⟩ <;> rw [a1]
    · intro k hk
      simp [labelDefs_append, labelJumps_append, (plain_profile _ hpro k).1,
        (plain_profile _ hpro k).2.1, (plain_profile _ hepi k).1, (plain_profile _ hepi k).2.1,
        d1 k, j1 k, hk]
    · intro k hk
      have hk2 : ¬ k < 2 * Stmt.branchesList ast := by omega
      simp [labelDefs_append, labelJumps_append, (plain_profile _ hpro k).1,
        (plain_profile _ hpro k).2.1, (plain_profile _ hepi k).1, (plain_profile _ hepi k).2.1,
        d1 k, j1 k, hk2]
    · simp only [List.countP_append, (plain_profile _ hpro 0).2.2.1,
        (plain_profile _ hepi 0).2.2.1, l1]
      omega
    · simp only [List.countP_append, (plain_profile _ hpro 0).2.2.2,
        (plain_profile _ hepi 0).2.2.2, m1]
      omega

/-- C4 on the AST of `while (1) if (2) { }`, which has two `if`/`while` nodes:
its output defines and jumps to each of `L0 .. L3` once. -/
theorem label_uniqueness_witness :
    generate [.WhileStmt (.NumberExpr 1) (.IfStmt (.NumberExpr 2) (.BlockStmt []) none)] =
        .ok (joinLines ["section .text", "global _start", "_start:", "    push rbp",
          "    mov rbp, rsp", "L0:", "    push 1", "    pop rax", "    test rax, rax",
          "    jz L1", "    push 2", "    pop rax", "    test rax, rax", "    jz L2",
          "    jmp L3", "L2:", "L3:", "    jmp L0", "L1:", "    mov rsp, rbp", "    pop rbp",
          "    mov rax, 60", "    xor rdi, rdi", "    syscall"]) ∧
      2 * Stmt.branchesList
        [.WhileStmt (.NumberExpr 1) (.IfStmt (.NumberExpr 2) (.BlockStmt []) none)] = 4 :=
  ⟨(label_uniqueness
      [.WhileStmt (.NumberExpr 1) (.IfStmt (.NumberExpr 2) (.BlockStmt []) none)]
      ["section .text", "global _start", "_start:", "    push rbp",
        "    mov rbp, rsp", "L0:", "    push 1", "    pop rax", "    test rax, rax",
        "    jz L1", "    push 2", "    pop rax", "    test rax, rax", "    jz L2",
        "    jmp L3", "L2:", "L3:", "    jmp L0", "L1:", "    mov rsp, rbp", "    pop rbp",
        "    mov rax, 60", "    xor rdi, rdi", "    syscall"] (by decide)).1, by decide⟩

/-! ## The parser consumes tokens and never runs out of fuel -/

theorem Parser.match_cases (p : Parser) (t : TokenType) :
    p.match_ t = (false, p) ∨
      (p.match_ t = (true, p.step) ∧ p.isAtEnd = false ∧ p.peek.type = t) := by
  by_cases hend : p.isAtEnd = true
  · left; simp [Parser.match_, Parser.check, hend]
  · by_cases ht : p.peek.type = t
    · right
      simp only [Bool.not_eq_true] at hend
      simp [Parser.match_, Parser.check, Parser.advance, hend, ht, Parser.step]
    · left; simp [Parser.match_, Parser.check, hend, ht]

theorem Parser.matchEither_cases (p : Parser) (a b : TokenType) :
    p.matchEither a b = (false, p) ∨
      (p.matchEither a b = (true, p.step) ∧ p.isAtEnd = false ∧
        (p.peek.type = a ∨ p.peek.type = b)) := by
  rcases Parser.match_cases p a with ha | ⟨ha, hend, hty⟩
  · rcases Parser.match_cases p b with hb | ⟨hb, hend, hty⟩
    · left; simp [Parser.matchEither, ha, hb]
    · right; exact ⟨by simp [Parser.matchEither, ha, hb], hend, Or.inr hty⟩
  · right; exact ⟨by simp [Parser.matchEither, ha], hend, Or.inl hty⟩

theorem Parser.Bounded.lt_length {p : Parser} (h : p.Bounded) : p.current < p.tokens.length := by
  obtain ⟨i, t, hi, hget, -⟩ := h
  have : i < p.tokens.length := by
    by_contra hge
    rw [List.getElem?_eq_none (by omega)] at hget
    simp at hget
  omega

theorem Parser.Bounded.step {p : Parser} (h : p.Bounded) (hend : p.isAtEnd = false) :
    p.step.Bounded := by
  obtain ⟨i, t, hi, hget, hty⟩ := h
  refine ⟨i, t, ?_, hget, hty⟩
  have hne : i ≠ p.current := by
    intro heq
    subst heq
    have : p.peek = t := by
      simp [Parser.peek, List.getD_eq_getElem?_getD, hget]
    simp [Parser.isAtEnd, this, hty] at hend
  simp only [Parser.step]
  omega

theorem Parser.remaining_step {p : Parser} (h : p.Bounded) :
    p.step.remaining + 1 = p.remaining := by
  have := h.lt_length
  simp only [Parser.remaining, Parser.step]
  omega

theorem Parser.remaining_pos {p : Parser} (h : p.Bounded) : 1 ≤ p.remaining := by
  have := h.lt_length
  simp only [Parser.remaining]
  omega

theorem stoi_not_fuel (s : String) (e : CompileError) (h : stoi s = .error e) :
    e ≠ .fuelExhausted := by
  simp only [stoi] at h
  split_ifs at h <;> simp at h <;> subst h <;> simp

theorem Parser.error_ne_fuel (p : Parser) (m : String) : p.error m ≠ .fuelExhausted := by
  simp [Parser.error]

theorem Parser.primary_progress (expression : Parser → PResult Expr) (n : Nat) (p : Parser)
    (hexp : ∀ q : Parser, q.Bounded → q.remaining ≤ n → q.Progress (expression q))
    (hb : p.Bounded) (hr : p.remaining ≤ n + 1) : p.Progress (p.primary expression) := by
  simp only [Parser.primary]
  rcases Parser.match_cases p .NUMBER with h1 | ⟨h1, hend, -⟩
  · rcases Parser.match_cases p .IDENTIFIER with h2 | ⟨h2, hend, -⟩
    · rcases Parser.match_cases p .LPAREN with h3 | ⟨h3, hend, -⟩
      · simp [h1, h2, h3, Parser.Progress, Parser.error]
      · simp only [h1, h2, h3, Bool.false_eq_true, if_false, if_true]
        have hstep := hb.step hend
        have hrem := Parser.remaining_step hb
        have := hexp p.step hstep (by omega)
        cases hres : expression p.step with
        | error e => rw [hres] at this; simpa [Parser.Progress] using this
        | ok v =>
          obtain ⟨e, p1⟩ := v
          rw [hres] at this
          obtain ⟨g1, g2, g3⟩ := this
          simp only
          rcases Parser.match_cases p1 .RPAREN with h4 | ⟨h4, hend1, -⟩
          · simp [h4, Parser.Progress, Parser.error]
          · simp only [h4, Bool.not_true, Bool.false_eq_true, if_false]
            refine ⟨?_, ?_, g3.step hend1⟩
            · simpa [Parser.step] using g1
            · simp only [Parser.step] at g2 ⊢; omega
    · simp only [h1, h2, Bool.false_eq_true, if_false, if_true]
      exact ⟨rfl, by simp [Parser.step], hb.step hend⟩
  · simp only [h1, if_true]
    cases hs : stoi p.step.previous.value with
    | error e => simpa [Parser.Progress] using stoi_not_fuel _ _ hs
    | ok v => exact ⟨rfl, by simp [Parser.step], hb.step hend⟩

theorem Parser.binaryLoop_advance (ops : Parser → Bool × Parser)
    (operand : Parser → PResult Expr) (bound : Nat)
    (hops : ∀ q : Parser, ops q = (false, q) ∨ (ops q = (true, q.step) ∧ q.isAtEnd = false))
    (hop : ∀ q : Parser, q.Bounded → q.remaining ≤ bound → q.Progress (operand q))
    (fuel : Nat) (expr : Expr) (p : Parser) (hb : p.Bounded) (hf : p.remaining ≤ fuel)
    (hr : p.remaining ≤ bound) :
    p.Advance (Parser.binaryLoop ops operand fuel expr p) := by
  induction fuel generalizing expr p with
  | zero =>
    have := Parser.remaining_pos hb
    omega
  | succ f ih =>
    simp only [Parser.binaryLoop]
    rcases hops p with h | ⟨h, hend⟩
    · simp only [h, Bool.false_eq_true, if_false]
      exact ⟨rfl, le_refl _, hb⟩
    · simp only [h, if_true]
      have hstep := hb.step hend
      have hrem := Parser.remaining_step hb
      have hprog := hop p.step hstep (by omega)
      cases hres : operand p.step with
      | error e => rw [hres] at hprog; simpa [Parser.Advance, Parser.Progress] using hprog
      | ok v =>
        obtain ⟨right, p1⟩ := v
        rw [hres] at hprog
        obtain ⟨g1, g2, g3⟩ := hprog
        simp only
        have hlen : p1.tokens.length = p.tokens.length := by rw [g1]; rfl
        have hcur : p.current + 1 < p1.current := g2
        have hlt1 := g3.lt_length
        have hrem1 : p1.remaining ≤ f := by
          simp only [Parser.remaining] at hf ⊢
          omega
        have hrem2 : p1.remaining ≤ bound := by
          simp only [Parser.remaining] at hr ⊢
          omega
        have := ih (.BinaryExpr p.step.previous.type expr right) p1 g3 hrem1 hrem2
        cases hloop : Parser.binaryLoop ops operand f
            (.BinaryExpr p.step.previous.type expr right) p1 with
        | error e => rw [hloop] at this; simpa [Parser.Advance] using this
        | ok w =>
          obtain ⟨e2, p2⟩ := w
          rw [hloop] at this
          obtain ⟨k1, k2, k3⟩ := this
          exact ⟨by rw [k1, g1]; rfl, by omega, k3⟩

theorem Parser.level_progress (ops : Parser → Bool × Parser)
    (operand : Parser → PResult Expr) (n : Nat)
    (hops : ∀ q : Parser, ops q = (false, q) ∨ (ops q = (true, q.step) ∧ q.isAtEnd = false))
    (hop : ∀ q : Parser, q.Bounded → q.remaining ≤ n + 1 → q.Progress (operand q))
    (p : Parser) (hb : p.Bounded) (hr : p.remaining ≤ n + 1) :
    p.Progress (match operand p with
      | .error e => .error e
      | .ok (expr, p1) => Parser.binaryLoop ops operand n expr p1) := by
  have hprog := hop p hb hr
  cases hres : operand p with
  | error e => rw [hres] at hprog; simpa [Parser.Progress] using hprog
  | ok v =>
    obtain ⟨expr, p1⟩ := v
    rw [hres] at hprog
    obtain ⟨g1, g2, g3⟩ := hprog
    simp only
    have hlt1 := g3.lt_length
    have hlen : p1.tokens.length = p.tokens.length := by rw [g1]
    have hrem1 : p1.remaining ≤ n := by
      simp only [Parser.remaining] at hr ⊢
      omega
    have := Parser.binaryLoop_advance ops operand (n + 1) hops hop n expr p1 g3 hrem1 (by omega)
    cases hloop : Parser.binaryLoop ops operand n expr p1 with
    | error e => rw [hloop] at this; simpa [Parser.Advance, Parser.Progress] using this
    | ok w =>
      obtain ⟨e2, p2⟩ := w
      rw [hloop] at this
      obtain ⟨k1, k2, k3⟩ := this
      exact ⟨by rw [k1, g1], by omega, k3⟩

theorem Parser.matchEither_ops (a b : TokenType) (q : Parser) :
    q.matchEither a b = (false, q) ∨ (q.matchEither a b = (true, q.step) ∧ q.isAtEnd = false) := by
  rcases Parser.matchEither_cases q a b with h | ⟨h, hend, -⟩
  · exact Or.inl h
  · exact Or.inr ⟨h, hend⟩

theorem Parser.match_ops (a : TokenType) (q : Parser) :
    q.match_ a = (false, q) ∨ (q.match_ a = (true, q.step) ∧ q.isAtEnd = false) := by
  rcases Parser.match_cases q a with h | ⟨h, hend, -⟩
  · exact Or.inl h
  · exact Or.inr ⟨h, hend⟩

theorem Parser.expression_progress (n : Nat) (p : Parser) (hb : p.Bounded)
    (hr : p.remaining ≤ n) : p.Progress (Parser.expression n p) := by
  induction n generalizing p with
  | zero =>
    have := Parser.remaining_pos hb
    omega
  | succ n ih =>
    have hprim : ∀ q : Parser, q.Bounded → q.remaining ≤ n + 1 →
        q.Progress (q.primary (Parser.expression n)) :=
      fun q hq hrq => Parser.primary_progress _ n q (fun q2 h2 hr2 => ih q2 h2 hr2) hq hrq
    have hfac : ∀ q : Parser, q.Bounded → q.remaining ≤ n + 1 →
        q.Progress (q.factor (Parser.expression n) n) :=
      fun q hq hrq => Parser.level_progress _ _ n (Parser.matchEither_ops _ _) hprim q hq hrq
    have hterm : ∀ q : Parser, q.Bounded → q.remaining ≤ n + 1 →
        q.Progress (q.term (Parser.expression n) n) :=
      fun q hq hrq => Parser.level_progress _ _ n (Parser.matchEither_ops _ _) hfac q hq hrq
    have hcmp : ∀ q : Parser, q.Bounded → q.remaining ≤ n + 1 →
        q.Progress (q.comparison (Parser.expression n) n) :=
      fun q hq hrq => Parser.level_progress _ _ n (Parser.matchEither_ops _ _) hterm q hq hrq
    exact Parser.level_progress _ _ n (Parser.match_ops _) hcmp p hb hr

theorem Parser.advance_cases (p : Parser) :
    (p.isAtEnd = true ∧ p.advance.2 = p) ∨ (p.isAtEnd = false ∧ p.advance.2 = p.step) := by
  cases h : p.isAtEnd
  · right; simp [Parser.advance, h, Parser.step]
  · left; simp [Parser.advance, h]

theorem Parser.Progress.to_advance {α : Type} {p : Parser} {r : PResult α}
    (h : p.Progress r) : p.Advance r := by
  cases r with
  | error e => exact h
  | ok v =>
    obtain ⟨a, p1⟩ := v
    exact ⟨h.1, Nat.le_of_lt h.2.1, h.2.2⟩

/-- A rule that ran from `p.step` on has made progress from `p`. -/
theorem Parser.Advance.of_step {α : Type} {p : Parser} {r : PResult α}
    (h : p.step.Advance r) : p.Progress r := by
  cases r with
  | error e => exact h
  | ok v =>
    obtain ⟨a, p1⟩ := v
    obtain ⟨h1, h2, h3⟩ := h
    exact ⟨h1, h2, h3⟩

theorem Parser.letStatement_advance (n : Nat) (p : Parser) (hb : p.Bounded)
    (hr : p.remaining ≤ n) : p.Advance (p.letStatement n) := by
  simp only [Parser.letStatement]
  rcases Parser.advance_cases p with ⟨hend, hadv⟩ | ⟨hend, hadv⟩
  · -- at the end: either the name test or the `=` test fails
    rw [hadv]
    split_ifs with h1 h2
    · simp [Parser.Advance, Parser.error]
    · simp [Parser.Advance, Parser.error]
    · exfalso
      have : p.match_ .ASSIGN = (false, p) := by
        simp [Parser.match_, Parser.check, hend]
      simp [this] at h2
  · rw [hadv]
    have hstep := hb.step hend
    have hrem := Parser.remaining_step hb
    split_ifs with h1 h2
    · simp [Parser.Advance, Parser.error]
    · simp [Parser.Advance, Parser.error]
    · rcases Parser.match_cases p.step .ASSIGN with h3 | ⟨h3, hend3, -⟩
      · simp [h3] at h2
      · simp only [h3]
        have hstep3 := hstep.step hend3
        have hrem3 := Parser.remaining_step hstep
        have hprog := Parser.expression_progress n p.step.step hstep3 (by omega)
        cases hres : Parser.expression n p.step.step with
        | error e => rw [hres] at hprog; simpa [Parser.Advance, Parser.Progress] using hprog
        | ok v =>
          obtain ⟨value, p2⟩ := v
          rw [hres] at hprog
          obtain ⟨g1, g2, g3⟩ := hprog
          simp only
          rcases Parser.match_cases p2 .SEMICOLON with h4 | ⟨h4, hend4, -⟩
          · simp [h4, Parser.Advance, Parser.error]
          · simp only [h4, Bool.not_true, Bool.false_eq_true, if_false]
            refine ⟨by simpa [Parser.step] using g1, ?_, g3.step hend4⟩
            simp only [Parser.step] at g2 ⊢
            omega

theorem Parser.conditional_advance (statement : Parser → PResult Stmt) (n m : Nat)
    (hst : ∀ q : Parser, q.Bounded → q.remaining ≤ m → q.Progress (statement q))
    (p : Parser) (hb : p.Bounded) (hr : p.remaining ≤ n) (hm : p.remaining ≤ m) :
    p.Advance (p.ifStatement statement n) ∧ p.Advance (p.whileStatement statement n) := by
  simp only [Parser.ifStatement, Parser.whileStatement]
  rcases Parser.match_cases p .LPAREN with h1 | ⟨h1, hend1, -⟩
  · simp [h1, Parser.Advance, Parser.error]
  · simp only [h1, Bool.not_true, Bool.false_eq_true, if_false]
    have hstep := hb.step hend1
    have hrem := Parser.remaining_step hb
    have hprog := Parser.expression_progress n p.step hstep (by omega)
    cases hres : Parser.expression n p.step with
    | error e => rw [hres] at hprog; simpa [Parser.Advance, Parser.Progress] using hprog
    | ok v =>
      obtain ⟨condition, p1⟩ := v
      rw [hres] at hprog
      obtain ⟨g1, g2, g3⟩ := hprog
      simp only
      rcases Parser.match_cases p1 .RPAREN with h2 | ⟨h2, hend2, -⟩
      · simp [h2, Parser.Advance, Parser.error]
      · simp only [h2, Bool.not_true, Bool.false_eq_true, if_false]
        have hstep2 := g3.step hend2
        have hrem2 := Parser.remaining_step g3
        have hlen1 : p1.tokens.length = p.tokens.length := by rw [g1]; rfl
        have hcur1 : p.current + 1 < p1.current := g2
        have hlt1 := g3.lt_length
        have hrm : p1.step.remaining ≤ m := by
          simp only [Parser.remaining, Parser.step] at hm ⊢
          omega
        have hprog2 := hst p1.step hstep2 hrm
        cases hres2 : statement p1.step with
        | error e => rw [hres2] at hprog2; simpa [Parser.Advance, Parser.Progress] using hprog2
        | ok w =>
          obtain ⟨thenBranch, p2⟩ := w
          rw [hres2] at hprog2
          obtain ⟨k1, k2, k3⟩ := hprog2
          simp only
          have hcur2 : p1.current + 1 < p2.current := k2
          have htok2 : p2.tokens = p.tokens := by rw [k1]; exact g1
          refine ⟨?_, htok2, by omega, k3⟩
          rcases Parser.match_cases p2 .ELSE with h3 | ⟨h3, hend3, -⟩
          · simp only [h3, Bool.false_eq_true, if_false]
            exact ⟨htok2, by omega, k3⟩
          · simp only [h3, if_true]
            have hstep3 := k3.step hend3
            have hlt2 := k3.lt_length
            have hlen2 : p2.tokens.length = p.tokens.length := by rw [htok2]
            have hrm3 : p2.step.remaining ≤ m := by
              simp only [Parser.remaining, Parser.step] at hm ⊢
              omega
            have hprog3 := hst p2.step hstep3 hrm3
            cases hres3 : statement p2.step with
            | error e =>
              rw [hres3] at hprog3; simpa [Parser.Advance, Parser.Progress] using hprog3
            | ok x =>
              obtain ⟨elseBranch, p3⟩ := x
              rw [hres3] at hprog3
              obtain ⟨m1, m2, m3⟩ := hprog3
              have hcur3 : p2.current + 1 < p3.current := m2
              exact ⟨by rw [m1]; exact htok2, by omega, m3⟩

theorem Parser.blockLoop_advance (statement : Parser → PResult Stmt) (m : Nat)
    (hst : ∀ q : Parser, q.Bounded → q.remaining ≤ m → q.Progress (statement q))
    (fuel : Nat) (statements : List Stmt) (p : Parser) (hb : p.Bounded)
    (hf : p.remaining ≤ fuel) (hm : p.remaining ≤ m) :
    p.Advance (Parser.blockLoop statement fuel statements p) := by
  induction fuel generalizing statements p with
  | zero =>
    have := Parser.remaining_pos hb
    omega
  | succ f ih =>
    simp only [Parser.blockLoop]
    split_ifs with hc
    · have hprog := hst p hb hm
      cases hres : statement p with
      | error e => rw [hres] at hprog; simpa [Parser.Advance, Parser.Progress] using hprog
      | ok v =>
        obtain ⟨s, p1⟩ := v
        rw [hres] at hprog
        obtain ⟨g1, g2, g3⟩ := hprog
        simp only
        have hlen1 : p1.tokens.length = p.tokens.length := by rw [g1]
        have hlt1 := g3.lt_length
        have hf1 : p1.remaining ≤ f := by
          simp only [Parser.remaining] at hf ⊢
          omega
        have hm1 : p1.remaining ≤ m := by
          simp only [Parser.remaining] at hm ⊢
          omega
        have := ih (statements ++ [s]) p1 g3 hf1 hm1
        cases hloop : Parser.blockLoop statement f (statements ++ [s]) p1 with
        | error e => rw [hloop] at this; simpa [Parser.Advance] using this
        | ok w =>
          obtain ⟨ss, p2⟩ := w
          rw [hloop] at this
          obtain ⟨k1, k2, k3⟩ := this
          exact ⟨by rw [k1, g1], by omega, k3⟩
    · exact ⟨rfl, le_refl _, hb⟩

theorem Parser.blockStatement_advance (statement : Parser → PResult Stmt) (n m : Nat)
    (hst : ∀ q : Parser, q.Bounded → q.remaining ≤ m → q.Progress (statement q))
    (p : Parser) (hb : p.Bounded) (hr : p.remaining ≤ n) (hm : p.remaining ≤ m) :
    p.Advance (p.blockStatement statement n) := by
  simp only [Parser.blockStatement]
  have := Parser.blockLoop_advance statement m hst n [] p hb hr hm
  cases hloop : Parser.blockLoop statement n [] p with
  | error e => rw [hloop] at this; simpa [Parser.Advance] using this
  | ok w =>
    obtain ⟨ss, p1⟩ := w
    rw [hloop] at this
    obtain ⟨k1, k2, k3⟩ := this
    simp only
    rcases Parser.match_cases p1 .RBRACE with h | ⟨h, hend, -⟩
    · simp [h, Parser.Advance, Parser.error]
    · simp only [h, Bool.not_true, Bool.false_eq_true, if_false]
      refine ⟨by simpa [Parser.step] using k1, ?_, k3.step hend⟩
      simp only [Parser.step]
      omega

theorem Parser.statement_progress (n : Nat) (p : Parser) (hb : p.Bounded)
    (hr : p.remaining ≤ n) : p.Progress (Parser.statement n p) := by
  induction n generalizing p with
  | zero =>
    have := Parser.remaining_pos hb
    omega
  | succ n ih =>
    simp only [Parser.statement]
    have hrem := Parser.remaining_step hb
    rcases Parser.match_cases p .LET with h1 | ⟨h1, hend, -⟩
    · rcases Parser.match_cases p .IF with h2 | ⟨h2, hend, -⟩
      · rcases Parser.match_cases p .WHILE with h3 | ⟨h3, hend, -⟩
        · rcases Parser.match_cases p .LBRACE with h4 | ⟨h4, hend, -⟩
          · simp only [h1, h2, h3, h4, Bool.false_eq_true, if_false]
            have hprog := Parser.expression_progress (n + 1) p hb hr
            cases hres : Parser.expression (n + 1) p with
            | error e => rw [hres] at hprog; simpa [Parser.Progress] using hprog
            | ok v =>
              obtain ⟨expr, p1⟩ := v
              rw [hres] at hprog
              exact hprog
          · simp only [h1, h2, h3, h4, Bool.false_eq_true, if_false, if_true]
            exact (Parser.blockStatement_advance _ (n + 1) n ih p.step (hb.step hend)
              (by omega) (by omega)).of_step
        · simp only [h1, h2, h3, Bool.false_eq_true, if_false, if_true]
          exact (Parser.conditional_advance _ (n + 1) n ih p.step (hb.step hend)
            (by omega) (by omega)).2.of_step
      · simp only [h1, h2, Bool.false_eq_true, if_false, if_true]
        exact (Parser.conditional_advance _ (n + 1) n ih p.step (hb.step hend)
          (by omega) (by omega)).1.of_step
    · simp only [h1, if_true]
      exact (Parser.letStatement_advance (n + 1) p.step (hb.step hend) (by omega)).of_step

theorem Parser.parseLoop_spec (budget fuel : Nat) (statements : List Stmt) (p : Parser)
    (hb : p.Bounded) (hbud : p.remaining ≤ budget) (hf : p.remaining ≤ fuel) :
    match Parser.parseLoop budget fuel statements p with
    | .error e => e ≠ .fuelExhausted
    | .ok (r, p1) => p1.tokens = p.tokens ∧ p1.Bounded ∧ p1.isAtEnd = true ∧
        ∃ ss, r = statements ++ ss ∧ Parser.Tiles budget p.tokens p.current ss p1.current := by
  induction fuel generalizing statements p with
  | zero =>
    have := Parser.remaining_pos hb
    omega
  | succ f ih =>
    simp only [Parser.parseLoop]
    cases hend : p.isAtEnd
    · simp only [Bool.not_false, if_true]
      have hprog := Parser.statement_progress budget p hb hbud
      cases hres : Parser.statement budget p with
      | error e => rw [hres] at hprog; simpa [Parser.Progress] using hprog
      | ok v =>
        obtain ⟨s, p1⟩ := v
        rw [hres] at hprog
        obtain ⟨g1, g2, g3⟩ := hprog
        simp only
        have hlen1 : p1.tokens.length = p.tokens.length := by rw [g1]
        have hlt1 := g3.lt_length
        have hf1 : p1.remaining ≤ f := by
          simp only [Parser.remaining] at hf ⊢
          omega
        have hb1 : p1.remaining ≤ budget := by
          simp only [Parser.remaining] at hbud ⊢
          omega
        have := ih (statements ++ [s]) p1 g3 hb1 hf1
        cases hloop : Parser.parseLoop budget f (statements ++ [s]) p1 with
        | error e => rw [hloop] at this; exact this
        | ok w =>
          obtain ⟨r, p2⟩ := w
          rw [hloop] at this
          obtain ⟨k1, k2, k3, ss, k4, k5⟩ := this
          refine ⟨by rw [k1, g1], k2, k3, s :: ss, by simp [k4], ?_⟩
          rw [g1] at k5
          refine Parser.Tiles.cons p.current p1.current p2.current s ss ?_ g2 k5
          have hp1 : p1 = ⟨p.tokens, p1.current⟩ := by rw [← g1]
          rw [← hp1]
          exact hres
    · simp only [Bool.not_true, Bool.false_eq_true, if_false]
      exact ⟨trivial, hb, hend, [], by simp, Parser.Tiles.nil _⟩

/-! ## Termination of the parser (C7) -/

theorem Parser.bounded_of_terminated (body : List Token) (eof : Token)
    (heof : eof.type = .END_OF_FILE) (c : Nat) (hc : c ≤ body.length) :
    (Parser.mk (body ++ [eof]) c).Bounded :=
  ⟨body.length, eof, hc, by simp, heof⟩

/-- C7: for a token sequence `body ++ [eof]` terminated by its only
END_OF_FILE token, (1) from every cursor position the statement rule and the
expression rule end without exhausting their fuel, in an exception or in a
value with the cursor moved forward by at least one token; (2) `parse` ends
without exhausting its fuel; (3) when `parse` returns a statement list, the
cursor rests on the END_OF_FILE token, and the tokens before it are cut into
consecutive non-empty pieces, one per returned statement, each piece being
what `statement` consumed for it. -/
theorem parse_terminates_at_eof (body : List Token) (eof : Token)
    (hbody : ∀ t ∈ body, t.type ≠ .END_OF_FILE) (heof : eof.type = .END_OF_FILE) :
    (∀ c, c ≤ body.length →
      (Parser.mk (body ++ [eof]) c).Progress
        (Parser.statement (body.length + 1) ⟨body ++ [eof], c⟩)) ∧
    (∀ c, c ≤ body.length →
      (Parser.mk (body ++ [eof]) c).Progress
        (Parser.expression (body.length + 1) ⟨body ++ [eof], c⟩)) ∧
    (Parser.new (body ++ [eof])).parse ≠ .error .fuelExhausted ∧
    parse (body ++ [eof]) ≠ .error .fuelExhausted ∧
    (∀ statements p1, (Parser.new (body ++ [eof])).parse = .ok (statements, p1) →
      p1.tokens = body ++ [eof] ∧ p1.current = body.length ∧ p1.peek = eof ∧
      Parser.Tiles (body.length + 1) (body ++ [eof]) 0 statements body.length) := by
  have hbounded := Parser.bounded_of_terminated body eof heof
  have hrem : ∀ c, (Parser.mk (body ++ [eof]) c).remaining ≤ body.length + 1 := by
    intro c
    simp only [Parser.remaining, List.length_append, List.length_singleton]
    omega
  have hspec := Parser.parseLoop_spec (body.length + 1) (body.length + 1) []
    (Parser.new (body ++ [eof])) (hbounded 0 (Nat.zero_le _)) (hrem 0) (hrem 0)
  have hparse : (Parser.new (body ++ [eof])).parse =
      Parser.parseLoop (body.length + 1) (body.length + 1) [] (Parser.new (body ++ [eof])) := by
    simp [Parser.parse, Parser.new]
  refine ⟨fun c hc => Parser.statement_progress _ _ (hbounded c hc) (hrem c),
    fun c hc => Parser.expression_progress _ _ (hbounded c hc) (hrem c), ?_, ?_, ?_⟩
  · rw [hparse]
    intro hcontra
    rw [hcontra] at hspec
    exact hspec rfl
  · simp only [parse]
    rw [hparse]
    intro hcontra
    cases hloop : Parser.parseLoop (body.length + 1) (body.length + 1) []
        (Parser.new (body ++ [eof])) with
    | error e =>
      rw [hloop] at hspec hcontra
      simp only [Except.error.injEq] at hcontra
      exact hspec hcontra
    | ok v =>
      rw [hloop] at hcontra
      simp at hcontra
  · intro statements p1 hok
    rw [hparse] at hok
    rw [hok] at hspec
    obtain ⟨k1, k2, k3, ss, k4, k5⟩ := hspec
    simp only [List.nil_append] at k4
    subst k4
    have htok : p1.tokens = body ++ [eof] := k1
    have hlt := k2.lt_length
    rw [htok] at hlt
    simp only [List.length_append, List.length_singleton] at hlt
    have hcur : p1.current = body.length := by
      by_contra hne
      have hlt2 : p1.current < body.length := by omega
      have hpeek : p1.peek = body[p1.current] := by
        simp [Parser.peek, htok, List.getD_eq_getElem?_getD, List.getElem?_append_left hlt2,
          List.getElem?_eq_getElem hlt2]
      have : p1.peek.type ≠ .END_OF_FILE := by
        rw [hpeek]
        exact hbody _ (List.getElem_mem _)
      simp [Parser.isAtEnd, this] at k3
    refine ⟨htok, hcur, ?_, ?_⟩
    · simp [Parser.peek, htok, hcur, List.getD_eq_getElem?_getD]
    · rw [hcur] at k5
      exact k5

/-- C7 on the tokens of `let x = 1; x`: `parse` ends without exhausting its
fuel, and from the start the statement rule consumes at least one token. -/
theorem parse_terminates_at_eof_witness :
    (Parser.new ([⟨.LET, "let", 1, 4⟩, ⟨.IDENTIFIER, "x", 1, 6⟩, ⟨.ASSIGN, "=", 1, 8⟩,
        ⟨.NUMBER, "1", 1, 10⟩, ⟨.SEMICOLON, ";", 1, 11⟩, ⟨.IDENTIFIER, "x", 1, 13⟩] ++
        [⟨.END_OF_FILE, "", 1, 13⟩])).parse ≠ .error .fuelExhausted ∧
      parse ([⟨.LET, "let", 1, 4⟩, ⟨.IDENTIFIER, "x", 1, 6⟩, ⟨.ASSIGN, "=", 1, 8⟩,
        ⟨.NUMBER, "1", 1, 10⟩, ⟨.SEMICOLON, ";", 1, 11⟩, ⟨.IDENTIFIER, "x", 1, 13⟩] ++
        [⟨.END_OF_FILE, "", 1, 13⟩]) ≠ .error .fuelExhausted :=
  ⟨(parse_terminates_at_eof
      [⟨.LET, "let", 1, 4⟩, ⟨.IDENTIFIER, "x", 1, 6⟩, ⟨.ASSIGN, "=", 1, 8⟩,
        ⟨.NUMBER, "1", 1, 10⟩, ⟨.SEMICOLON, ";", 1, 11⟩, ⟨.IDENTIFIER, "x", 1, 13⟩]
      ⟨.END_OF_FILE, "", 1, 13⟩ (by decide) rfl).2.2.1,
    (parse_terminates_at_eof
      [⟨.LET, "let", 1, 4⟩, ⟨.IDENTIFIER, "x", 1, 6⟩, ⟨.ASSIGN, "=", 1, 8⟩,
        ⟨.NUMBER, "1", 1, 10⟩, ⟨.SEMICOLON, ";", 1, 11⟩, ⟨.IDENTIFIER, "x", 1, 13⟩]
      ⟨.END_OF_FILE, "", 1, 13⟩ (by decide) rfl).2.2.2.1⟩

/-! ## Grouping of binary operators (C10) -/

theorem Parser.step_previous (p : Parser) : p.step.previous = p.peek := rfl

theorem Parser.match_eval (p : Parser) (op t : TokenType) (h : p.peek.type = op)
    (hop : op ≠ .END_OF_FILE) :
    p.match_ t = if op = t then (true, p.step) else (false, p) := by
  have hend : p.isAtEnd = false := by simp [Parser.isAtEnd, h, hop]
  by_cases ht : op = t
  · simp [Parser.match_, Parser.check, Parser.advance, hend, h, ht, Parser.step]
  · simp [Parser.match_, Parser.check, hend, h, ht]

theorem Parser.match_stop (p : Parser) (t : TokenType) (h : precedence p.peek.type = 0)
    (ht : precedence t ≠ 0) : p.match_ t = (false, p) := by
  rcases Parser.match_cases p t with h1 | ⟨-, -, h3⟩
  · exact h1
  · rw [h3] at h
    exact absurd h ht

/-- C10: let `a`, `b`, `c` be what `primary` parses at three places of the
token sequence, with the binary operator `op1` between `a` and `b`, the binary
operator `op2` between `b` and `c`, and no binary operator after `c`. Then
`expression` returns `(a op1 b) op2 c` when `op2` is of the same level as
`op1` or of a looser one, and `a op1 (b op2 c)` when `op2` is of a tighter
level, the levels being `==`, then `<` `>`, then `+` `-`, then `*` `/`. -/
theorem expression_grouping (n : Nat) (p0 p1 p2 p3 : Parser) (a b c : Expr)
    (op1 op2 : TokenType) (hn : 3 ≤ n)
    (ha : p0.primary (Parser.expression n) = .ok (a, p1))
    (h1 : p1.peek.type = op1) (hop1 : precedence op1 ≠ 0)
    (hb : p1.step.primary (Parser.expression n) = .ok (b, p2))
    (h2 : p2.peek.type = op2) (hop2 : precedence op2 ≠ 0)
    (hc : p2.step.primary (Parser.expression n) = .ok (c, p3))
    (h3 : precedence p3.peek.type = 0) :
    Parser.expression (n + 1) p0 =
      .ok (if precedence op2 ≤ precedence op1 then .BinaryExpr op2 (.BinaryExpr op1 a b) c
        else .BinaryExpr op1 a (.BinaryExpr op2 b c), p3) := by
  obtain ⟨m, rfl⟩ : ∃ m, n = m + 3 := ⟨n - 3, by omega⟩
  have e1 : op1 ≠ .END_OF_FILE := by intro h; rw [h] at hop1; exact hop1 rfl
  have e2 : op2 ≠ .END_OF_FILE := by intro h; rw [h] at hop2; exact hop2 rfl
  have m1 := fun t => Parser.match_eval p1 op1 t h1 e1
  have m2 := fun t => Parser.match_eval p2 op2 t h2 e2
  have m3 := fun t ht => Parser.match_stop p3 t h3 ht
  have s1 : p1.step.previous.type = op1 := h1
  have s2 : p2.step.previous.type = op2 := h2
  have q1 := m3 .EQUAL (by decide)
  have q2 := m3 .LESS (by decide)
  have q3 := m3 .GREATER (by decide)
  have q4 := m3 .PLUS (by decide)
  have q5 := m3 .MINUS (by decide)
  have q6 := m3 .MULTIPLY (by decide)
  have q7 := m3 .DIVIDE (by decide)
  -- the three operands at the level of `factor`
  have F2 : p2.step.factor (Parser.expression (m + 3)) (m + 3) = .ok (c, p3) := by
    simp [Parser.factor, Parser.binaryLoop, Parser.matchEither, hc, q6, q7]
  have F1 : p1.step.factor (Parser.expression (m + 3)) (m + 3) =
      if 4 ≤ precedence op2 then .ok (.BinaryExpr op2 b c, p3) else .ok (b, p2) := by
    cases op2 <;> simp only [precedence, ne_eq, not_true_eq_false, not_false_eq_true] at hop2 <;>
      simp [Parser.factor, Parser.binaryLoop, Parser.matchEither, hb, hc, m2, s2, q6, q7,
        precedence]
  have F0 : p0.factor (Parser.expression (m + 3)) (m + 3) =
      if precedence op1 < 4 then .ok (a, p1)
      else if precedence op1 < precedence op2 then
        .ok (.BinaryExpr op1 a (.BinaryExpr op2 b c), p3)
      else if 4 ≤ precedence op2 then .ok (.BinaryExpr op2 (.BinaryExpr op1 a b) c, p3)
      else .ok (.BinaryExpr op1 a b, p2) := by
    cases op1 <;> simp only [precedence, ne_eq, not_true_eq_false, not_false_eq_true] at hop1 <;>
      cases op2 <;>
      simp only [precedence, ne_eq, not_true_eq_false, not_false_eq_true] at hop2 <;>
      simp [Parser.factor, Parser.binaryLoop, Parser.matchEither, ha, hb, hc, m1, m2, s1, s2,
        q6, q7, precedence]
  -- the same at the level of `term`
  have T2 : p2.step.term (Parser.expression (m + 3)) (m + 3) = .ok (c, p3) := by
    simp [Parser.term, Parser.binaryLoop, Parser.matchEither, F2, q4, q5]
  have T1 : p1.step.term (Parser.expression (m + 3)) (m + 3) =
      if 3 ≤ precedence op2 then .ok (.BinaryExpr op2 b c, p3) else .ok (b, p2) := by
    cases op2 <;> simp only [precedence, ne_eq, not_true_eq_false, not_false_eq_true] at hop2 <;>
      simp [Parser.term, Parser.binaryLoop, Parser.matchEither, F1, F2, m2, s2, q4, q5,
        precedence]
  have T0 : p0.term (Parser.expression (m + 3)) (m + 3) =
      if precedence op1 < 3 then .ok (a, p1)
      else if precedence op1 < precedence op2 then
        .ok (.BinaryExpr op1 a (.BinaryExpr op2 b c), p3)
      else if 3 ≤ precedence op2 then .ok (.BinaryExpr op2 (.BinaryExpr op1 a b) c, p3)
      else .ok (.BinaryExpr op1 a b, p2) := by
    cases op1 <;> simp only [precedence, ne_eq, not_true_eq_false, not_false_eq_true] at hop1 <;>
      cases op2 <;>
      simp only [precedence, ne_eq, not_true_eq_false, not_false_eq_true] at hop2 <;>
      simp [Parser.term, Parser.binaryLoop, Parser.matchEither, F0, F1, F2, m1, m2, s1, s2,
        q4, q5, precedence]
  -- at the level of `comparison`
  have C2 : p2.step.comparison (Parser.expression (m + 3)) (m + 3) = .ok (c, p3) := by
    simp [Parser.comparison, Parser.binaryLoop, Parser.matchEither, T2, q2, q3]
  have C1 : p1.step.comparison (Parser.expression (m + 3)) (m + 3) =
      if 2 ≤ precedence op2 then .ok (.BinaryExpr op2 b c, p3) else .ok (b, p2) := by
    cases op2 <;> simp only [precedence, ne_eq, not_true_eq_false, not_false_eq_true] at hop2 <;>
      simp [Parser.comparison, Parser.binaryLoop, Parser.matchEither, T1, T2, m2, s2, q2, q3,
        precedence]
  have C0 : p0.comparison (Parser.expression (m + 3)) (m + 3) =
      if precedence op1 < 2 then .ok (a, p1)
      else if precedence op1 < precedence op2 then
        .ok (.BinaryExpr op1 a (.BinaryExpr op2 b c), p3)
      else if 2 ≤ precedence op2 then .ok (.BinaryExpr op2 (.BinaryExpr op1 a b) c, p3)
      else .ok (.BinaryExpr op1 a b, p2) := by
    cases op1 <;> simp only [precedence, ne_eq, not_true_eq_false, not_false_eq_true] at hop1 <;>
      cases op2 <;>
      simp only [precedence, ne_eq, not_true_eq_false, not_false_eq_true] at hop2 <;>
      simp [Parser.comparison, Parser.binaryLoop, Parser.matchEither, T0, T1, T2, m1, m2, s1,
        s2, q2, q3, precedence]
  -- and at the level of `equality`, which is `expression`
  have hE : Parser.expression (m + 3 + 1) p0 =
      p0.equality (Parser.expression (m + 3)) (m + 3) := rfl
  rw [hE]
  cases op1 <;> simp only [precedence, ne_eq, not_true_eq_false, not_false_eq_true] at hop1 <;>
    cases op2 <;>
    simp only [precedence, ne_eq, not_true_eq_false, not_false_eq_true] at hop2 <;>
    simp [Parser.equality, Parser.binaryLoop, C0, C1, C2, m1, m2, s1, s2, q1,
      precedence]

/-- C10 on the tokens of `1 + 2 * 3` and of `1 - 2 - 3`: the first parses to
`1 + (2 * 3)`, the second to `(1 - 2) - 3`. -/
theorem expression_grouping_witness :
    Parser.expression 6 (Parser.new [⟨.NUMBER, "1", 1, 2⟩, ⟨.PLUS, "+", 1, 4⟩,
        ⟨.NUMBER, "2", 1, 6⟩, ⟨.MULTIPLY, "*", 1, 8⟩, ⟨.NUMBER, "3", 1, 10⟩,
        ⟨.END_OF_FILE, "", 1, 10⟩]) =
      .ok (.BinaryExpr .PLUS (.NumberExpr 1) (.BinaryExpr .MULTIPLY (.NumberExpr 2)
        (.NumberExpr 3)),
        ⟨[⟨.NUMBER, "1", 1, 2⟩, ⟨.PLUS, "+", 1, 4⟩, ⟨.NUMBER, "2", 1, 6⟩,
          ⟨.MULTIPLY, "*", 1, 8⟩, ⟨.NUMBER, "3", 1, 10⟩, ⟨.END_OF_FILE, "", 1, 10⟩], 5⟩) ∧
    Parser.expression 6 (Parser.new [⟨.NUMBER, "1", 1, 2⟩, ⟨.MINUS, "-", 1, 4⟩,
        ⟨.NUMBER, "2", 1, 6⟩, ⟨.MINUS, "-", 1, 8⟩, ⟨.NUMBER, "3", 1, 10⟩,
        ⟨.END_OF_FILE, "", 1, 10⟩]) =
      .ok (.BinaryExpr .MINUS (.BinaryExpr .MINUS (.NumberExpr 1) (.NumberExpr 2))
        (.NumberExpr 3),
        ⟨[⟨.NUMBER, "1", 1, 2⟩, ⟨.MINUS, "-", 1, 4⟩, ⟨.NUMBER, "2", 1, 6⟩,
          ⟨.MINUS, "-", 1, 8⟩, ⟨.NUMBER, "3", 1, 10⟩, ⟨.END_OF_FILE, "", 1, 10⟩], 5⟩) :=
  ⟨expression_grouping 5
      ⟨[⟨.NUMBER, "1", 1, 2⟩, ⟨.PLUS, "+", 1, 4⟩, ⟨.NUMBER, "2", 1, 6⟩,
        ⟨.MULTIPLY, "*", 1, 8⟩, ⟨.NUMBER, "3", 1, 10⟩, ⟨.END_OF_FILE, "", 1, 10⟩], 0⟩
      ⟨[⟨.NUMBER, "1", 1, 2⟩, ⟨.PLUS, "+", 1, 4⟩, ⟨.NUMBER, "2", 1, 6⟩,
        ⟨.MULTIPLY, "*", 1, 8⟩, ⟨.NUMBER, "3", 1, 10⟩, ⟨.END_OF_FILE, "", 1, 10⟩], 1⟩
      ⟨[⟨.NUMBER, "1", 1, 2⟩, ⟨.PLUS, "+", 1, 4⟩, ⟨.NUMBER, "2", 1, 6⟩,
        ⟨.MULTIPLY, "*", 1, 8⟩, ⟨.NUMBER, "3", 1, 10⟩, ⟨.END_OF_FILE, "", 1, 10⟩], 3⟩
      ⟨[⟨.NUMBER, "1", 1, 2⟩, ⟨.PLUS, "+", 1, 4⟩, ⟨.NUMBER, "2", 1, 6⟩,
        ⟨.MULTIPLY, "*", 1, 8⟩, ⟨.NUMBER, "3", 1, 10⟩, ⟨.END_OF_FILE, "", 1, 10⟩], 5⟩
      (.NumberExpr 1) (.NumberExpr 2) (.NumberExpr 3) .PLUS .MULTIPLY
      (by decide) (by rfl) rfl (by decide) (by rfl) rfl (by decide) (by rfl) (by decide),
    expression_grouping 5
      ⟨[⟨.NUMBER, "1", 1, 2⟩, ⟨.MINUS, "-", 1, 4⟩, ⟨.NUMBER, "2", 1, 6⟩,
        ⟨.MINUS, "-", 1, 8⟩, ⟨.NUMBER, "3", 1, 10⟩, ⟨.END_OF_FILE, "", 1, 10⟩], 0⟩
      ⟨[⟨.NUMBER, "1", 1, 2⟩, ⟨.MINUS, "-", 1, 4⟩, ⟨.NUMBER, "2", 1, 6⟩,
        ⟨.MINUS, "-", 1, 8⟩, ⟨.NUMBER, "3", 1, 10⟩, ⟨.END_OF_FILE, "", 1, 10⟩], 1⟩
      ⟨[⟨.NUMBER, "1", 1, 2⟩, ⟨.MINUS, "-", 1, 4⟩, ⟨.NUMBER, "2", 1, 6⟩,
        ⟨.MINUS, "-", 1, 8⟩, ⟨.NUMBER, "3", 1, 10⟩, ⟨.END_OF_FILE, "", 1, 10⟩], 3⟩
      ⟨[⟨.NUMBER, "1", 1, 2⟩, ⟨.MINUS, "-", 1, 4⟩, ⟨.NUMBER, "2", 1, 6⟩,
        ⟨.MINUS, "-", 1, 8⟩, ⟨.NUMBER, "3", 1, 10⟩, ⟨.END_OF_FILE, "", 1, 10⟩], 5⟩
      (.NumberExpr 1) (.NumberExpr 2) (.NumberExpr 3) .MINUS .MINUS
      (by decide) (by rfl) rfl (by decide) (by rfl) rfl (by decide) (by rfl) (by decide)⟩

/-! ## More fuel returns the same value -/

theorem Parser.match_fail (p : Parser) (t : TokenType)
    (h : p.isAtEnd = true ∨ p.peek.type ≠ t) : p.match_ t = (false, p) := by
  rcases Parser.match_cases p t with hm | ⟨-, hend, hty⟩
  · exact hm
  · rcases h with h | h
    · rw [hend] at h
      exact absurd h (by simp)
    · exact absurd hty h

theorem Parser.primary_mono (e e' : Parser → PResult Expr) (h : Parser.Extends e e') :
    Parser.Extends (fun q => q.primary e) (fun q => q.primary e') := by
  intro p r hr
  simp only [Parser.primary] at hr ⊢
  rcases Parser.match_cases p .NUMBER with h1 | ⟨h1, -, -⟩
  · rcases Parser.match_cases p .IDENTIFIER with h2 | ⟨h2, -, -⟩
    · rcases Parser.match_cases p .LPAREN with h3 | ⟨h3, -, -⟩
      · simp only [h1, h2, h3, Bool.false_eq_true, if_false] at hr ⊢
        exact hr
      · simp only [h1, h2, h3, Bool.false_eq_true, if_false, if_true] at hr ⊢
        cases hres : e p.step with
        | error err =>
          rw [hres] at hr
          simp at hr
        | ok v =>
          rw [hres] at hr
          rw [h p.step v hres]
          exact hr
    · simp only [h1, h2, Bool.false_eq_true, if_false, if_true] at hr ⊢
      exact hr
  · simp only [h1, if_true] at hr ⊢
    exact hr

theorem Parser.binaryLoop_mono (ops : Parser → Bool × Parser)
    (operand operand' : Parser → PResult Expr) (h : Parser.Extends operand operand')
    (fuel fuel' : Nat) (hf : fuel ≤ fuel') (expr : Expr) (p : Parser) (r : Expr × Parser)
    (hr : Parser.binaryLoop ops operand fuel expr p = .ok r) :
    Parser.binaryLoop ops operand' fuel' expr p = .ok r := by
  induction fuel generalizing fuel' expr p with
  | zero => simp [Parser.binaryLoop] at hr
  | succ f ih =>
    obtain ⟨f', rfl⟩ : ∃ f', fuel' = f' + 1 := ⟨fuel' - 1, by omega⟩
    simp only [Parser.binaryLoop] at hr ⊢
    by_cases hops : (ops p).1 = true
    · simp only [hops, if_true] at hr ⊢
      cases hres : operand (ops p).2 with
      | error err =>
        rw [hres] at hr
        simp at hr
      | ok v =>
        obtain ⟨right, p1⟩ := v
        rw [hres] at hr
        rw [h _ _ hres]
        exact ih f' (by omega) _ _ hr
    · simp only [hops, if_false] at hr ⊢
      exact hr

theorem Parser.level_mono (ops : Parser → Bool × Parser)
    (operand operand' : Parser → PResult Expr) (h : Parser.Extends operand operand')
    (n n' : Nat) (hn : n ≤ n') :
    Parser.Extends
      (fun p => match operand p with
        | .error e => .error e
        | .ok (expr, p1) => Parser.binaryLoop ops operand n expr p1)
      (fun p => match operand' p with
        | .error e => .error e
        | .ok (expr, p1) => Parser.binaryLoop ops operand' n' expr p1) := by
  intro p r hr
  simp only at hr ⊢
  cases hres : operand p with
  | error err =>
    rw [hres] at hr
    simp at hr
  | ok v =>
    obtain ⟨expr, p1⟩ := v
    rw [hres] at hr
    rw [h _ _ hres]
    exact Parser.binaryLoop_mono ops operand operand' h n n' hn expr p1 r hr

/-- More fuel does not change what `expression` returns. -/
theorem Parser.expression_mono (n n' : Nat) (hn : n ≤ n') :
    Parser.Extends (Parser.expression n) (Parser.expression n') := by
  induction n generalizing n' with
  | zero =>
    intro q r hr
    simp [Parser.expression] at hr
  | succ n ih =>
    obtain ⟨m, rfl⟩ : ∃ m, n' = m + 1 := ⟨n' - 1, by omega⟩
    have hnm : n ≤ m := by omega
    have hprim := Parser.primary_mono _ _ (ih m hnm)
    have hfac : Parser.Extends (fun q => q.factor (Parser.expression n) n)
        (fun q => q.factor (Parser.expression m) m) :=
      Parser.level_mono _ _ _ hprim n m hnm
    have hterm : Parser.Extends (fun q => q.term (Parser.expression n) n)
        (fun q => q.term (Parser.expression m) m) :=
      Parser.level_mono _ _ _ hfac n m hnm
    have hcmp : Parser.Extends (fun q => q.comparison (Parser.expression n) n)
        (fun q => q.comparison (Parser.expression m) m) :=
      Parser.level_mono _ _ _ hterm n m hnm
    exact Parser.level_mono _ _ _ hcmp n m hnm

theorem Parser.letStatement_mono (n n' : Nat) (hn : n ≤ n') :
    Parser.Extends (Parser.letStatement n) (Parser.letStatement n') := by
  intro p r hr
  simp only [Parser.letStatement] at hr ⊢
  split_ifs at hr ⊢ with h1 h2
  cases hres : Parser.expression n (p.advance.2.match_ .ASSIGN).2 with
  | error err =>
    rw [hres] at hr
    simp at hr
  | ok v =>
    rw [hres] at hr
    rw [Parser.expression_mono n n' hn _ _ hres]
    exact hr

theorem Parser.conditional_mono (st st' : Parser → PResult Stmt) (h : Parser.Extends st st')
    (n n' : Nat) (hn : n ≤ n') :
    Parser.Extends (fun p => p.ifStatement st n) (fun p => p.ifStatement st' n') ∧
      Parser.Extends (fun p => p.whileStatement st n) (fun p => p.whileStatement st' n') := by
  constructor
  · intro p r hr
    simp only [Parser.ifStatement] at hr ⊢
    split_ifs at hr ⊢ with h1
    cases hres : Parser.expression n (p.match_ .LPAREN).2 with
    | error err =>
      rw [hres] at hr
      simp at hr
    | ok v =>
      obtain ⟨condition, p1⟩ := v
      rw [hres] at hr
      rw [Parser.expression_mono n n' hn _ _ hres]
      simp only at hr ⊢
      split_ifs at hr ⊢ with h2
      cases hres2 : st (p1.match_ .RPAREN).2 with
      | error err =>
        rw [hres2] at hr
        simp at hr
      | ok w =>
        obtain ⟨thenBranch, p2⟩ := w
        rw [hres2] at hr
        rw [h _ _ hres2]
        simp only at hr ⊢
        split_ifs at hr ⊢ with h3
        · cases hres3 : st (p2.match_ .ELSE).2 with
          | error err =>
            rw [hres3] at hr
            simp at hr
          | ok x =>
            rw [hres3] at hr
            rw [h _ _ hres3]
            exact hr
        · exact hr
  · intro p r hr
    simp only [Parser.whileStatement] at hr ⊢
    split_ifs at hr ⊢ with h1
    cases hres : Parser.expression n (p.match_ .LPAREN).2 with
    | error err =>
      rw [hres] at hr
      simp at hr
    | ok v =>
      obtain ⟨condition, p1⟩ := v
      rw [hres] at hr
      rw [Parser.expression_mono n n' hn _ _ hres]
      simp only at hr ⊢
      split_ifs at hr ⊢ with h2
      cases hres2 : st (p1.match_ .RPAREN).2 with
      | error err =>
        rw [hres2] at hr
        simp at hr
      | ok w =>
        rw [hres2] at hr
        rw [h _ _ hres2]
        exact hr

theorem Parser.blockLoop_mono (st st' : Parser → PResult Stmt) (h : Parser.Extends st st')
    (fuel fuel' : Nat) (hf : fuel ≤ fuel') (statements : List Stmt) (p : Parser)
    (r : List Stmt × Parser) (hr : Parser.blockLoop st fuel statements p = .ok r) :
    Parser.blockLoop st' fuel' statements p = .ok r := by
  induction fuel generalizing fuel' statements p with
  | zero => simp [Parser.blockLoop] at hr
  | succ f ih =>
    obtain ⟨f', rfl⟩ : ∃ f', fuel' = f' + 1 := ⟨fuel' - 1, by omega⟩
    simp only [Parser.blockLoop] at hr ⊢
    split_ifs at hr ⊢ with hc
    · cases hres : st p with
      | error err =>
        rw [hres] at hr
        simp at hr
      | ok v =>
        obtain ⟨s, p1⟩ := v
        rw [hres] at hr
        rw [h _ _ hres]
        exact ih f' (by omega) _ _ hr
    · exact hr

theorem Parser.blockStatement_mono (st st' : Parser → PResult Stmt)
    (h : Parser.Extends st st') (n n' : Nat) (hn : n ≤ n') :
    Parser.Extends (fun p => p.blockStatement st n) (fun p => p.blockStatement st' n') := by
  intro p r hr
  simp only [Parser.blockStatement] at hr ⊢
  cases hres : Parser.blockLoop st n [] p with
  | error err =>
    rw [hres] at hr
    simp at hr
  | ok v =>
    rw [hres] at hr
    rw [Parser.blockLoop_mono st st' h n n' hn [] p v hres]
    exact hr

/-- More fuel does not change what `statement` returns. -/
theorem Parser.statement_mono (n n' : Nat) (hn : n ≤ n') :
    Parser.Extends (Parser.statement n) (Parser.statement n') := by
  induction n generalizing n' with
  | zero =>
    intro q r hr
    simp [Parser.statement] at hr
  | succ n ih =>
    obtain ⟨m, rfl⟩ : ∃ m, n' = m + 1 := ⟨n' - 1, by omega⟩
    have hnm : n ≤ m := by omega
    intro p r hr
    simp only [Parser.statement] at hr ⊢
    split_ifs at hr ⊢ with h1 h2 h3 h4
    · exact Parser.letStatement_mono (n + 1) (m + 1) hn _ _ hr
    · exact (Parser.conditional_mono _ _ (ih m hnm) (n + 1) (m + 1) hn).1 _ _ hr
    · exact (Parser.conditional_mono _ _ (ih m hnm) (n + 1) (m + 1) hn).2 _ _ hr
    · exact Parser.blockStatement_mono _ _ (ih m hnm) (n + 1) (m + 1) hn _ _ hr
    · cases hres : Parser.expression (n + 1) p with
      | error err =>
        rw [hres] at hr
        simp at hr
      | ok v =>
        rw [hres] at hr
        rw [Parser.expression_mono (n + 1) (m + 1) hn _ _ hres]
        exact hr

/-! ## Dangling else (C11) -/

/-- C11: let the tokens from `p` on be `if (`, an expression `c1`, `) if (`,
an expression `c2`, `)`, a statement `s1`, `else`, a statement `s2`, and then
a token other than `else`, each expression and statement parsing with fuel
`n`. Then with any fuel from `n + 2` on `statement` returns the `if` on `c1`
without else-branch whose then-branch is the `if` on `c2` with then-branch
`s1` and else-branch `s2`; it does not return the `if` on `c1` with
else-branch `s2` around an `if` on `c2` without else-branch. -/
theorem dangling_else_binds_to_nearest_if (n : Nat) (p q1 q2 q3 q4 : Parser) (c1 c2 : Expr)
    (s1 s2 : Stmt)
    (h0 : p.peek.type = .IF) (h1 : p.step.peek.type = .LPAREN)
    (hc1 : Parser.expression n p.step.step = .ok (c1, q1))
    (h2 : q1.peek.type = .RPAREN) (h3 : q1.step.peek.type = .IF)
    (h4 : q1.step.step.peek.type = .LPAREN)
    (hc2 : Parser.expression n q1.step.step.step = .ok (c2, q2))
    (h5 : q2.peek.type = .RPAREN)
    (hs1 : Parser.statement n q2.step = .ok (s1, q3))
    (h6 : q3.peek.type = .ELSE)
    (hs2 : Parser.statement n q3.step = .ok (s2, q4))
    (h7 : q4.peek.type ≠ .ELSE) (m : Nat) (hm : n + 2 ≤ m) :
    Parser.statement m p = .ok (.IfStmt c1 (.IfStmt c2 s1 (some s2)) none, q4) ∧
    ∀ q : Parser, Parser.statement m p ≠ .ok (.IfStmt c1 (.IfStmt c2 s1 none) (some s2), q) := by
  obtain ⟨k, rfl⟩ : ∃ k, m = k + 2 := ⟨m - 2, by omega⟩
  have hnk : n ≤ k := by omega
  have e1 := Parser.expression_mono n (k + 2) (by omega) _ _ hc1
  have e2 := Parser.expression_mono n (k + 1) (by omega) _ _ hc2
  have t1 := Parser.statement_mono n k hnk _ _ hs1
  have t2 := Parser.statement_mono n k hnk _ _ hs2
  have m0 := Parser.match_eval p .IF .LET h0 (by decide)
  have m0' := Parser.match_eval p .IF .IF h0 (by decide)
  have m1 := Parser.match_eval p.step .LPAREN .LPAREN h1 (by decide)
  have m2 := Parser.match_eval q1 .RPAREN .RPAREN h2 (by decide)
  have m3 := Parser.match_eval q1.step .IF .LET h3 (by decide)
  have m3' := Parser.match_eval q1.step .IF .IF h3 (by decide)
  have m4 := Parser.match_eval q1.step.step .LPAREN .LPAREN h4 (by decide)
  have m5 := Parser.match_eval q2 .RPAREN .RPAREN h5 (by decide)
  have m6 := Parser.match_eval q3 .ELSE .ELSE h6 (by decide)
  have m7 : q4.match_ .ELSE = (false, q4) := Parser.match_fail q4 .ELSE (Or.inr h7)
  simp only [reduceCtorEq, if_false, if_true] at m0 m0' m1 m2 m3 m3' m4 m5 m6
  have inner : Parser.statement (k + 1) q1.step = .ok (.IfStmt c2 s1 (some s2), q4) := by
    simp [Parser.statement, Parser.ifStatement, m3, m3', m4, e2, m5, t1, m6, t2]
  have outer : Parser.statement (k + 2) p =
      .ok (.IfStmt c1 (.IfStmt c2 s1 (some s2)) none, q4) := by
    rw [Parser.statement]
    simp [Parser.ifStatement, m0, m0', m1, e1, m2, inner, m7]
  refine ⟨outer, ?_⟩
  intro q hq
  rw [outer] at hq
  simp at hq

/-- C11 on the source `if (1) if (2) 3 else 4`: the `else` goes to the inner
`if`. -/
theorem dangling_else_binds_to_nearest_if_witness :
    tokenize "if (1) if (2) 3 else 4".data = some
      [⟨.IF, "if", 1, 3⟩, ⟨.LPAREN, "(", 1, 5⟩, ⟨.NUMBER, "1", 1, 6⟩, ⟨.RPAREN, ")", 1, 7⟩,
        ⟨.IF, "if", 1, 10⟩, ⟨.LPAREN, "(", 1, 12⟩, ⟨.NUMBER, "2", 1, 13⟩,
        ⟨.RPAREN, ")", 1, 14⟩, ⟨.NUMBER, "3", 1, 16⟩, ⟨.ELSE, "else", 1, 21⟩,
        ⟨.NUMBER, "4", 1, 23⟩, ⟨.END_OF_FILE, "", 1, 23⟩] ∧
    Parser.statement 12 (Parser.new
      [⟨.IF, "if", 1, 3⟩, ⟨.LPAREN, "(", 1, 5⟩, ⟨.NUMBER, "1", 1, 6⟩, ⟨.RPAREN, ")", 1, 7⟩,
        ⟨.IF, "if", 1, 10⟩, ⟨.LPAREN, "(", 1, 12⟩, ⟨.NUMBER, "2", 1, 13⟩,
        ⟨.RPAREN, ")", 1, 14⟩, ⟨.NUMBER, "3", 1, 16⟩, ⟨.ELSE, "else", 1, 21⟩,
        ⟨.NUMBER, "4", 1, 23⟩, ⟨.END_OF_FILE, "", 1, 23⟩]) =
      .ok (.IfStmt (.NumberExpr 1)
          (.IfStmt (.NumberExpr 2) (.ExprStmt (.NumberExpr 3))
            (some (.ExprStmt (.NumberExpr 4)))) none,
        ⟨[⟨.IF, "if", 1, 3⟩, ⟨.LPAREN, "(", 1, 5⟩, ⟨.NUMBER, "1", 1, 6⟩, ⟨.RPAREN, ")", 1, 7⟩,
        ⟨.IF, "if", 1, 10⟩, ⟨.LPAREN, "(", 1, 12⟩, ⟨.NUMBER, "2", 1, 13⟩,
        ⟨.RPAREN, ")", 1, 14⟩, ⟨.NUMBER, "3", 1, 16⟩, ⟨.ELSE, "else", 1, 21⟩,
        ⟨.NUMBER, "4", 1, 23⟩, ⟨.END_OF_FILE, "", 1, 23⟩], 11⟩) ∧
    parse
      [⟨.IF, "if", 1, 3⟩, ⟨.LPAREN, "(", 1, 5⟩, ⟨.NUMBER, "1", 1, 6⟩, ⟨.RPAREN, ")", 1, 7⟩,
        ⟨.IF, "if", 1, 10⟩, ⟨.LPAREN, "(", 1, 12⟩, ⟨.NUMBER, "2", 1, 13⟩,
        ⟨.RPAREN, ")", 1, 14⟩, ⟨.NUMBER, "3", 1, 16⟩, ⟨.ELSE, "else", 1, 21⟩,
        ⟨.NUMBER, "4", 1, 23⟩, ⟨.END_OF_FILE, "", 1, 23⟩] =
      .ok [.IfStmt (.NumberExpr 1)
          (.IfStmt (.NumberExpr 2) (.ExprStmt (.NumberExpr 3))
            (some (.ExprStmt (.NumberExpr 4)))) none] :=
  ⟨by decide!,
    (dangling_else_binds_to_nearest_if 2
      (Parser.new
      [⟨.IF, "if", 1, 3⟩, ⟨.LPAREN, "(", 1, 5⟩, ⟨.NUMBER, "1", 1, 6⟩, ⟨.RPAREN, ")", 1, 7⟩,
        ⟨.IF, "if", 1, 10⟩, ⟨.LPAREN, "(", 1, 12⟩, ⟨.NUMBER, "2", 1, 13⟩,
        ⟨.RPAREN, ")", 1, 14⟩, ⟨.NUMBER, "3", 1, 16⟩, ⟨.ELSE, "else", 1, 21⟩,
        ⟨.NUMBER, "4", 1, 23⟩, ⟨.END_OF_FILE, "", 1, 23⟩])
      ⟨[⟨.IF, "if", 1, 3⟩, ⟨.LPAREN, "(", 1, 5⟩, ⟨.NUMBER, "1", 1, 6⟩, ⟨.RPAREN, ")", 1, 7⟩,
        ⟨.IF, "if", 1, 10⟩, ⟨.LPAREN, "(", 1, 12⟩, ⟨.NUMBER, "2", 1, 13⟩,
        ⟨.RPAREN, ")", 1, 14⟩, ⟨.NUMBER, "3", 1, 16⟩, ⟨.ELSE, "else", 1, 21⟩,
        ⟨.NUMBER, "4", 1, 23⟩, ⟨.END_OF_FILE, "", 1, 23⟩], 3⟩
      ⟨[⟨.IF, "if", 1, 3⟩, ⟨.LPAREN, "(", 1, 5⟩, ⟨.NUMBER, "1", 1, 6⟩, ⟨.RPAREN, ")", 1, 7⟩,
        ⟨.IF, "if", 1, 10⟩, ⟨.LPAREN, "(", 1, 12⟩, ⟨.NUMBER, "2", 1, 13⟩,
        ⟨.RPAREN, ")", 1, 14⟩, ⟨.NUMBER, "3", 1, 16⟩, ⟨.ELSE, "else", 1, 21⟩,
        ⟨.NUMBER, "4", 1, 23⟩, ⟨.END_OF_FILE, "", 1, 23⟩], 7⟩
      ⟨[⟨.IF, "if", 1, 3⟩, ⟨.LPAREN, "(", 1, 5⟩, ⟨.NUMBER, "1", 1, 6⟩, ⟨.RPAREN, ")", 1, 7⟩,
        ⟨.IF, "if", 1, 10⟩, ⟨.LPAREN, "(", 1, 12⟩, ⟨.NUMBER, "2", 1, 13⟩,
        ⟨.RPAREN, ")", 1, 14⟩, ⟨.NUMBER, "3", 1, 16⟩, ⟨.ELSE, "else", 1, 21⟩,
        ⟨.NUMBER, "4", 1, 23⟩, ⟨.END_OF_FILE, "", 1, 23⟩], 9⟩
      ⟨[⟨.IF, "if", 1, 3⟩, ⟨.LPAREN, "(", 1, 5⟩, ⟨.NUMBER, "1", 1, 6⟩, ⟨.RPAREN, ")", 1, 7⟩,
        ⟨.IF, "if", 1, 10⟩, ⟨.LPAREN, "(", 1, 12⟩, ⟨.NUMBER, "2", 1, 13⟩,
        ⟨.RPAREN, ")", 1, 14⟩, ⟨.NUMBER, "3", 1, 16⟩, ⟨.ELSE, "else", 1, 21⟩,
        ⟨.NUMBER, "4", 1, 23⟩, ⟨.END_OF_FILE, "", 1, 23⟩], 11⟩
      (.NumberExpr 1) (.NumberExpr 2) (.ExprStmt (.NumberExpr 3)) (.ExprStmt (.NumberExpr 4))
      rfl rfl (by rfl) rfl rfl rfl (by rfl) rfl (by rfl) rfl (by rfl) (by decide) 12
      (by decide)).1,
    by rfl⟩

/-! ## A let without its semicolon (C12) -/

/-- C12: when the top-level loop of `parse` stands on `let`, an IDENTIFIER and
`=`, the value expression parses, and the token found after it is not `;`,
then `statement` and `parse` fail with the syntax error
`Expected ';' after value` at the line of that token. -/
theorem let_without_semicolon (n fuel : Nat) (statements : List Stmt) (p q : Parser)
    (value : Expr)
    (h0 : p.peek.type = .LET) (h1 : p.step.peek.type = .IDENTIFIER)
    (h2 : p.step.step.peek.type = .ASSIGN)
    (hv : Parser.expression (n + 1) p.step.step.step = .ok (value, q))
    (hq : q.peek.type ≠ .SEMICOLON) :
    Parser.statement (n + 1) p =
        .error (.runtime_error ("Expected ';' after value at line " ++ toString q.peek.line)) ∧
      Parser.parseLoop (n + 1) (fuel + 1) statements p =
        .error (.runtime_error ("Expected ';' after value at line " ++ toString q.peek.line)) := by
  have m0 := Parser.match_eval p .LET .LET h0 (by decide)
  have he : p.step.isAtEnd = false := by simp [Parser.isAtEnd, h1]
  have m1 : p.step.advance.2 = p.step.step := by
    rcases Parser.advance_cases p.step with ⟨h, -⟩ | ⟨-, h⟩
    · rw [he] at h; exact absurd h (by decide)
    · exact h
  have m1' : p.step.advance.1 = p.step.peek := by
    rw [show p.step.advance.1 = p.step.advance.2.previous from rfl, m1]
    rfl
  have m2 := Parser.match_eval p.step.step .ASSIGN .ASSIGN h2 (by decide)
  have m3 : q.match_ .SEMICOLON = (false, q) := by
    rcases Parser.match_cases q .SEMICOLON with h | ⟨-, -, h⟩
    · exact h
    · exact absurd h hq
  have hs : Parser.statement (n + 1) p =
      .error (.runtime_error ("Expected ';' after value at line " ++ toString q.peek.line)) := by
    simp [Parser.statement, Parser.letStatement, m0, m1, m1', h1, m2, hv, m3, Parser.error]
  refine ⟨hs, ?_⟩
  simp [Parser.parseLoop, Parser.isAtEnd, h0, hs]

/-- C12 on the source `let x = 5`: compilation fails with
`Expected ';' after value at line 1`, the line of the END_OF_FILE token. -/
theorem let_without_semicolon_witness :
    Parser.parseLoop 5 5 [] (Parser.new [⟨.LET, "let", 1, 4⟩, ⟨.IDENTIFIER, "x", 1, 6⟩,
        ⟨.ASSIGN, "=", 1, 8⟩, ⟨.NUMBER, "5", 1, 10⟩, ⟨.END_OF_FILE, "", 1, 10⟩]) =
      .error (.runtime_error "Expected ';' after value at line 1") ∧
    tokenize "let x = 5".data = some [⟨.LET, "let", 1, 4⟩, ⟨.IDENTIFIER, "x", 1, 6⟩,
        ⟨.ASSIGN, "=", 1, 8⟩, ⟨.NUMBER, "5", 1, 10⟩, ⟨.END_OF_FILE, "", 1, 10⟩] ∧
    compile "let x = 5" = .error (.runtime_error "Expected ';' after value at line 1") :=
  ⟨(let_without_semicolon 4 4 []
      (Parser.new [⟨.LET, "let", 1, 4⟩, ⟨.IDENTIFIER, "x", 1, 6⟩,
        ⟨.ASSIGN, "=", 1, 8⟩, ⟨.NUMBER, "5", 1, 10⟩, ⟨.END_OF_FILE, "", 1, 10⟩])
      ⟨[⟨.LET, "let", 1, 4⟩, ⟨.IDENTIFIER, "x", 1, 6⟩,
        ⟨.ASSIGN, "=", 1, 8⟩, ⟨.NUMBER, "5", 1, 10⟩, ⟨.END_OF_FILE, "", 1, 10⟩], 4⟩
      (.NumberExpr 5) rfl rfl rfl (by rfl) (by decide)).2, by decide!, by decide!⟩

/-! ## The empty while loop (C13) -/

/-- C13: the source `while (1) { }` compiles to the five prologue lines, the
seven lines `L0:`, `    push 1`, `    pop rax`, `    test rax, rax`,
`    jz L1`, `    jmp L0`, `L1:`, and the five epilogue lines, each followed
by a newline; and an empty block appends no line and changes nothing in the
generator. -/
theorem while_empty_block_output :
    compile "while (1) \x7b \x7d" =
        .ok ("section .text\nglobal _start\n_start:\n    push rbp\n    mov rbp, rsp\n" ++
          "L0:\n    push 1\n    pop rax\n    test rax, rax\n    jz L1\n    jmp L0\nL1:\n" ++
          "    mov rsp, rbp\n    pop rbp\n    mov rax, 60\n    xor rdi, rdi\n    syscall\n") ∧
      (tokenize "while (1) \x7b \x7d".data).map parse =
        some (.ok [.WhileStmt (.NumberExpr 1) (.BlockStmt [])]) ∧
      generateLines [.WhileStmt (.NumberExpr 1) (.BlockStmt [])] =
        .ok (["section .text", "global _start", "_start:", "    push rbp", "    mov rbp, rsp"] ++
          ["L0:", "    push 1", "    pop rax", "    test rax, rax", "    jz L1", "    jmp L0",
            "L1:"] ++
          ["    mov rsp, rbp", "    pop rbp", "    mov rax, 60", "    xor rdi, rdi",
            "    syscall"]) ∧
      ∀ cg : CodeGenerator, CodeGenerator.generateStmt (.BlockStmt []) cg = .ok cg :=
  ⟨by decide!, by rfl, by decide!, fun _ => rfl⟩

/-! ## Token positions (C14) -/

theorem posLe_refl (l k : Nat) : posLe l k l k := Or.inr ⟨rfl, le_refl _⟩

theorem posLe_trans {l1 k1 l2 k2 l3 k3 : Nat} (h1 : posLe l1 k1 l2 k2)
    (h2 : posLe l2 k2 l3 k3) : posLe l1 k1 l3 k3 := by
  simp only [posLe] at *
  omega

theorem Lexer.next_pos (lx : Lexer) : posLe lx.line lx.column lx.next.2.line lx.next.2.column := by
  obtain ⟨s, l, k⟩ := lx
  cases s with
  | nil => exact posLe_refl _ _
  | cons c cs =>
    by_cases h : c = '\n'
    · simp [Lexer.next, h, posLe]
    · simp [Lexer.next, h, posLe]

theorem Lexer.skipWhitespaceLoop_pos (fuel : Nat) (lx : Lexer) :
    posLe lx.line lx.column (Lexer.skipWhitespaceLoop fuel lx).line
      (Lexer.skipWhitespaceLoop fuel lx).column := by
  induction fuel generalizing lx with
  | zero => exact posLe_refl _ _
  | succ n ih =>
    simp only [Lexer.skipWhitespaceLoop]
    split_ifs
    · exact posLe_trans (Lexer.next_pos lx) (ih _)
    · exact posLe_refl _ _

theorem Lexer.readNumberLoop_pos (fuel : Nat) (value : String) (lx : Lexer) :
    posLe lx.line lx.column (Lexer.readNumberLoop fuel value lx).2.line
      (Lexer.readNumberLoop fuel value lx).2.column := by
  induction fuel generalizing lx value with
  | zero => exact posLe_refl _ _
  | succ n ih =>
    simp only [Lexer.readNumberLoop]
    split_ifs
    · exact posLe_trans (Lexer.next_pos lx) (ih _ _)
    · exact posLe_refl _ _

theorem Lexer.readIdentifierLoop_pos (fuel : Nat) (value : String) (lx : Lexer) :
    posLe lx.line lx.column (Lexer.readIdentifierLoop fuel value lx).2.line
      (Lexer.readIdentifierLoop fuel value lx).2.column := by
  induction fuel generalizing lx value with
  | zero => exact posLe_refl _ _
  | succ n ih =>
    simp only [Lexer.readIdentifierLoop]
    split_ifs
    · exact posLe_trans (Lexer.next_pos lx) (ih _ _)
    · exact posLe_refl _ _

theorem ite_of_both {α : Type} (P : α → Prop) (c : Prop) [Decidable c] (a b : α)
    (ha : P a) (hb : P b) : P (if c then a else b) := by
  split_ifs <;> assumption

/-- Every branch of `readOperator` returns a token whose position is that of
the lexer state it leaves, after one or two calls of `next`. -/
theorem Lexer.readOperator_cases (lx : Lexer) (P : Token × Lexer → Prop)
    (h1 : ∀ t v, P (⟨t, v, lx.next.2.line, lx.next.2.column⟩, lx.next.2))
    (h2 : ∀ t v, P (⟨t, v, lx.next.2.next.2.line, lx.next.2.next.2.column⟩, lx.next.2.next.2)) :
    P lx.readOperator := by
  simp only [Lexer.readOperator]
  repeat' first
    | exact h1 _ _
    | exact h2 _ _
    | apply ite_of_both

theorem Lexer.readOperator_pos (lx : Lexer) :
    posLe lx.line lx.column lx.readOperator.2.line lx.readOperator.2.column ∧
      lx.readOperator.1.line = lx.readOperator.2.line ∧
      lx.readOperator.1.column = lx.readOperator.2.column := by
  have h1 := Lexer.next_pos lx
  have h2 := posLe_trans h1 (Lexer.next_pos lx.next.2)
  exact Lexer.readOperator_cases lx
    (fun r => posLe lx.line lx.column r.2.line r.2.column ∧
      r.1.line = r.2.line ∧ r.1.column = r.2.column)
    (fun _ _ => ⟨h1, rfl, rfl⟩) (fun _ _ => ⟨h2, rfl, rfl⟩)

theorem Lexer.getNextToken_pos (lx : Lexer) :
    posLe lx.line lx.column lx.getNextToken.2.line lx.getNextToken.2.column ∧
      lx.getNextToken.1.line = lx.getNextToken.2.line ∧
      lx.getNextToken.1.column = lx.getNextToken.2.column := by
  have h0 : posLe lx.line lx.column lx.skipWhitespace.line lx.skipWhitespace.column :=
    Lexer.skipWhitespaceLoop_pos _ lx
  simp only [Lexer.getNextToken]
  split_ifs
  · exact ⟨h0, rfl, rfl⟩
  · exact ⟨posLe_trans h0 (Lexer.readNumberLoop_pos _ _ _), rfl, rfl⟩
  · refine ⟨posLe_trans h0 ?_, ?_, ?_⟩
    · simp only [Lexer.readIdentifier]
      split <;> exact Lexer.readIdentifierLoop_pos _ _ _
    · simp only [Lexer.readIdentifier]
      split <;> rfl
    · simp only [Lexer.readIdentifier]
      split <;> rfl
  · obtain ⟨g1, g2, g3⟩ := Lexer.readOperator_pos lx.skipWhitespace
    exact ⟨posLe_trans h0 g1, g2, g3⟩

theorem Lexer.tokenize_positions (n : Nat) (lx : Lexer) (hn : lx.rest.length ≤ n)
    (tokens : List Token) (h : lx.tokenize = some tokens) :
    (∀ t ∈ tokens, posLe lx.line lx.column t.line t.column) ∧
      tokens.Pairwise (fun a b => posLe a.line a.column b.line b.column) := by
  induction n generalizing lx tokens with
  | zero =>
    rw [Lexer.tokenize_eq] at h
    obtain ⟨g1, g2, g3⟩ := Lexer.getNextToken_pos lx
    by_cases ht : lx.getNextToken.1.type = .END_OF_FILE
    · simp only [ht, if_true, Option.some.injEq] at h
      subst h
      refine ⟨?_, by simp⟩
      intro t hmem
      simp only [List.mem_singleton] at hmem
      subst hmem
      rw [g2, g3]; exact g1
    · have := Lexer.getNextToken_rest_lt lx ht
      omega
  | succ n ih =>
    rw [Lexer.tokenize_eq] at h
    obtain ⟨g1, g2, g3⟩ := Lexer.getNextToken_pos lx
    by_cases ht : lx.getNextToken.1.type = .END_OF_FILE
    · simp only [ht, if_true, Option.some.injEq] at h
      subst h
      refine ⟨?_, by simp⟩
      intro t hmem
      simp only [List.mem_singleton] at hmem
      subst hmem
      rw [g2, g3]; exact g1
    · simp only [ht, if_false, Option.map_eq_some'] at h
      obtain ⟨rest, hrest, rfl⟩ := h
      have hlt := Lexer.getNextToken_rest_lt lx ht
      obtain ⟨i1, i2⟩ := ih lx.getNextToken.2 (by omega) rest hrest
      refine ⟨?_, ?_⟩
      · intro t hmem
        rcases List.mem_cons.mp hmem with rfl | hmem
        · rw [g2, g3]; exact g1
        · exact posLe_trans g1 (i1 t hmem)
      · refine List.Pairwise.cons ?_ i2
        intro t hmem
        rw [g2, g3]
        exact i1 t hmem

/-- C14: for every input text, in the token sequence `tokenize` returns a token
never has a smaller line than a token before it, and the (line, column) pairs
are non-decreasing in lexicographic order. -/
theorem token_positions_monotone (source : List Char) :
    ∃ tokens, tokenize source = some tokens ∧
      tokens.Pairwise (fun a b => a.line ≤ b.line) ∧
      tokens.Pairwise (fun a b => a.line < b.line ∨ (a.line = b.line ∧ a.column ≤ b.column)) := by
  obtain ⟨body, eof, h, -, -⟩ := Lexer.tokenize_spec (Lexer.new source)
  obtain ⟨-, hp⟩ := Lexer.tokenize_positions _ (Lexer.new source) (le_refl _) _ h
  refine ⟨_, h, ?_, hp⟩
  refine hp.imp ?_
  intro a b hab
  simp only [posLe] at hab
  omega

/-! ## What a successful parse accounts for -/

theorem Parser.peek_mem (p : Parser) (h : p.isAtEnd = false) : p.peek ∈ p.tokens := by
  simp only [Parser.isAtEnd, decide_eq_false_iff_not] at h
  simp only [Parser.peek, List.getD_eq_getElem?_getD] at h ⊢
  cases hg : p.tokens[p.current]? with
  | none => simp [hg] at h
  | some tok =>
    simp only [Option.getD_some]
    exact List.getElem?_mem hg

theorem Parser.passed_step (t : TokenType) (p : Parser) (h : p.isAtEnd = false) :
    p.step.passed t = p.passed t + if p.peek.type = t then 1 else 0 := by
  simp only [Parser.isAtEnd, decide_eq_false_iff_not] at h
  simp only [Parser.peek, List.getD_eq_getElem?_getD] at h ⊢
  cases hg : p.tokens[p.current]? with
  | none => simp [hg] at h
  | some tok =>
    have hlt : p.current < p.tokens.length := by
      by_contra hge
      rw [List.getElem?_eq_none (by omega)] at hg
      simp at hg
    have htok : p.tokens[p.current] = tok := by
      rw [List.getElem?_eq_getElem hlt] at hg
      simpa using hg
    simp only [Parser.passed, Parser.step, Option.getD_some]
    rw [List.take_succ, hg]
    simp [List.countP_append, List.countP_cons]

theorem Parser.passed_step_grammar (t : TokenType) (ht : t ∉ grammarKinds) (p : Parser)
    (h : p.isAtEnd = false) (hk : p.peek.type ∈ grammarKinds) : p.step.passed t = p.passed t := by
  rw [Parser.passed_step t p h]
  have : p.peek.type ≠ t := fun heq => ht (heq ▸ hk)
  simp [this]

theorem Parser.passed_step_semicolon (t : TokenType) (p : Parser) (h : p.isAtEnd = false)
    (hk : p.peek.type = .SEMICOLON) :
    p.step.passed t = p.passed t + if t = .SEMICOLON then 1 else 0 := by
  rw [Parser.passed_step t p h, hk]
  by_cases hs : t = .SEMICOLON
  · subst hs; simp
  · have : ¬ TokenType.SEMICOLON = t := fun h => hs h.symm
    simp [hs, this]

theorem supportedOperator_grammar (op : TokenType) (h : supportedOperator op = true) :
    op ∈ grammarKinds := by
  cases op <;> simp [supportedOperator] at h <;> simp [grammarKinds]

theorem Parser.Raised.error (p q : Parser) (m : String) (h : q.tokens = p.tokens) :
    Parser.Raised p.tokens (q.error m) :=
  Or.inr (Or.inl ⟨q, m, h, rfl⟩)

theorem Parser.primary_sound (t : TokenType) (ht : t ∉ grammarKinds)
    (expression : Parser → PResult Expr)
    (hexp : ∀ q : Parser, Parser.SoundExpr t q (expression q)) (p : Parser) :
    Parser.SoundExpr t p (p.primary expression) := by
  simp only [Parser.primary]
  rcases Parser.match_cases p .NUMBER with h1 | ⟨h1, hend, hty⟩
  · rcases Parser.match_cases p .IDENTIFIER with h2 | ⟨h2, hend, hty⟩
    · rcases Parser.match_cases p .LPAREN with h3 | ⟨h3, hend, hty⟩
      · simp only [h1, h2, h3, Bool.false_eq_true, if_false]
        exact Parser.Raised.error p p _ rfl
      · simp only [h1, h2, h3, Bool.false_eq_true, if_false, if_true]
        have hpass := Parser.passed_step_grammar t ht p hend (by rw [hty]; simp [grammarKinds])
        have := hexp p.step
        cases hres : expression p.step with
        | error e =>
          rw [hres] at this
          exact this
        | ok v =>
          obtain ⟨e, p1⟩ := v
          rw [hres] at this
          obtain ⟨g1, g2, g3⟩ := this
          have g1p : p1.tokens = p.tokens := g1
          simp only
          rcases Parser.match_cases p1 .RPAREN with h4 | ⟨h4, hend1, hty1⟩
          · simp only [h4, Bool.not_false, if_true]
            exact Parser.Raised.error p p1 _ g1p
          · simp only [h4, Bool.not_true, Bool.false_eq_true, if_false]
            have hpass1 := Parser.passed_step_grammar t ht p1 hend1
              (by rw [hty1]; simp [grammarKinds])
            exact ⟨g1p, by rw [hpass1, g2, hpass], g3⟩
    · simp only [h1, h2, Bool.false_eq_true, if_false, if_true]
      exact ⟨rfl, Parser.passed_step_grammar t ht p hend (by rw [hty]; simp [grammarKinds]), rfl⟩
  · simp only [h1, if_true]
    cases hs : stoi p.step.previous.value with
    | error e =>
      exact Or.inr (Or.inr ⟨p.peek, Parser.peek_mem p hend, hty, hs⟩)
    | ok v =>
      exact ⟨rfl, Parser.passed_step_grammar t ht p hend (by rw [hty]; simp [grammarKinds]), rfl⟩

theorem Parser.binaryLoop_sound (t : TokenType) (ht : t ∉ grammarKinds)
    (ops : Parser → Bool × Parser) (operand : Parser → PResult Expr)
    (hops : ∀ q : Parser, ops q = (false, q) ∨
      (ops q = (true, q.step) ∧ q.isAtEnd = false ∧ supportedOperator q.peek.type = true))
    (hop : ∀ q : Parser, Parser.SoundExpr t q (operand q))
    (fuel : Nat) (expr : Expr) (p : Parser) (he : expr.opsSupported = true) :
    Parser.SoundExpr t p (Parser.binaryLoop ops operand fuel expr p) := by
  induction fuel generalizing expr p with
  | zero => exact Or.inl rfl
  | succ f ih =>
    simp only [Parser.binaryLoop]
    rcases hops p with h | ⟨h, hend, hsup⟩
    · simp only [h, Bool.false_eq_true, if_false]
      exact ⟨rfl, rfl, he⟩
    · simp only [h, if_true]
      have hpass := Parser.passed_step_grammar t ht p hend (supportedOperator_grammar _ hsup)
      have hprog := hop p.step
      cases hres : operand p.step with
      | error e =>
        rw [hres] at hprog
        exact hprog
      | ok v =>
        obtain ⟨right, p1⟩ := v
        rw [hres] at hprog
        obtain ⟨g1, g2, g3⟩ := hprog
        have g1p : p1.tokens = p.tokens := g1
        simp only
        have hnew : (Expr.BinaryExpr p.step.previous.type expr right).opsSupported = true := by
          simp only [Expr.opsSupported, Bool.and_eq_true]
          exact ⟨⟨hsup, he⟩, g3⟩
        have := ih (.BinaryExpr p.step.previous.type expr right) p1 hnew
        cases hloop : Parser.binaryLoop ops operand f
            (.BinaryExpr p.step.previous.type expr right) p1 with
        | error e =>
          rw [hloop] at this
          have hr : Parser.Raised p1.tokens e := this
          rw [g1p] at hr
          exact hr
        | ok w =>
          obtain ⟨e2, p2⟩ := w
          rw [hloop] at this
          obtain ⟨k1, k2, k3⟩ := this
          exact ⟨by rw [k1, g1p], by rw [k2, g2, hpass], k3⟩

theorem Parser.level_sound (t : TokenType) (ht : t ∉ grammarKinds)
    (ops : Parser → Bool × Parser) (operand : Parser → PResult Expr)
    (hops : ∀ q : Parser, ops q = (false, q) ∨
      (ops q = (true, q.step) ∧ q.isAtEnd = false ∧ supportedOperator q.peek.type = true))
    (hop : ∀ q : Parser, Parser.SoundExpr t q (operand q)) (n : Nat) (p : Parser) :
    Parser.SoundExpr t p (match operand p with
      | .error e => .error e
      | .ok (expr, p1) => Parser.binaryLoop ops operand n expr p1) := by
  have hprog := hop p
  cases hres : operand p with
  | error e =>
    rw [hres] at hprog
    exact hprog
  | ok v =>
    obtain ⟨expr, p1⟩ := v
    rw [hres] at hprog
    obtain ⟨g1, g2, g3⟩ := hprog
    simp only
    have := Parser.binaryLoop_sound t ht ops operand hops hop n expr p1 g3
    cases hloop : Parser.binaryLoop ops operand n expr p1 with
    | error e =>
      rw [hloop] at this
      have hr : Parser.Raised p1.tokens e := this
      rw [g1] at hr
      exact hr
    | ok w =>
      obtain ⟨e2, p2⟩ := w
      rw [hloop] at this
      obtain ⟨k1, k2, k3⟩ := this
      exact ⟨by rw [k1, g1], by rw [k2, g2], k3⟩

theorem Parser.matchEither_supported (a b : TokenType) (ha : supportedOperator a = true)
    (hb : supportedOperator b = true) (q : Parser) :
    q.matchEither a b = (false, q) ∨ (q.matchEither a b = (true, q.step) ∧ q.isAtEnd = false ∧
      supportedOperator q.peek.type = true) := by
  rcases Parser.matchEither_cases q a b with h | ⟨h, hend, hty | hty⟩
  · exact Or.inl h
  · exact Or.inr ⟨h, hend, by rw [hty]; exact ha⟩
  · exact Or.inr ⟨h, hend, by rw [hty]; exact hb⟩

theorem Parser.match_supported (a : TokenType) (ha : supportedOperator a = true) (q : Parser) :
    q.match_ a = (false, q) ∨ (q.match_ a = (true, q.step) ∧ q.isAtEnd = false ∧
      supportedOperator q.peek.type = true) := by
  rcases Parser.match_cases q a with h | ⟨h, hend, hty⟩
  · exact Or.inl h
  · exact Or.inr ⟨h, hend, by rw [hty]; exact ha⟩

theorem Parser.expression_sound (t : TokenType) (ht : t ∉ grammarKinds) (n : Nat) (p : Parser) :
    Parser.SoundExpr t p (Parser.expression n p) := by
  induction n generalizing p with
  | zero => exact Or.inl rfl
  | succ n ih =>
    have hprim : ∀ q : Parser, Parser.SoundExpr t q (q.primary (Parser.expression n)) :=
      fun q => Parser.primary_sound t ht _ ih q
    have hfac : ∀ q : Parser, Parser.SoundExpr t q (q.factor (Parser.expression n) n) :=
      fun q => Parser.level_sound t ht _ _
        (Parser.matchEither_supported .MULTIPLY .DIVIDE rfl rfl) hprim n q
    have hterm : ∀ q : Parser, Parser.SoundExpr t q (q.term (Parser.expression n) n) :=
      fun q => Parser.level_sound t ht _ _
        (Parser.matchEither_supported .PLUS .MINUS rfl rfl) hfac n q
    have hcmp : ∀ q : Parser, Parser.SoundExpr t q (q.comparison (Parser.expression n) n) :=
      fun q => Parser.level_sound t ht _ _
        (Parser.matchEither_supported .LESS .GREATER rfl rfl) hterm n q
    exact Parser.level_sound t ht _ _ (Parser.match_supported .EQUAL rfl) hcmp n p

theorem Stmt.letsList_append (acc : List Stmt) (s : Stmt) :
    Stmt.letsList (acc ++ [s]) = Stmt.letsList acc + s.lets := by
  induction acc with
  | nil => simp [Stmt.letsList]
  | cons a rest ih =>
    have hc : (a :: rest) ++ [s] = a :: (rest ++ [s]) := rfl
    rw [hc]
    simp only [Stmt.letsList, ih]
    omega

theorem Stmt.opsSupportedList_append (acc : List Stmt) (s : Stmt) :
    Stmt.opsSupportedList (acc ++ [s]) = (Stmt.opsSupportedList acc && s.opsSupported) := by
  induction acc with
  | nil => simp [Stmt.opsSupportedList]
  | cons a rest ih =>
    have hc : (a :: rest) ++ [s] = a :: (rest ++ [s]) := rfl
    rw [hc]
    simp only [Stmt.opsSupportedList, ih, Bool.and_assoc]

/-- A statement rule that ran from `p.step` on, after a token of the grammar. -/
theorem Parser.SoundStmt.after_token (t : TokenType) (ht : t ∉ grammarKinds) (p : Parser)
    (r : PResult Stmt) (hend : p.isAtEnd = false) (hk : p.peek.type ∈ grammarKinds)
    (h : Parser.SoundStmt t p.step r) : Parser.SoundStmt t p r := by
  have hpass := Parser.passed_step_grammar t ht p hend hk
  cases r with
  | error e => exact h
  | ok v =>
    obtain ⟨s, q⟩ := v
    obtain ⟨h1, h2, h3⟩ := h
    exact ⟨h1, by rw [h2, hpass], h3⟩

theorem Parser.letStatement_sound (t : TokenType) (ht : t ∉ grammarKinds) (n : Nat)
    (p : Parser) : Parser.SoundStmt t p (p.letStatement n) := by
  simp only [Parser.letStatement]
  rcases Parser.advance_cases p with ⟨hend, hadv⟩ | ⟨hend, hadv⟩
  · rw [hadv]
    split_ifs with h1 h2
    · exact Parser.Raised.error p p _ rfl
    · exact Parser.Raised.error p p _ rfl
    · exfalso
      have : p.match_ .ASSIGN = (false, p) := by
        simp [Parser.match_, Parser.check, hend]
      simp [this] at h2
  · rw [hadv]
    have hname : p.advance.1 = p.peek := by
      have : p.advance.1 = p.advance.2.previous := rfl
      rw [this, hadv]
      rfl
    rw [hname]
    split_ifs with h1 h2
    · exact Parser.Raised.error p p.step _ rfl
    · exact Parser.Raised.error p p.step _ rfl
    · have hty : p.peek.type = .IDENTIFIER := by
        by_contra hne
        exact h1 hne
      have hpass0 := Parser.passed_step_grammar t ht p hend (by rw [hty]; simp [grammarKinds])
      rcases Parser.match_cases p.step .ASSIGN with h3 | ⟨h3, hend3, hty3⟩
      · simp [h3] at h2
      · simp only [h3]
        have hpass1 := Parser.passed_step_grammar t ht p.step hend3
          (by rw [hty3]; simp [grammarKinds])
        have hprog := Parser.expression_sound t ht n p.step.step
        cases hres : Parser.expression n p.step.step with
        | error e =>
          rw [hres] at hprog
          exact hprog
        | ok v =>
          obtain ⟨value, p2⟩ := v
          rw [hres] at hprog
          obtain ⟨g1, g2, g3⟩ := hprog
          have g1p : p2.tokens = p.tokens := g1
          simp only
          rcases Parser.match_cases p2 .SEMICOLON with h4 | ⟨h4, hend4, hty4⟩
          · simp only [h4, Bool.not_false, if_true]
            exact Parser.Raised.error p p2 _ g1p
          · simp only [h4, Bool.not_true, Bool.false_eq_true, if_false]
            have hpass2 := Parser.passed_step_semicolon t p2 hend4 hty4
            refine ⟨g1p, ?_, g3⟩
            rw [hpass2, g2, hpass1, hpass0]
            simp [Stmt.lets]

theorem Parser.conditional_sound (t : TokenType) (ht : t ∉ grammarKinds)
    (statement : Parser → PResult Stmt)
    (hst : ∀ q : Parser, Parser.SoundStmt t q (statement q)) (n : Nat) (p : Parser) :
    Parser.SoundStmt t p (p.ifStatement statement n) ∧
      Parser.SoundStmt t p (p.whileStatement statement n) := by
  simp only [Parser.ifStatement, Parser.whileStatement]
  rcases Parser.match_cases p .LPAREN with h1 | ⟨h1, hend1, hty1⟩
  · simp only [h1, Bool.not_false, if_true]
    exact ⟨Parser.Raised.error p p _ rfl, Parser.Raised.error p p _ rfl⟩
  · simp only [h1, Bool.not_true, Bool.false_eq_true, if_false]
    have hpass0 := Parser.passed_step_grammar t ht p hend1 (by rw [hty1]; simp [grammarKinds])
    have hprog := Parser.expression_sound t ht n p.step
    cases hres : Parser.expression n p.step with
    | error e =>
      rw [hres] at hprog
      exact ⟨hprog, hprog⟩
    | ok v =>
      obtain ⟨condition, p1⟩ := v
      rw [hres] at hprog
      obtain ⟨g1, g2, g3⟩ := hprog
      have g1p : p1.tokens = p.tokens := g1
      simp only
      rcases Parser.match_cases p1 .RPAREN with h2 | ⟨h2, hend2, hty2⟩
      · simp only [h2, Bool.not_false, if_true]
        exact ⟨Parser.Raised.error p p1 _ g1p, Parser.Raised.error p p1 _ g1p⟩
      · simp only [h2, Bool.not_true, Bool.false_eq_true, if_false]
        have hpass1 := Parser.passed_step_grammar t ht p1 hend2
          (by rw [hty2]; simp [grammarKinds])
        have hprog2 := hst p1.step
        cases hres2 : statement p1.step with
        | error e =>
          rw [hres2] at hprog2
          have hr : Parser.Raised p1.step.tokens e := hprog2
          have hr2 : Parser.Raised p.tokens e := by
            have : p1.step.tokens = p.tokens := g1p
            rw [this] at hr
            exact hr
          exact ⟨hr2, hr2⟩
        | ok w =>
          obtain ⟨thenBranch, p2⟩ := w
          rw [hres2] at hprog2
          obtain ⟨k1, k2, k3⟩ := hprog2
          have k1p : p2.tokens = p.tokens := by rw [k1]; exact g1p
          simp only
          have hwhile : Parser.SoundStmt t p
              (.ok (Stmt.WhileStmt condition thenBranch, p2)) := by
            refine ⟨k1p, ?_, ?_⟩
            · rw [k2, hpass1, g2, hpass0]
              simp [Stmt.lets]
            · simp only [Stmt.opsSupported, Bool.and_eq_true]
              exact ⟨g3, k3⟩
          refine ⟨?_, hwhile⟩
          rcases Parser.match_cases p2 .ELSE with h3 | ⟨h3, hend3, hty3⟩
          · simp only [h3, Bool.false_eq_true, if_false]
            refine ⟨k1p, ?_, ?_⟩
            · rw [k2, hpass1, g2, hpass0]
              simp [Stmt.lets, Stmt.letsOption]
            · simp only [Stmt.opsSupported, Stmt.opsSupportedOption, Bool.and_eq_true]
              exact ⟨⟨g3, k3⟩, trivial⟩
          · simp only [h3, if_true]
            have hpass2 := Parser.passed_step_grammar t ht p2 hend3
              (by rw [hty3]; simp [grammarKinds])
            have hprog3 := hst p2.step
            cases hres3 : statement p2.step with
            | error e =>
              rw [hres3] at hprog3
              have hr : Parser.Raised p2.step.tokens e := hprog3
              have : p2.step.tokens = p.tokens := k1p
              rw [this] at hr
              exact hr
            | ok x =>
              obtain ⟨elseBranch, p3⟩ := x
              rw [hres3] at hprog3
              obtain ⟨m1, m2, m3⟩ := hprog3
              refine ⟨by rw [m1]; exact k1p, ?_, ?_⟩
              · rw [m2, hpass2, k2, hpass1, g2, hpass0]
                simp only [Stmt.lets, Stmt.letsOption]
                split_ifs <;> omega
              · simp only [Stmt.opsSupported, Stmt.opsSupportedOption, Bool.and_eq_true]
                exact ⟨⟨g3, k3⟩, m3⟩

theorem Parser.blockLoop_sound (t : TokenType) (statement : Parser → PResult Stmt)
    (hst : ∀ q : Parser, Parser.SoundStmt t q (statement q))
    (fuel : Nat) (statements : List Stmt) (p : Parser)
    (hacc : Stmt.opsSupportedList statements = true) :
    Parser.SoundStmts t p statements (Parser.blockLoop statement fuel statements p) := by
  induction fuel generalizing statements p with
  | zero => exact Or.inl rfl
  | succ f ih =>
    simp only [Parser.blockLoop]
    split_ifs with hc
    · have hprog := hst p
      cases hres : statement p with
      | error e =>
        rw [hres] at hprog
        exact hprog
      | ok v =>
        obtain ⟨s, p1⟩ := v
        rw [hres] at hprog
        obtain ⟨g1, g2, g3⟩ := hprog
        simp only
        have hacc1 : Stmt.opsSupportedList (statements ++ [s]) = true := by
          rw [Stmt.opsSupportedList_append, hacc, g3]
          rfl
        have := ih (statements ++ [s]) p1 hacc1
        cases hloop : Parser.blockLoop statement f (statements ++ [s]) p1 with
        | error e =>
          rw [hloop] at this
          have hr : Parser.Raised p1.tokens e := this
          rw [g1] at hr
          exact hr
        | ok w =>
          obtain ⟨ss, p2⟩ := w
          rw [hloop] at this
          obtain ⟨k1, k2, k3⟩ := this
          refine ⟨by rw [k1, g1], ?_, k3⟩
          rw [Stmt.letsList_append] at k2
          rw [g2] at k2
          split_ifs at k2 ⊢ <;> omega
    · exact ⟨rfl, rfl, hacc⟩

theorem Parser.blockStatement_sound (t : TokenType) (ht : t ∉ grammarKinds)
    (statement : Parser → PResult Stmt)
    (hst : ∀ q : Parser, Parser.SoundStmt t q (statement q)) (n : Nat) (p : Parser) :
    Parser.SoundStmt t p (p.blockStatement statement n) := by
  simp only [Parser.blockStatement]
  have := Parser.blockLoop_sound t statement hst n [] p rfl
  cases hloop : Parser.blockLoop statement n [] p with
  | error e =>
    rw [hloop] at this
    exact this
  | ok w =>
    obtain ⟨ss, p1⟩ := w
    rw [hloop] at this
    obtain ⟨k1, k2, k3⟩ := this
    simp only
    rcases Parser.match_cases p1 .RBRACE with h | ⟨h, hend, hty⟩
    · simp only [h, Bool.not_false, if_true]
      exact Parser.Raised.error p p1 _ k1
    · simp only [h, Bool.not_true, Bool.false_eq_true, if_false]
      have hpass := Parser.passed_step_grammar t ht p1 hend (by rw [hty]; simp [grammarKinds])
      refine ⟨k1, ?_, ?_⟩
      · rw [hpass]
        simp only [Stmt.letsList, Stmt.lets] at k2 ⊢
        split_ifs at k2 ⊢ <;> omega
      · simpa [Stmt.opsSupported] using k3

theorem Parser.statement_sound (t : TokenType) (ht : t ∉ grammarKinds) (n : Nat) (p : Parser) :
    Parser.SoundStmt t p (Parser.statement n p) := by
  induction n generalizing p with
  | zero => exact Or.inl rfl
  | succ n ih =>
    simp only [Parser.statement]
    rcases Parser.match_cases p .LET with h1 | ⟨h1, hend, hty⟩
    · rcases Parser.match_cases p .IF with h2 | ⟨h2, hend, hty⟩
      · rcases Parser.match_cases p .WHILE with h3 | ⟨h3, hend, hty⟩
        · rcases Parser.match_cases p .LBRACE with h4 | ⟨h4, hend, hty⟩
          · simp only [h1, h2, h3, h4, Bool.false_eq_true, if_false]
            have hprog := Parser.expression_sound t ht (n + 1) p
            cases hres : Parser.expression (n + 1) p with
            | error e =>
              rw [hres] at hprog
              exact hprog
            | ok v =>
              obtain ⟨expr, p1⟩ := v
              rw [hres] at hprog
              obtain ⟨g1, g2, g3⟩ := hprog
              refine ⟨g1, ?_, ?_⟩
              · rw [g2]
                simp [Stmt.lets]
              · simpa [Stmt.opsSupported] using g3
          · simp only [h1, h2, h3, h4, Bool.false_eq_true, if_false, if_true]
            exact Parser.SoundStmt.after_token t ht p _ hend (by rw [hty]; simp [grammarKinds])
              (Parser.blockStatement_sound t ht _ ih (n + 1) p.step)
        · simp only [h1, h2, h3, Bool.false_eq_true, if_false, if_true]
          exact Parser.SoundStmt.after_token t ht p _ hend (by rw [hty]; simp [grammarKinds])
            (Parser.conditional_sound t ht _ ih (n + 1) p.step).2
      · simp only [h1, h2, Bool.false_eq_true, if_false, if_true]
        exact Parser.SoundStmt.after_token t ht p _ hend (by rw [hty]; simp [grammarKinds])
          (Parser.conditional_sound t ht _ ih (n + 1) p.step).1
    · simp only [h1, if_true]
      exact Parser.SoundStmt.after_token t ht p _ hend (by rw [hty]; simp [grammarKinds])
        (Parser.letStatement_sound t ht (n + 1) p.step)

theorem Parser.parseLoop_sound (t : TokenType) (ht : t ∉ grammarKinds) (budget fuel : Nat)
    (statements : List Stmt) (p : Parser) (hacc : Stmt.opsSupportedList statements = true) :
    Parser.SoundStmts t p statements (Parser.parseLoop budget fuel statements p) := by
  induction fuel generalizing statements p with
  | zero => exact Or.inl rfl
  | succ f ih =>
    simp only [Parser.parseLoop]
    split_ifs with hc
    · have hprog := Parser.statement_sound t ht budget p
      cases hres : Parser.statement budget p with
      | error e =>
        rw [hres] at hprog
        exact hprog
      | ok v =>
        obtain ⟨s, p1⟩ := v
        rw [hres] at hprog
        obtain ⟨g1, g2, g3⟩ := hprog
        simp only
        have hacc1 : Stmt.opsSupportedList (statements ++ [s]) = true := by
          rw [Stmt.opsSupportedList_append, hacc, g3]
          rfl
        have := ih (statements ++ [s]) p1 hacc1
        cases hloop : Parser.parseLoop budget f (statements ++ [s]) p1 with
        | error e =>
          rw [hloop] at this
          have hr : Parser.Raised p1.tokens e := this
          rw [g1] at hr
          exact hr
        | ok w =>
          obtain ⟨ss, p2⟩ := w
          rw [hloop] at this
          obtain ⟨k1, k2, k3⟩ := this
          refine ⟨by rw [k1, g1], ?_, k3⟩
          rw [Stmt.letsList_append] at k2
          rw [g2] at k2
          split_ifs at k2 ⊢ <;> omega
    · exact ⟨rfl, rfl, hacc⟩

/-! ## The traversal of the generator -/

theorem lookup_assignVariable (vars : List (String × Nat)) (name x : String) (offset : Nat) :
    ((assignVariable vars name offset).lookup x).isSome =
      (decide (x = name) || (vars.lookup x).isSome) := by
  induction vars with
  | nil =>
    simp only [assignVariable, List.lookup]
    by_cases h : x = name
    · subst h; simp
    · have : (x == name) = false := by simpa using h
      simp [this, h]
  | cons kv rest ih =>
    obtain ⟨k, v⟩ := kv
    simp only [assignVariable]
    by_cases hk : k = name
    · subst hk
      simp only [if_true, List.lookup]
      by_cases hx : x = k
      · subst hx; simp
      · have : (x == k) = false := by simpa using hx
        simp [this, hx]
    · simp only [hk, if_false, List.lookup]
      by_cases hx : x = k
      · subst hx; simp
      · have : (x == k) = false := by simpa using hx
        simp only [this, ih]

theorem CodeGenerator.Agree.emit {bound : List String} {cg : CodeGenerator}
    (h : cg.Agree bound) (line : String) : (cg.emit line).Agree bound := h

theorem CodeGenerator.Agree.of_variables {bound : List String} {cg cg' : CodeGenerator}
    (h : cg.Agree bound) (hv : cg'.variables_ = cg.variables_) : cg'.Agree bound := by
  intro x
  rw [hv]
  exact h x

theorem CodeGenerator.Agree.bind {bound : List String} {cg : CodeGenerator}
    (h : cg.Agree bound) (name : String) : (cg.bindVariable name).Agree (name :: bound) := by
  intro x
  have : (cg.bindVariable name).variables_ =
      assignVariable cg.variables_ name (cg.variables_.length + 1) := rfl
  rw [this, lookup_assignVariable]
  simp only [List.mem_cons, Bool.or_eq_true, decide_eq_true_eq]
  rw [h x]

theorem CodeGenerator.generateOperator_supported (cg : CodeGenerator) (op : TokenType)
    (h : supportedOperator op = true) :
    ∃ cg', cg.generateOperator op = .ok cg' ∧ cg'.variables_ = cg.variables_ := by
  cases op <;> simp [supportedOperator] at h <;>
    exact ⟨_, rfl, rfl⟩

theorem CodeGenerator.generateExpr_scan (e : Expr) (bound : List String) (cg : CodeGenerator)
    (hs : e.opsSupported = true) (ha : cg.Agree bound) :
    match e.firstUnbound bound with
    | some n => CodeGenerator.generateExpr e cg =
        .error (.runtime_error ("Undefined variable: " ++ n))
    | none => ∃ cg', CodeGenerator.generateExpr e cg = .ok cg' ∧
        cg'.variables_ = cg.variables_ := by
  induction e generalizing cg with
  | NumberExpr v => exact ⟨_, rfl, rfl⟩
  | IdentifierExpr name =>
    simp only [Expr.firstUnbound, CodeGenerator.generateExpr,
      CodeGenerator.generateIdentifierExpr]
    by_cases hm : name ∈ bound
    · simp only [hm, if_true]
      have := (ha name).1 hm
      cases hl : cg.variables_.lookup name with
      | none => simp [hl] at this
      | some slot => exact ⟨_, rfl, rfl⟩
    · simp only [hm, if_false]
      have : ¬ (cg.variables_.lookup name).isSome = true := fun h => hm ((ha name).2 h)
      cases hl : cg.variables_.lookup name with
      | none => rfl
      | some slot => simp [hl] at this
  | BinaryExpr op left right ihl ihr =>
    simp only [Expr.opsSupported, Bool.and_eq_true] at hs
    obtain ⟨⟨hop, hsl⟩, hsr⟩ := hs
    simp only [Expr.firstUnbound, CodeGenerator.generateExpr]
    have hl := ihl cg hsl ha
    cases hfl : left.firstUnbound bound with
    | some n =>
      rw [hfl] at hl
      simp only at hl ⊢
      rw [hl]
    | none =>
      rw [hfl] at hl
      obtain ⟨cg1, hg1, hv1⟩ := hl
      simp only [hg1]
      have hr := ihr cg1 hsr (ha.of_variables hv1)
      cases hfr : right.firstUnbound bound with
      | some n =>
        rw [hfr] at hr
        simp only at hr ⊢
        rw [hr]
      | none =>
        rw [hfr] at hr
        obtain ⟨cg2, hg2, hv2⟩ := hr
        simp only [hg2]
        obtain ⟨cg3, hg3, hv3⟩ :=
          CodeGenerator.generateOperator_supported
            ((cg2.emit "    pop rbx").emit "    pop rax") op hop
        simp only [hg3]
        refine ⟨_, rfl, ?_⟩
        simp only [CodeGenerator.emit_variables, hv3, hv2, hv1]

mutual
theorem CodeGenerator.generateStmt_scan : ∀ (s : Stmt) (bound : List String)
    (cg : CodeGenerator), s.opsSupported = true → cg.Agree bound →
    match s.scan bound with
    | .error n => CodeGenerator.generateStmt s cg =
        .error (.runtime_error ("Undefined variable: " ++ n))
    | .ok bound1 => ∃ cg', CodeGenerator.generateStmt s cg = .ok cg' ∧ cg'.Agree bound1
  | .LetStmt name value, bound, cg, hs, ha => by
    simp only [Stmt.opsSupported] at hs
    simp only [Stmt.scan, CodeGenerator.generateStmt]
    have he := CodeGenerator.generateExpr_scan value bound cg hs ha
    cases hf : value.firstUnbound bound with
    | some n =>
      rw [hf] at he
      simp only at he ⊢
      rw [he]
    | none =>
      rw [hf] at he
      obtain ⟨cg1, hg1, hv1⟩ := he
      simp only [hg1]
      exact ⟨_, rfl, (ha.of_variables hv1).bind name⟩
  | .ExprStmt expr, bound, cg, hs, ha => by
    simp only [Stmt.opsSupported] at hs
    simp only [Stmt.scan, CodeGenerator.generateStmt]
    have he := CodeGenerator.generateExpr_scan expr bound cg hs ha
    cases hf : expr.firstUnbound bound with
    | some n =>
      rw [hf] at he
      simp only at he ⊢
      rw [he]
    | none =>
      rw [hf] at he
      obtain ⟨cg1, hg1, hv1⟩ := he
      simp only [hg1]
      exact ⟨_, rfl, (ha.of_variables hv1).emit _⟩
  | .BlockStmt statements, bound, cg, hs, ha => by
    simp only [Stmt.opsSupported] at hs
    simp only [Stmt.scan, CodeGenerator.generateStmt]
    exact CodeGenerator.generateStmts_scan statements bound cg hs ha
  | .IfStmt condition thenBranch elseBranch, bound, cg, hs, ha => by
    simp only [Stmt.opsSupported, Bool.and_eq_true] at hs
    obtain ⟨⟨hsc, hst⟩, hse⟩ := hs
    simp only [Stmt.scan, CodeGenerator.generateStmt]
    have ha0 : cg.newLabel.2.newLabel.2.Agree bound := ha
    have he := CodeGenerator.generateExpr_scan condition bound _ hsc ha0
    cases hf : condition.firstUnbound bound with
    | some n =>
      rw [hf] at he
      simp only at he ⊢
      rw [he]
    | none =>
      rw [hf] at he
      obtain ⟨cg1, hg1, hv1⟩ := he
      simp only [hg1]
      have ha1 : (((cg1.emit "    pop rax").emit "    test rax, rax").emit
          ("    jz " ++ cg.newLabel.1)).Agree bound := ha0.of_variables hv1
      have ht := CodeGenerator.generateStmt_scan thenBranch bound _ hst ha1
      cases hsc1 : thenBranch.scan bound with
      | error n =>
        rw [hsc1] at ht
        simp only at ht ⊢
        rw [ht]
      | ok bound1 =>
        rw [hsc1] at ht
        obtain ⟨cg2, hg2, ha2⟩ := ht
        simp only [hg2]
        have ha2e : ((cg2.emit ("    jmp " ++ cg.newLabel.2.newLabel.1)).emit
            (cg.newLabel.1 ++ ":")).Agree bound1 := ha2
        have hel := CodeGenerator.generateElse_scan elseBranch bound1 _ hse ha2e
        cases hsc2 : Stmt.scanOption elseBranch bound1 with
        | error n =>
          rw [hsc2] at hel
          simp only at hel ⊢
          rw [hel]
        | ok bound2 =>
          rw [hsc2] at hel
          obtain ⟨cg3, hg3, ha3⟩ := hel
          simp only [hg3]
          exact ⟨_, rfl, ha3.emit _⟩
  | .WhileStmt condition body, bound, cg, hs, ha => by
    simp only [Stmt.opsSupported, Bool.and_eq_true] at hs
    obtain ⟨hsc, hsb⟩ := hs
    simp only [Stmt.scan, CodeGenerator.generateStmt]
    have ha0 : (cg.newLabel.2.newLabel.2.emit (cg.newLabel.1 ++ ":")).Agree bound := ha
    have he := CodeGenerator.generateExpr_scan condition bound _ hsc ha0
    cases hf : condition.firstUnbound bound with
    | some n =>
      rw [hf] at he
      simp only at he ⊢
      rw [he]
    | none =>
      rw [hf] at he
      obtain ⟨cg1, hg1, hv1⟩ := he
      simp only [hg1]
      have ha1 : (((cg1.emit "    pop rax").emit "    test rax, rax").emit
          ("    jz " ++ cg.newLabel.2.newLabel.1)).Agree bound := ha0.of_variables hv1
      have hb := CodeGenerator.generateStmt_scan body bound _ hsb ha1
      cases hsc1 : body.scan bound with
      | error n =>
        rw [hsc1] at hb
        simp only at hb ⊢
        rw [hb]
      | ok bound1 =>
        rw [hsc1] at hb
        obtain ⟨cg2, hg2, ha2⟩ := hb
        simp only [hg2]
        exact ⟨_, rfl, (ha2.emit _).emit _⟩
theorem CodeGenerator.generateStmts_scan : ∀ (ss : List Stmt) (bound : List String)
    (cg : CodeGenerator), Stmt.opsSupportedList ss = true → cg.Agree bound →
    match Stmt.scanList ss bound with
    | .error n => CodeGenerator.generateStmts ss cg =
        .error (.runtime_error ("Undefined variable: " ++ n))
    | .ok bound1 => ∃ cg', CodeGenerator.generateStmts ss cg = .ok cg' ∧ cg'.Agree bound1
  | [], bound, cg, _, ha => by
    simp only [Stmt.scanList, CodeGenerator.generateStmts]
    exact ⟨_, rfl, ha⟩
  | s :: rest, bound, cg, hs, ha => by
    simp only [Stmt.opsSupportedList, Bool.and_eq_true] at hs
    obtain ⟨hs1, hs2⟩ := hs
    simp only [Stmt.scanList, CodeGenerator.generateStmts]
    have h1 := CodeGenerator.generateStmt_scan s bound cg hs1 ha
    cases hsc : s.scan bound with
    | error n =>
      rw [hsc] at h1
      simp only at h1 ⊢
      rw [h1]
    | ok bound1 =>
      rw [hsc] at h1
      obtain ⟨cg1, hg1, ha1⟩ := h1
      simp only [hg1]
      exact CodeGenerator.generateStmts_scan rest bound1 cg1 hs2 ha1
theorem CodeGenerator.generateElse_scan : ∀ (e : Option Stmt) (bound : List String)
    (cg : CodeGenerator), Stmt.opsSupportedOption e = true → cg.Agree bound →
    match Stmt.scanOption e bound with
    | .error n => CodeGenerator.generateElse e cg =
        .error (.runtime_error ("Undefined variable: " ++ n))
    | .ok bound1 => ∃ cg', CodeGenerator.generateElse e cg = .ok cg' ∧ cg'.Agree bound1
  | none, bound, cg, _, ha => by
    simp only [Stmt.scanOption, CodeGenerator.generateElse]
    exact ⟨_, rfl, ha⟩
  | some s, bound, cg, hs, ha => by
    simp only [Stmt.opsSupportedOption] at hs
    simp only [Stmt.scanOption, CodeGenerator.generateElse]
    exact CodeGenerator.generateStmt_scan s bound cg hs ha
end

theorem CodeGenerator.new_agree : CodeGenerator.new.Agree [] := by
  intro x
  simp [CodeGenerator.new]

/-- On an AST with supported operators, `generate` fails exactly when the
traversal finds an unbound name, and then names it. -/
theorem generate_scan (ast : List Stmt) (hs : Stmt.opsSupportedList ast = true) :
    match Stmt.scanList ast [] with
    | .error n => generate ast = .error (.runtime_error ("Undefined variable: " ++ n))
    | .ok _ => ∃ out, generate ast = .ok out := by
  have h := CodeGenerator.generateStmts_scan ast [] CodeGenerator.new hs CodeGenerator.new_agree
  cases hsc : Stmt.scanList ast [] with
  | error n =>
    rw [hsc] at h
    simp only at h ⊢
    simp only [generate, generateLines, generateState, h]
  | ok bound1 =>
    rw [hsc] at h
    obtain ⟨cg1, hg1, -⟩ := h
    simp only [generate, generateLines, generateState, hg1]
    exact ⟨_, rfl⟩

theorem undefined_variable_text_injective (a b : String)
    (h : "Undefined variable: " ++ a = "Undefined variable: " ++ b) : a = b := by
  have := congrArg String.data h
  simp only [String.data_append, List.append_cancel_left_eq] at this
  exact String.ext this

theorem undefined_variable_text_ne (a : String) :
    "Undefined variable: " ++ a ≠ "Unsupported binary operator" := by
  intro h
  have := congrArg String.data h
  simp [String.data_append] at this

theorem parse_opsSupported (tokens : List Token) (ast : List Stmt)
    (h : parse tokens = .ok ast) : Stmt.opsSupportedList ast = true := by
  simp only [parse, Parser.parse] at h
  have hs := Parser.parseLoop_sound .SEMICOLON (by simp [grammarKinds]) tokens.length
    tokens.length [] (Parser.new tokens) rfl
  cases hloop : Parser.parseLoop (Parser.new tokens).tokens.length
      (Parser.new tokens).tokens.length [] (Parser.new tokens) with
  | error e =>
    rw [hloop] at h
    simp at h
  | ok v =>
    obtain ⟨ss, q⟩ := v
    rw [hloop] at h
    simp only [Except.ok.injEq] at h
    subst h
    have hl : Parser.parseLoop tokens.length tokens.length [] (Parser.new tokens) =
        .ok (ss, q) := hloop
    rw [hl] at hs
    exact hs.2.2

/-- What `parse` does on a sequence `body ++ [eof]` terminated by its only
END_OF_FILE token, for a kind `t` of token outside the grammar or `;`: it
raises an exception of the program, or the statements it returns account for
every token of kind `t` of the body. -/
theorem parse_cases (body : List Token) (eof : Token)
    (hbody : ∀ t ∈ body, t.type ≠ .END_OF_FILE) (heof : eof.type = .END_OF_FILE)
    (t : TokenType) (ht : t ∉ grammarKinds) :
    match parse (body ++ [eof]) with
    | .error e => e ≠ .fuelExhausted ∧ Parser.Raised (body ++ [eof]) e
    | .ok ast => body.countP (fun tok => tok.type = t) =
        (if t = .SEMICOLON then Stmt.letsList ast else 0) ∧ Stmt.opsSupportedList ast = true := by
  have hb : (Parser.new (body ++ [eof])).Bounded :=
    Parser.bounded_of_terminated body eof heof 0 (Nat.zero_le _)
  have hrem : (Parser.new (body ++ [eof])).remaining ≤ (body ++ [eof]).length := by
    simp [Parser.remaining, Parser.new]
  have hspec := Parser.parseLoop_spec (body ++ [eof]).length (body ++ [eof]).length []
    (Parser.new (body ++ [eof])) hb hrem hrem
  have hsound := Parser.parseLoop_sound t ht (body ++ [eof]).length (body ++ [eof]).length []
    (Parser.new (body ++ [eof])) rfl
  have hparse : parse (body ++ [eof]) =
      match Parser.parseLoop (body ++ [eof]).length (body ++ [eof]).length []
          (Parser.new (body ++ [eof])) with
      | .error e => .error e
      | .ok (statements, _) => .ok statements := rfl
  rw [hparse]
  cases hloop : Parser.parseLoop (body ++ [eof]).length (body ++ [eof]).length []
      (Parser.new (body ++ [eof])) with
  | error e =>
    rw [hloop] at hspec hsound
    exact ⟨hspec, hsound⟩
  | ok v =>
    obtain ⟨ss, q⟩ := v
    rw [hloop] at hspec hsound
    obtain ⟨k1, k2, k3, -⟩ := hspec
    obtain ⟨-, s2, s3⟩ := hsound
    have htok : q.tokens = body ++ [eof] := k1
    have hlt := k2.lt_length
    rw [htok] at hlt
    simp only [List.length_append, List.length_singleton] at hlt
    have hcur : q.current = body.length := by
      by_contra hne
      have hlt2 : q.current < body.length := by omega
      have hpeek : q.peek = body[q.current] := by
        simp [Parser.peek, htok, List.getD_eq_getElem?_getD, List.getElem?_append_left hlt2,
          List.getElem?_eq_getElem hlt2]
      have : q.peek.type ≠ .END_OF_FILE := by
        rw [hpeek]
        exact hbody _ (List.getElem_mem _)
      simp [Parser.isAtEnd, this] at k3
    have hq : q.passed t = body.countP (fun tok => tok.type = t) := by
      simp [Parser.passed, htok, hcur]
    have h0 : (Parser.new (body ++ [eof])).passed t = 0 := by
      simp [Parser.passed, Parser.new]
    simp only
    refine ⟨?_, s3⟩
    rw [hq, h0] at s2
    simp only [Stmt.letsList] at s2
    split_ifs at s2 ⊢ <;> omega

/-! ## Undefined variables (C15) -/

/-- C15: for every AST `parse` returns, `generate` fails with
`Undefined variable: n` if and only if the single traversal of the AST (a
let's value before its binding, condition before then-branch before
else-branch, block statements in sequence, bindings never leaving scope)
reaches an identifier whose name no earlier `let` has bound, `n` being the
first such name; and `generate` succeeds if and only if the traversal finds
none. The check is static: `if (0) { y }` fails naming `y`, `let x = x;`
fails naming `x`, and `if (0) { let z = 1; } z` compiles. -/
theorem undefined_variable_check_is_static (tokens : List Token) (ast : List Stmt)
    (h : parse tokens = .ok ast) :
    (∀ n : String, generate ast = .error (.runtime_error ("Undefined variable: " ++ n)) ↔
      Stmt.scanList ast [] = .error n) ∧
    ((∃ out, generate ast = .ok out) ↔ ∃ bound, Stmt.scanList ast [] = .ok bound) ∧
    compile "if (0) \x7b y \x7d" = .error (.runtime_error "Undefined variable: y") ∧
    compile "let x = x;" = .error (.runtime_error "Undefined variable: x") ∧
    (compile "if (0) \x7b let z = 1; \x7d z").isOk = true := by
  have hg := generate_scan ast (parse_opsSupported tokens ast h)
  refine ⟨?_, ?_, by decide!, by decide!, by decide!⟩
  · intro n
    cases hsc : Stmt.scanList ast [] with
    | error m =>
      rw [hsc] at hg
      simp only at hg
      rw [hg]
      constructor
      · intro heq
        simp only [Except.error.injEq, CompileError.runtime_error.injEq] at heq
        rw [undefined_variable_text_injective m n heq]
      · intro heq
        simp only [Except.error.injEq] at heq
        rw [heq]
    | ok bound =>
      rw [hsc] at hg
      obtain ⟨out, hout⟩ := hg
      rw [hout]
      constructor <;> intro heq <;> simp at heq
  · cases hsc : Stmt.scanList ast [] with
    | error m =>
      rw [hsc] at hg
      simp only at hg
      rw [hg]
      constructor
      · rintro ⟨out, hout⟩
        simp at hout
      · rintro ⟨bound, hbound⟩
        simp at hbound
    | ok bound =>
      rw [hsc] at hg
      exact ⟨fun _ => ⟨bound, rfl⟩, fun _ => hg⟩

/-- C15 on the tokens of `if (0) { y }`: the AST is the `if` with the
block `y` as its then-branch, the traversal stops at `y`, and `generate` fails
naming `y`. -/
theorem undefined_variable_check_is_static_witness :
    tokenize "if (0) \x7b y \x7d".data = some
      [⟨.IF, "if", 1, 3⟩, ⟨.LPAREN, "(", 1, 5⟩, ⟨.NUMBER, "0", 1, 6⟩, ⟨.RPAREN, ")", 1, 7⟩,
        ⟨.LBRACE, "\x7b", 1, 9⟩, ⟨.IDENTIFIER, "y", 1, 11⟩, ⟨.RBRACE, "\x7d", 1, 13⟩,
        ⟨.END_OF_FILE, "", 1, 13⟩] ∧
    parse [⟨.IF, "if", 1, 3⟩, ⟨.LPAREN, "(", 1, 5⟩, ⟨.NUMBER, "0", 1, 6⟩, ⟨.RPAREN, ")", 1, 7⟩,
        ⟨.LBRACE, "\x7b", 1, 9⟩, ⟨.IDENTIFIER, "y", 1, 11⟩, ⟨.RBRACE, "\x7d", 1, 13⟩,
        ⟨.END_OF_FILE, "", 1, 13⟩] =
      .ok [.IfStmt (.NumberExpr 0) (.BlockStmt [.ExprStmt (.IdentifierExpr "y")]) none] ∧
    Stmt.scanList [.IfStmt (.NumberExpr 0) (.BlockStmt [.ExprStmt (.IdentifierExpr "y")]) none]
      [] = .error "y" ∧
    generate [.IfStmt (.NumberExpr 0) (.BlockStmt [.ExprStmt (.IdentifierExpr "y")]) none] =
      .error (.runtime_error ("Undefined variable: " ++ "y")) :=
  ⟨by decide!, by rfl, by decide!,
    ((undefined_variable_check_is_static
      [⟨.IF, "if", 1, 3⟩, ⟨.LPAREN, "(", 1, 5⟩, ⟨.NUMBER, "0", 1, 6⟩, ⟨.RPAREN, ")", 1, 7⟩,
        ⟨.LBRACE, "\x7b", 1, 9⟩, ⟨.IDENTIFIER, "y", 1, 11⟩, ⟨.RBRACE, "\x7d", 1, 13⟩,
        ⟨.END_OF_FILE, "", 1, 13⟩]
      [.IfStmt (.NumberExpr 0) (.BlockStmt [.ExprStmt (.IdentifierExpr "y")]) none]
      (by rfl)).1 "y").2 (by decide!)⟩

/-! ## The unsupported-operator guard (C16) -/

/-- C16: for every token sequence on which `parse` succeeds, every
`BinaryExpr` node of the returned AST carries one of PLUS, MINUS, MULTIPLY,
DIVIDE, EQUAL, LESS, GREATER, and `generate` on that AST does not fail with
`Unsupported binary operator`; the guard itself is there, as an AST with
another operator shows. -/
theorem unsupported_operator_unreachable (tokens : List Token) (ast : List Stmt)
    (h : parse tokens = .ok ast) :
    Stmt.opsSupportedList ast = true ∧
    generate ast ≠ .error (.runtime_error "Unsupported binary operator") ∧
    generate [.ExprStmt (.BinaryExpr .ASSIGN (.NumberExpr 1) (.NumberExpr 2))] =
      .error (.runtime_error "Unsupported binary operator") := by
  have hs := parse_opsSupported tokens ast h
  have hg := generate_scan ast hs
  refine ⟨hs, ?_, by decide!⟩
  cases hsc : Stmt.scanList ast [] with
  | error m =>
    rw [hsc] at hg
    simp only at hg
    rw [hg]
    intro heq
    simp only [Except.error.injEq, CompileError.runtime_error.injEq] at heq
    exact undefined_variable_text_ne m heq
  | ok bound =>
    rw [hsc] at hg
    obtain ⟨out, hout⟩ := hg
    rw [hout]
    simp

/-- C16 on the tokens of `1 + 2 * 3`: the AST holds PLUS and MULTIPLY nodes
only, and `generate` does not reach the guard. -/
theorem unsupported_operator_unreachable_witness :
    parse [⟨.NUMBER, "1", 1, 2⟩, ⟨.PLUS, "+", 1, 4⟩, ⟨.NUMBER, "2", 1, 6⟩,
        ⟨.MULTIPLY, "*", 1, 8⟩, ⟨.NUMBER, "3", 1, 10⟩, ⟨.END_OF_FILE, "", 1, 10⟩] =
      .ok [.ExprStmt (.BinaryExpr .PLUS (.NumberExpr 1)
        (.BinaryExpr .MULTIPLY (.NumberExpr 2) (.NumberExpr 3)))] ∧
    generate [.ExprStmt (.BinaryExpr .PLUS (.NumberExpr 1)
        (.BinaryExpr .MULTIPLY (.NumberExpr 2) (.NumberExpr 3)))] ≠
      .error (.runtime_error "Unsupported binary operator") :=
  ⟨by rfl,
    (unsupported_operator_unreachable
      [⟨.NUMBER, "1", 1, 2⟩, ⟨.PLUS, "+", 1, 4⟩, ⟨.NUMBER, "2", 1, 6⟩,
        ⟨.MULTIPLY, "*", 1, 8⟩, ⟨.NUMBER, "3", 1, 10⟩, ⟨.END_OF_FILE, "", 1, 10⟩]
      [.ExprStmt (.BinaryExpr .PLUS (.NumberExpr 1)
        (.BinaryExpr .MULTIPLY (.NumberExpr 2) (.NumberExpr 3)))]
      (by rfl)).2.1⟩

/-! ## INVALID tokens (C17) -/

/-- No statement starts at the end marker or at a token other than `let`,
`if`, `while`, an opening brace, a number, an identifier and `(`. -/
theorem Parser.statement_no_start (n : Nat) (p : Parser)
    (h : p.isAtEnd = true ∨ p.peek.type ∉
      [TokenType.LET, .IF, .WHILE, .LBRACE, .NUMBER, .IDENTIFIER, .LPAREN]) :
    Parser.statement (n + 1) p = .error (p.error "Expected expression") := by
  have hm : ∀ t ∈ [TokenType.LET, .IF, .WHILE, .LBRACE, .NUMBER, .IDENTIFIER, .LPAREN],
      p.match_ t = (false, p) := by
    intro t ht
    apply Parser.match_fail
    rcases h with h | h
    · exact Or.inl h
    · right
      intro heq
      exact h (heq ▸ ht)
  have h1 := hm .LET (by simp)
  have h2 := hm .IF (by simp)
  have h3 := hm .WHILE (by simp)
  have h4 := hm .LBRACE (by simp)
  have h5 := hm .NUMBER (by simp)
  have h6 := hm .IDENTIFIER (by simp)
  have h7 := hm .LPAREN (by simp)
  simp [Parser.statement, Parser.expression, Parser.equality, Parser.comparison, Parser.term,
    Parser.factor, Parser.primary, h1, h2, h3, h4, h5, h6, h7]

/-- C17: on a token sequence `body ++ [eof]` terminated by its only
END_OF_FILE token whose body holds an INVALID token, `parse` returns no
statement list and ends in an exception of the program; the exception is a
SyntaxError `<message> at line <n>` whenever the text of every NUMBER token of
the body converts; and a source one of whose tokens is INVALID does not
compile. When the text of a NUMBER token before the INVALID token does not
fit an `int`, as in `99999999999 @`, the exception is the `out_of_range` of
`std::stoi` and no SyntaxError. -/
theorem invalid_token_never_parses (body : List Token) (eof : Token)
    (hbody : ∀ t ∈ body, t.type ≠ .END_OF_FILE) (heof : eof.type = .END_OF_FILE)
    (hinv : ∃ t ∈ body, t.type = .INVALID) :
    (∀ ast, parse (body ++ [eof]) ≠ .ok ast) ∧
    parse (body ++ [eof]) ≠ .error .fuelExhausted ∧
    ((∀ t ∈ body, t.type = .NUMBER → ∃ v, stoi t.value = .ok v) →
      ∃ (m : String) (l : Nat),
        parse (body ++ [eof]) = .error (.runtime_error (m ++ " at line " ++ toString l))) ∧
    (∀ (source : String) (tokens : List Token), tokenize source.data = some tokens →
      (∃ t ∈ tokens, t.type = .INVALID) → ∀ out, compile source ≠ .ok out) ∧
    parse [⟨.NUMBER, "99999999999", 1, 12⟩, ⟨.INVALID, "@", 1, 14⟩,
      ⟨.END_OF_FILE, "", 1, 14⟩] = .error (.out_of_range "stoi") ∧
    compile "99999999999 @" = .error (.out_of_range "stoi") := by
  have key : ∀ (b : List Token) (e : Token), (∀ t ∈ b, t.type ≠ .END_OF_FILE) →
      e.type = .END_OF_FILE → (∃ t ∈ b, t.type = .INVALID) →
      ∃ err, parse (b ++ [e]) = .error err ∧ err ≠ .fuelExhausted ∧
        Parser.Raised (b ++ [e]) err := by
    intro b e hb he hi
    have hc := parse_cases b e hb he .INVALID (by simp [grammarKinds])
    cases hp : parse (b ++ [e]) with
    | error err =>
      rw [hp] at hc
      exact ⟨err, rfl, hc.1, hc.2⟩
    | ok ast =>
      rw [hp] at hc
      obtain ⟨hcount, -⟩ := hc
      simp only [reduceCtorEq, if_false] at hcount
      obtain ⟨t, htm, hty⟩ := hi
      have hpos : 0 < b.countP (fun tok => tok.type = .INVALID) :=
        List.countP_pos_iff.mpr ⟨t, htm, by simpa using hty⟩
      omega
  obtain ⟨err, hpe, hnf, hraised⟩ := key body eof hbody heof hinv
  refine ⟨?_, ?_, ?_, ?_, by rfl, by decide!⟩
  · intro ast hok
    rw [hpe] at hok
    simp at hok
  · rw [hpe]
    intro heq
    simp only [Except.error.injEq] at heq
    exact hnf heq
  · intro hnum
    rcases hraised with hf | ⟨q, m, -, hq⟩ | ⟨tok, htm, hty, hst⟩
    · exact absurd hf hnf
    · exact ⟨m, q.peek.line, by rw [hpe, hq]; rfl⟩
    · exfalso
      rcases List.mem_append.mp htm with hin | hin
      · obtain ⟨v, hv⟩ := hnum tok hin hty
        rw [hv] at hst
        simp at hst
      · simp only [List.mem_singleton] at hin
        rw [hin, heof] at hty
        simp at hty
  · intro source tokens htok hi out hout
    obtain ⟨b, e, hrun, he, hb⟩ := Lexer.tokenize_spec (Lexer.new source.data)
    have htok2 : tokenize source.data = some (b ++ [e]) := hrun
    rw [htok] at htok2
    simp only [Option.some.injEq] at htok2
    subst htok2
    obtain ⟨t, htm, hty⟩ := hi
    have hib : ∃ t ∈ b, t.type = .INVALID := by
      rcases List.mem_append.mp htm with hin | hin
      · exact ⟨t, hin, hty⟩
      · simp only [List.mem_singleton] at hin
        rw [hin, he] at hty
        simp at hty
    obtain ⟨err2, hpe2, -, -⟩ := key b e hb he hib
    simp only [compile, htok, hpe2] at hout
    simp at hout

/-- C17 on the tokens of `x @`: `parse` returns no statement list. -/
theorem invalid_token_never_parses_witness :
    (∃ t ∈ [(⟨.IDENTIFIER, "x", 1, 2⟩ : Token), ⟨.INVALID, "@", 1, 4⟩], t.type = .INVALID) ∧
    (∀ ast, parse ([⟨.IDENTIFIER, "x", 1, 2⟩, ⟨.INVALID, "@", 1, 4⟩] ++
      [⟨.END_OF_FILE, "", 1, 4⟩]) ≠ .ok ast) ∧
    parse ([⟨.IDENTIFIER, "x", 1, 2⟩, ⟨.INVALID, "@", 1, 4⟩] ++
      [⟨.END_OF_FILE, "", 1, 4⟩]) =
      .error (.runtime_error "Expected expression at line 1") :=
  ⟨⟨⟨.INVALID, "@", 1, 4⟩, by simp, rfl⟩,
    (invalid_token_never_parses [⟨.IDENTIFIER, "x", 1, 2⟩, ⟨.INVALID, "@", 1, 4⟩]
      ⟨.END_OF_FILE, "", 1, 4⟩ (by decide) rfl ⟨⟨.INVALID, "@", 1, 4⟩, by simp, rfl⟩).1,
    by rfl⟩

/-! ## Numbers outside the range of int (C18) -/

/-- C18, the code at the failing input: on the source `99999999999` the lexer
returns one NUMBER token and `parse` ends in the `std::out_of_range` exception
of `std::stoi`, whose text `stoi` holds no line; it neither returns a statement
list nor raises a syntax error. -/
theorem long_number_escapes_as_out_of_range :
    (tokenize "99999999999".data).map tokenTexts =
        some [(.NUMBER, "99999999999"), (.END_OF_FILE, "")] ∧
      (tokenize "99999999999".data).map parse = some (.error (.out_of_range "stoi")) ∧
      compile "99999999999" = .error (.out_of_range "stoi") :=
  ⟨by decide!, by rfl, by decide!⟩

/-! ## The line of a let error (C19) -/

/-- C19, the code at the failing input: in the source `let 5`, newline, `= 3;`
the token after `let` is the NUMBER `5` of line 1, and the error raised for it
cites line 2, the line of the `=` that follows. -/
theorem let_error_cites_following_token :
    tokenize "let 5\n= 3;".data = some [⟨.LET, "let", 1, 4⟩, ⟨.NUMBER, "5", 1, 6⟩,
        ⟨.ASSIGN, "=", 2, 2⟩, ⟨.NUMBER, "3", 2, 4⟩, ⟨.SEMICOLON, ";", 2, 5⟩,
        ⟨.END_OF_FILE, "", 2, 5⟩] ∧
      compile "let 5\n= 3;" =
        .error (.runtime_error "Expected identifier after 'let' at line 2") :=
  ⟨by decide!, by decide!⟩

/-! ## Semicolons (C20) -/

/-- C20: when `parse` returns a statement list for a token sequence
`body ++ [eof]` terminated by its only END_OF_FILE token, the number of
SEMICOLON tokens of the body is the number of `LetStmt` nodes of the list.
No statement starts at a `;`, so when the statement rule returns an expression
statement and stops before a `;`, the loop of `parse` fails at that `;`; the
programs `x;` and `1 + 2;` fail to parse. -/
theorem semicolons_belong_to_lets (body : List Token) (eof : Token)
    (hbody : ∀ t ∈ body, t.type ≠ .END_OF_FILE) (heof : eof.type = .END_OF_FILE)
    (ast : List Stmt) (h : parse (body ++ [eof]) = .ok ast) :
    body.countP (fun tok => tok.type = .SEMICOLON) = Stmt.letsList ast ∧
    (∀ (budget fuel : Nat) (statements : List Stmt) (p q : Parser) (e : Expr),
      Parser.statement (budget + 1) p = .ok (.ExprStmt e, q) → q.peek.type = .SEMICOLON →
      Parser.parseLoop (budget + 1) (fuel + 2) statements p =
        .error (q.error "Expected expression")) ∧
    compile "x;" = .error (.runtime_error "Expected expression at line 1") ∧
    compile "1 + 2;" = .error (.runtime_error "Expected expression at line 1") := by
  refine ⟨?_, ?_, by decide!, by decide!⟩
  · have hc := parse_cases body eof hbody heof .SEMICOLON (by simp [grammarKinds])
    rw [h] at hc
    simpa using hc.1
  · intro budget fuel statements p q e hst hq
    have hend : p.isAtEnd = false := by
      cases hp : p.isAtEnd with
      | false => rfl
      | true =>
        rw [Parser.statement_no_start budget p (Or.inl hp)] at hst
        simp at hst
    have hqend : q.isAtEnd = false := by
      simp [Parser.isAtEnd, hq]
    have hqs := Parser.statement_no_start budget q (Or.inr (by rw [hq]; simp))
    simp [Parser.parseLoop, hend, hst, hqend, hqs]

/-- C20 on the tokens of `let x = 1; x`: one SEMICOLON token, one `LetStmt`. -/
theorem semicolons_belong_to_lets_witness :
    parse ([⟨.LET, "let", 1, 4⟩, ⟨.IDENTIFIER, "x", 1, 6⟩, ⟨.ASSIGN, "=", 1, 8⟩,
        ⟨.NUMBER, "1", 1, 10⟩, ⟨.SEMICOLON, ";", 1, 11⟩, ⟨.IDENTIFIER, "x", 1, 13⟩] ++
        [⟨.END_OF_FILE, "", 1, 13⟩]) =
      .ok [.LetStmt "x" (.NumberExpr 1), .ExprStmt (.IdentifierExpr "x")] ∧
    [(⟨.LET, "let", 1, 4⟩ : Token), ⟨.IDENTIFIER, "x", 1, 6⟩, ⟨.ASSIGN, "=", 1, 8⟩,
        ⟨.NUMBER, "1", 1, 10⟩, ⟨.SEMICOLON, ";", 1, 11⟩, ⟨.IDENTIFIER, "x", 1, 13⟩].countP
        (fun tok => tok.type = .SEMICOLON) =
      Stmt.letsList [.LetStmt "x" (.NumberExpr 1), .ExprStmt (.IdentifierExpr "x")] :=
  ⟨by rfl,
    (semicolons_belong_to_lets
      [⟨.LET, "let", 1, 4⟩, ⟨.IDENTIFIER, "x", 1, 6⟩, ⟨.ASSIGN, "=", 1, 8⟩,
        ⟨.NUMBER, "1", 1, 10⟩, ⟨.SEMICOLON, ";", 1, 11⟩, ⟨.IDENTIFIER, "x", 1, 13⟩]
      ⟨.END_OF_FILE, "", 1, 13⟩ (by decide) rfl
      [.LetStmt "x" (.NumberExpr 1), .ExprStmt (.IdentifierExpr "x")] (by rfl)).1⟩

/-! ## The texts of the tokens -/

theorem filter_dropWhile_isspace (s : List Char) :
    (s.dropWhile isspace).filter (fun c => !isspace c) = s.filter (fun c => !isspace c) := by
  induction s with
  | nil => rfl
  | cons c cs ih =>
    by_cases hc : isspace c = true
    · simp [List.dropWhile, List.filter, hc, ih]
    · simp [List.dropWhile, hc]

theorem head_dropWhile_isspace (s : List Char) (c : Char) (cs : List Char)
    (h : s.dropWhile isspace = c :: cs) : isspace c = false := by
  induction s with
  | nil => simp at h
  | cons a rest ih =>
    by_cases ha : isspace a = true
    · simp only [List.dropWhile, ha] at h
      exact ih h
    · simp only [List.dropWhile, ha] at h
      simp only [List.cons.injEq] at h
      rw [← h.1]
      simpa using ha

theorem mem_takeWhile_sat {α : Type} (p : α → Bool) (l : List α) (x : α)
    (h : x ∈ l.takeWhile p) : p x = true := by
  induction l with
  | nil => simp at h
  | cons a rest ih =>
    by_cases ha : p a = true
    · simp only [List.takeWhile, ha, List.mem_cons] at h
      rcases h with h | h
      · rw [h]; exact ha
      · exact ih h
    · simp [List.takeWhile, ha] at h

theorem isdigit_not_isspace (c : Char) (h : isdigit c = true) : isspace c = false := by
  simp only [isdigit, Bool.and_eq_true, decide_eq_true_eq] at h
  simp only [isspace, Bool.or_eq_false_iff, decide_eq_false_iff_not, Bool.and_eq_false_iff]
  omega

theorem isalnum_not_isspace (c : Char) (h : (isalnum c || decide (c = '_')) = true) :
    isspace c = false := by
  simp only [isalnum, isalpha, isdigit, Bool.or_eq_true, Bool.and_eq_true,
    decide_eq_true_eq] at h
  simp only [isspace, Bool.or_eq_false_iff, decide_eq_false_iff_not, Bool.and_eq_false_iff]
  rcases h with (h | h) | h
  · omega
  · omega
  · subst h
    decide

/-- Every branch of `readOperator` returns a token whose text is the fixed text
of an operator or the character under the cursor. -/
theorem Lexer.readOperator_values (lx : Lexer) (P : Token × Lexer → Prop)
    (h : ∀ (t : TokenType) (v : String) (l k : Nat) (lx1 : Lexer),
      (v ∈ ["+", "-", "*", "/", "==", "=", "<", ">", "(", ")", "\x7b", "\x7d", ";", ","] ∨
        v = String.singleton lx.current) → P (⟨t, v, l, k⟩, lx1)) :
    P lx.readOperator := by
  simp only [Lexer.readOperator]
  repeat' first
    | exact h _ _ _ _ _ (Or.inl (by decide))
    | exact h _ _ _ _ _ (Or.inr rfl)
    | apply ite_of_both

theorem Lexer.readOperator_no_space (lx : Lexer) (hc : isspace lx.current = false) :
    ∀ x ∈ lx.readOperator.1.value.data, isspace x = false := by
  apply Lexer.readOperator_values lx
    (fun r => ∀ x ∈ r.1.value.data, isspace x = false)
  intro t v l k lx1 hv
  rcases hv with hv | hv
  · have hall : ∀ w ∈ ["+", "-", "*", "/", "==", "=", "<", ">", "(", ")", "\x7b", "\x7d", ";",
        ","], ∀ x ∈ String.data w, isspace x = false := by decide
    exact hall v hv
  · intro x hx
    simp only [hv, String.singleton, String.push, String.data, List.nil_append,
      List.mem_singleton] at hx
    rw [hx]
    exact hc

/-- The text of a token holds no whitespace character. -/
theorem Lexer.getNextToken_no_space (lx : Lexer) :
    ∀ x ∈ lx.getNextToken.1.value.data, isspace x = false := by
  have hs := Lexer.skipWhitespace_rest lx
  simp only [Lexer.getNextToken]
  generalize lx.skipWhitespace = lx0 at hs ⊢
  obtain ⟨s0, l0, k0⟩ := lx0
  simp only at hs
  cases s0 with
  | nil => simp [Lexer.current]
  | cons c cs =>
    have hc : isspace c = false := head_dropWhile_isspace lx.rest c cs hs.symm
    rw [Lexer.current_cons]
    by_cases h0 : c = Char.ofNat 0
    · simp [h0]
    · rw [if_neg h0]
      by_cases hd : isdigit c = true
      · rw [if_pos hd]
        obtain ⟨-, h2, -⟩ := Lexer.readNumber_text c cs l0 k0
        rw [h2]
        intro x hx
        exact isdigit_not_isspace x (mem_takeWhile_sat _ _ x hx)
      · rw [if_neg hd]
        by_cases ha : (isalpha c || decide (c = '_')) = true
        · obtain ⟨-, h2, -⟩ := Lexer.readIdentifier_text (c :: cs) l0 k0
          have ha3 := ha
          simp only [Bool.or_eq_true, decide_eq_true_eq] at ha3
          rw [if_pos (by simpa using ha3)]
          rw [h2]
          intro x hx
          exact isalnum_not_isspace x (mem_takeWhile_sat _ _ x hx)
        · have ha3 := ha
          simp only [Bool.or_eq_true, decide_eq_true_eq] at ha3
          rw [if_neg (by simpa using ha3)]
          exact Lexer.readOperator_no_space _ hc

theorem stringJoin_data (l : List String) (acc : String) :
    (l.foldl (fun r s => r ++ s) acc).data = acc.data ++ (l.map String.data).flatten := by
  induction l generalizing acc with
  | nil => simp
  | cons s rest ih => simp [ih, String.data_append, List.append_assoc]

theorem Lexer.tokenize_texts (n : Nat) (lx : Lexer) (hn : lx.rest.length ≤ n)
    (hnul : Char.ofNat 0 ∉ lx.rest) (tokens : List Token) (h : lx.tokenize = some tokens) :
    (tokens.map (fun t => t.value.data)).flatten = lx.rest.filter (fun c => !isspace c) ∧
      ∀ t ∈ tokens, t.type ≠ .END_OF_FILE → t.value.data ≠ [] := by
  induction n generalizing lx tokens with
  | zero =>
    have hnil : lx.rest = [] := List.length_eq_zero.mp (Nat.le_zero.mp hn)
    rw [Lexer.tokenize_eq] at h
    rcases Lexer.getNextToken_text lx with ⟨g1, g2, -, -⟩ | ⟨g1, -, -⟩
    · simp only [g1, if_true, Option.some.injEq] at h
      subst h
      refine ⟨by simp [g2, hnil], ?_⟩
      intro t hmem hne
      simp only [List.mem_singleton] at hmem
      subst hmem
      exact absurd g1 hne
    · have := Lexer.getNextToken_rest_lt lx g1
      omega
  | succ n ih =>
    rw [Lexer.tokenize_eq] at h
    rcases Lexer.getNextToken_text lx with ⟨g1, g2, -, g4⟩ | ⟨g1, g2, g3⟩
    · simp only [g1, if_true, Option.some.injEq] at h
      subst h
      have hdrop : lx.rest.dropWhile isspace = [] := by
        rcases g4 with g4 | g4
        · exact g4
        · exfalso
          cases hd : lx.rest.dropWhile isspace with
          | nil => rw [hd] at g4; simp at g4
          | cons c cs =>
            rw [hd] at g4
            simp only [List.head?_cons, Option.some.injEq] at g4
            have hmem : c ∈ lx.rest.dropWhile isspace := by rw [hd]; simp
            have := (List.dropWhile_sublist isspace).subset hmem
            rw [g4] at this
            exact hnul this
      refine ⟨?_, ?_⟩
      · rw [← filter_dropWhile_isspace, hdrop]
        simp [g2]
      · intro t hmem hne
        simp only [List.mem_singleton] at hmem
        subst hmem
        exact absurd g1 hne
    · simp only [g1, if_false, Option.map_eq_some'] at h
      obtain ⟨rest, hrest, rfl⟩ := h
      have hlt := Lexer.getNextToken_rest_lt lx g1
      have hnul1 : Char.ofNat 0 ∉ lx.getNextToken.2.rest := by
        intro hmem
        have h1 : Char.ofNat 0 ∈ lx.rest.dropWhile isspace := by
          rw [← g3]
          exact List.mem_append_right _ hmem
        exact hnul ((List.dropWhile_sublist isspace).subset h1)
      obtain ⟨i1, i2⟩ := ih lx.getNextToken.2 (by omega) hnul1 rest hrest
      refine ⟨?_, ?_⟩
      · simp only [List.map_cons, List.flatten_cons, i1]
        rw [← filter_dropWhile_isspace lx.rest, ← g3, List.filter_append]
        congr 1
        symm
        rw [List.filter_eq_self]
        intro x hx
        simp [Lexer.getNextToken_no_space lx x hx]
      · intro t hmem hne
        rcases List.mem_cons.mp hmem with rfl | hmem
        · exact g2
        · exact i2 t hmem hne

/-! ## Lexing is lossless up to whitespace (C21) -/

/-- C21: for every source text without a NUL character, `tokenize` returns a
token sequence, the texts of its tokens concatenated in order are the source
with its whitespace characters removed, and every token other than END_OF_FILE
has a non-empty text; the whitespace characters are space, tab, newline,
vertical tab, form feed and carriage return. -/
theorem lexing_is_lossless_up_to_whitespace (source : List Char)
    (hnul : Char.ofNat 0 ∉ source) :
    (∃ tokens, tokenize source = some tokens ∧
      String.join (tokens.map (fun t => t.value)) =
        String.mk (source.filter (fun c => !isspace c)) ∧
      ∀ t ∈ tokens, t.type ≠ .END_OF_FILE → t.value ≠ "") ∧
    ∀ c : Char, isspace c = true ↔ c ∈ [' ', '\t', '\n', '\x0b', '\x0c', '\r'] := by
  constructor
  · obtain ⟨body, eof, h, -, -⟩ := Lexer.tokenize_spec (Lexer.new source)
    obtain ⟨h1, h2⟩ := Lexer.tokenize_texts _ (Lexer.new source) (le_refl _) hnul _ h
    refine ⟨_, h, ?_, ?_⟩
    · apply String.ext
      have e : (String.join ((body ++ [eof]).map (fun t => t.value))).data =
          (((body ++ [eof]).map (fun t => t.value)).map String.data).flatten := by
        have := stringJoin_data ((body ++ [eof]).map (fun t => t.value)) ""
        simpa [String.join] using this
      rw [e, List.map_map]
      exact h1
    · intro t hmem hne heq
      exact h2 t hmem hne (by rw [heq])
  · intro c
    have hc : c = Char.ofNat c.toNat := (Char.ofNat_toNat c).symm
    simp only [isspace, Bool.or_eq_true, decide_eq_true_eq, Bool.and_eq_true, List.mem_cons,
      List.mem_singleton, List.not_mem_nil, or_false]
    constructor
    · intro h
      have hr : c.toNat = 32 ∨ c.toNat = 9 ∨ c.toNat = 10 ∨ c.toNat = 11 ∨ c.toNat = 12 ∨
          c.toNat = 13 := by omega
      rcases hr with hr | hr | hr | hr | hr | hr <;> rw [hc, hr] <;> decide
    · intro h
      rcases h with h | h | h | h | h | h <;> subst h <;> decide

/-- C21 on the source `let x1 = 2;`, newline, tab, `y == x1`. -/
theorem lexing_is_lossless_up_to_whitespace_witness :
    Char.ofNat 0 ∉ "let x1 = 2;\n\ty == x1".data ∧
    (∃ tokens, tokenize "let x1 = 2;\n\ty == x1".data = some tokens ∧
      String.join (tokens.map (fun t => t.value)) =
        String.mk ("let x1 = 2;\n\ty == x1".data.filter (fun c => !isspace c)) ∧
      ∀ t ∈ tokens, t.type ≠ .END_OF_FILE → t.value ≠ "") ∧
    String.mk ("let x1 = 2;\n\ty == x1".data.filter (fun c => !isspace c)) = "letx1=2;y==x1" :=
  ⟨by decide,
    (lexing_is_lossless_up_to_whitespace "let x1 = 2;\n\ty == x1".data (by decide)).1,
    by decide⟩

/-! ## The depth of the evaluation stack -/

theorem stackDepth_append (d : Nat) (a b : List String) :
    stackDepth d (a ++ b) = (stackDepth d a).bind (fun e => stackDepth e b) := by
  induction a generalizing d with
  | nil => rfl
  | cons line rest ih =>
    simp only [List.cons_append, stackDepth]
    split_ifs <;> simp [ih]

/-- A run that never meets an empty stack: in every prefix the `pop` lines are
at most `d` more than the `push` lines, and the depth at the end is the
difference. -/
theorem stackDepth_prefix (d e : Nat) (lines : List String)
    (h : stackDepth d lines = some e) :
    (∀ k, (lines.take k).countP isPop ≤ d + (lines.take k).countP isPush) ∧
      e + lines.countP isPop = d + lines.countP isPush := by
  induction lines generalizing d with
  | nil =>
    simp only [stackDepth, Option.some.injEq] at h
    subst h
    exact ⟨by simp, by simp⟩
  | cons line rest ih =>
    simp only [stackDepth] at h
    by_cases hpush : isPush line = true <;> by_cases hpop : isPop line = true
    · simp only [hpush, hpop, if_true] at h
      simp only [Nat.add_one_ne_zero, if_false, Nat.add_sub_cancel] at h
      obtain ⟨i1, i2⟩ := ih d h
      refine ⟨?_, ?_⟩
      · intro k
        cases k with
        | zero => simp
        | succ k =>
          have := i1 k
          simp only [List.take_succ_cons, List.countP_cons, hpush, hpop, if_true]
          omega
      · simp only [List.countP_cons, hpush, hpop, if_true]
        omega
    · simp only [hpush, hpop, if_true] at h
      simp only [Bool.false_eq_true, if_false] at h
      obtain ⟨i1, i2⟩ := ih (d + 1) h
      refine ⟨?_, ?_⟩
      · intro k
        cases k with
        | zero => simp
        | succ k =>
          have := i1 k
          simp only [List.take_succ_cons, List.countP_cons, hpush, hpop, if_true,
            Bool.false_eq_true, if_false]
          omega
      · simp only [List.countP_cons, hpush, hpop, if_true, Bool.false_eq_true, if_false]
        omega
    · simp only [hpush, hpop, if_true, Bool.false_eq_true, if_false] at h
      by_cases hd : d = 0
      · simp [hd] at h
      · simp only [hd, if_false] at h
        obtain ⟨i1, i2⟩ := ih (d - 1) h
        refine ⟨?_, ?_⟩
        · intro k
          cases k with
          | zero => simp
          | succ k =>
            have := i1 k
            simp only [List.take_succ_cons, List.countP_cons, hpush, hpop, if_true,
              Bool.false_eq_true, if_false]
            omega
        · simp only [List.countP_cons, hpush, hpop, if_true, Bool.false_eq_true, if_false]
          omega
    · simp only [hpush, hpop, Bool.false_eq_true, if_false] at h
      obtain ⟨i1, i2⟩ := ih d h
      refine ⟨?_, ?_⟩
      · intro k
        cases k with
        | zero => simp
        | succ k =>
          have := i1 k
          simp only [List.take_succ_cons, List.countP_cons, hpush, hpop,
            Bool.false_eq_true, if_false]
          omega
      · simp only [List.countP_cons, hpush, hpop, Bool.false_eq_true, if_false]
        omega

theorem stackDepth_plain (d : Nat) (lines : List String)
    (h : ∀ l ∈ lines, isPush l = false ∧ isPop l = false) : stackDepth d lines = some d := by
  induction lines with
  | nil => rfl
  | cons line rest ih =>
    have h1 := h line (by simp)
    simp only [stackDepth, h1.1, h1.2, Bool.false_eq_true, if_false]
    exact ih (fun l hl => h l (by simp [hl]))

theorem stackDepth_push (d : Nat) (line : String) (h1 : isPush line = true)
    (h2 : isPop line = false) : stackDepth d [line] = some (d + 1) := by
  simp [stackDepth, h1, h2]

theorem stackDepth_pop (d : Nat) (line : String) (h1 : isPush line = false)
    (h2 : isPop line = true) : stackDepth (d + 1) [line] = some d := by
  simp [stackDepth, h1, h2]

theorem CodeGenerator.generateOperator_depth (cg cg' : CodeGenerator) (op : TokenType)
    (h : cg.generateOperator op = .ok cg') :
    ∃ out, cg'.assembly = cg.assembly ++ out ∧ ∀ d, stackDepth d out = some d := by
  obtain ⟨out, a, b, c⟩ := CodeGenerator.generateOperator_balanced cg cg' op h
  refine ⟨out, a, fun d => stackDepth_plain d out ?_⟩
  intro l hl
  constructor
  · by_contra hne
    have : 0 < out.countP isPush := List.countP_pos_iff.mpr ⟨l, hl, by simpa using hne⟩
    omega
  · by_contra hne
    have : 0 < out.countP isPop := List.countP_pos_iff.mpr ⟨l, hl, by simpa using hne⟩
    omega

theorem CodeGenerator.generateExpr_depth (e : Expr) (cg cg' : CodeGenerator)
    (h : CodeGenerator.generateExpr e cg = .ok cg') :
    ∃ out, cg'.assembly = cg.assembly ++ out ∧ ∀ d, stackDepth d out = some (d + 1) := by
  induction e generalizing cg cg' with
  | NumberExpr value =>
    simp only [CodeGenerator.generateExpr, CodeGenerator.generateNumberExpr,
      Except.ok.injEq] at h
    subst h
    refine ⟨["    push " ++ toString value], by simp, fun d => stackDepth_push d _ ?_ ?_⟩
    · simp [isPush, String.data_append, List.isPrefixOf]
    · simp [isPop, String.data_append, List.isPrefixOf]
  | IdentifierExpr name =>
    simp only [CodeGenerator.generateExpr, CodeGenerator.generateIdentifierExpr] at h
    split at h
    · exact absurd h (by simp)
    · rename_i slot _
      simp only [Except.ok.injEq] at h
      subst h
      refine ⟨["    push QWORD [rbp - " ++ toString (slot * 8) ++ "]"], by simp,
        fun d => stackDepth_push d _ ?_ ?_⟩
      · simp [isPush, String.data_append, List.isPrefixOf]
      · simp [isPop, String.data_append, List.isPrefixOf]
  | BinaryExpr op left right ihl ihr =>
    simp only [CodeGenerator.generateExpr] at h
    split at h
    · exact absurd h (by simp)
    · rename_i cg1 h1
      split at h
      · exact absurd h (by simp)
      · rename_i cg2 h2
        split at h
        · exact absurd h (by simp)
        · rename_i cg3 h3
          simp only [Except.ok.injEq] at h
          subst h
          obtain ⟨o1, a1, b1⟩ := ihl cg cg1 h1
          obtain ⟨o2, a2, b2⟩ := ihr cg1 cg2 h2
          obtain ⟨o3, a3, b3⟩ := CodeGenerator.generateOperator_depth _ _ _ h3
          refine ⟨o1 ++ (o2 ++ (["    pop rbx"] ++ (["    pop rax"] ++ (o3 ++ ["    push rax"])))),
            ?_, ?_⟩
          · simp [a3, a2, a1]
          · intro d
            have e1 := stackDepth_pop (d + 1) "    pop rbx" (by decide) (by decide)
            have e2 := stackDepth_pop d "    pop rax" (by decide) (by decide)
            have e3 := stackDepth_push d "    push rax" (by decide) (by decide)
            simp only [stackDepth_append, b1, b2, b3, e1, e2, e3, Option.some_bind]

mutual
theorem CodeGenerator.generateStmt_depth : ∀ (s : Stmt) (cg cg' : CodeGenerator),
    CodeGenerator.generateStmt s cg = .ok cg' →
    ∃ out, cg'.assembly = cg.assembly ++ out ∧ ∀ d, stackDepth d out = some d
  | .LetStmt name value, cg, cg', h => by
    simp only [CodeGenerator.generateStmt] at h
    split at h
    · exact absurd h (by simp)
    · rename_i cg1 h1
      simp only [Except.ok.injEq] at h
      subst h
      obtain ⟨o1, a1, b1⟩ := CodeGenerator.generateExpr_depth _ _ _ h1
      refine ⟨o1 ++ ["    pop QWORD [rbp - " ++ toString ((cg1.variables_.length + 1) * 8) ++
        "]"], by simp [a1], ?_⟩
      intro d
      have e1 := stackDepth_pop d
        ("    pop QWORD [rbp - " ++ toString ((cg1.variables_.length + 1) * 8) ++ "]")
        (by simp [isPush, String.data_append, List.isPrefixOf])
        (by simp [isPop, String.data_append, List.isPrefixOf])
      simp only [stackDepth_append, b1, e1, Option.some_bind]
  | .ExprStmt expr, cg, cg', h => by
    simp only [CodeGenerator.generateStmt] at h
    split at h
    · exact absurd h (by simp)
    · rename_i cg1 h1
      simp only [Except.ok.injEq] at h
      subst h
      obtain ⟨o1, a1, b1⟩ := CodeGenerator.generateExpr_depth _ _ _ h1
      refine ⟨o1 ++ ["    pop rax"], by simp [a1], ?_⟩
      intro d
      have e1 := stackDepth_pop d "    pop rax" (by decide) (by decide)
      simp only [stackDepth_append, b1, e1, Option.some_bind]
  | .BlockStmt statements, cg, cg', h => by
    simp only [CodeGenerator.generateStmt] at h
    exact CodeGenerator.generateStmts_depth statements cg cg' h
  | .IfStmt condition thenBranch elseBranch, cg, cg', h => by
    simp only [CodeGenerator.generateStmt] at h
    split at h
    · exact absurd h (by simp)
    · rename_i cg1 h1
      split at h
      · exact absurd h (by simp)
      · rename_i cg2 h2
        split at h
        · exact absurd h (by simp)
        · rename_i cg3 h3
          simp only [Except.ok.injEq] at h
          subst h
          obtain ⟨o1, a1, b1⟩ := CodeGenerator.generateExpr_depth _ _ _ h1
          obtain ⟨o2, a2, b2⟩ := CodeGenerator.generateStmt_depth thenBranch _ _ h2
          obtain ⟨o3, a3, b3⟩ := CodeGenerator.generateElse_depth elseBranch _ _ h3
          refine ⟨o1 ++ (["    pop rax"] ++ (["    test rax, rax",
            "    jz " ++ labelText cg.labelCounter] ++ (o2 ++
            (["    jmp " ++ labelText (cg.labelCounter + 1), labelText cg.labelCounter ++ ":"] ++
            (o3 ++ [labelText (cg.labelCounter + 1) ++ ":"]))))), ?_, ?_⟩
          · simp [a3, a2, a1]
          · intro d
            have e1 := stackDepth_pop d "    pop rax" (by decide) (by decide)
            have e2 := stackDepth_plain d
              ["    test rax, rax", "    jz " ++ labelText cg.labelCounter]
              (by simp [isPush_jump, show isPush "    test rax, rax" = false from by decide,
                show isPop "    test rax, rax" = false from by decide])
            have e3 := stackDepth_plain d
              ["    jmp " ++ labelText (cg.labelCounter + 1), labelText cg.labelCounter ++ ":"]
              (by simp [isPush_jump, isPush_label])
            have e4 := stackDepth_plain d [labelText (cg.labelCounter + 1) ++ ":"]
              (by simp [isPush_label])
            simp only [stackDepth_append, b1, b2, b3, e1, e2, e3, e4, Option.some_bind]
  | .WhileStmt condition body, cg, cg', h => by
    simp only [CodeGenerator.generateStmt] at h
    split at h
    · exact absurd h (by simp)
    · rename_i cg1 h1
      split at h
      · exact absurd h (by simp)
      · rename_i cg2 h2
        simp only [Except.ok.injEq] at h
        subst h
        obtain ⟨o1, a1, b1⟩ := CodeGenerator.generateExpr_depth _ _ _ h1
        obtain ⟨o2, a2, b2⟩ := CodeGenerator.generateStmt_depth body _ _ h2
        refine ⟨[labelText cg.labelCounter ++ ":"] ++ (o1 ++ (["    pop rax"] ++
          (["    test rax, rax", "    jz " ++ labelText (cg.labelCounter + 1)] ++ (o2 ++
          ["    jmp " ++ labelText cg.labelCounter, labelText (cg.labelCounter + 1) ++ ":"])))),
          ?_, ?_⟩
        · simp [a2, a1]
        · intro d
          have e0 := stackDepth_plain d [labelText cg.labelCounter ++ ":"]
            (by simp [isPush_label])
          have e1 := stackDepth_pop d "    pop rax" (by decide) (by decide)
          have e2 := stackDepth_plain d
            ["    test rax, rax", "    jz " ++ labelText (cg.labelCounter + 1)]
            (by simp [isPush_jump, show isPush "    test rax, rax" = false from by decide,
              show isPop "    test rax, rax" = false from by decide])
          have e3 := stackDepth_plain d
            ["    jmp " ++ labelText cg.labelCounter, labelText (cg.labelCounter + 1) ++ ":"]
            (by simp [isPush_jump, isPush_label])
          simp only [stackDepth_append, b1, b2, e0, e1, e2, e3, Option.some_bind]
theorem CodeGenerator.generateStmts_depth : ∀ (ss : List Stmt) (cg cg' : CodeGenerator),
    CodeGenerator.generateStmts ss cg = .ok cg' →
    ∃ out, cg'.assembly = cg.assembly ++ out ∧ ∀ d, stackDepth d out = some d
  | [], cg, cg', h => by
    simp only [CodeGenerator.generateStmts, Except.ok.injEq] at h
    subst h
    exact ⟨[], by simp, fun _ => rfl⟩
  | s :: rest, cg, cg', h => by
    simp only [CodeGenerator.generateStmts] at h
    split at h
    · exact absurd h (by simp)
    · rename_i cg1 h1
      obtain ⟨o1, a1, b1⟩ := CodeGenerator.generateStmt_depth s _ _ h1
      obtain ⟨o2, a2, b2⟩ := CodeGenerator.generateStmts_depth rest _ _ h
      exact ⟨o1 ++ o2, by simp [a2, a1],
        fun d => by simp only [stackDepth_append, b1, b2, Option.some_bind]⟩
theorem CodeGenerator.generateElse_depth : ∀ (e : Option Stmt) (cg cg' : CodeGenerator),
    CodeGenerator.generateElse e cg = .ok cg' →
    ∃ out, cg'.assembly = cg.assembly ++ out ∧ ∀ d, stackDepth d out = some d
  | none, cg, cg', h => by
    simp only [CodeGenerator.generateElse, Except.ok.injEq] at h
    subst h
    exact ⟨[], by simp, fun _ => rfl⟩
  | some s, cg, cg', h => by
    simp only [CodeGenerator.generateElse] at h
    exact CodeGenerator.generateStmt_depth s cg cg' h
end

/-! ## No underflow of the evaluation stack (C22) -/

/-- C22: whenever generation of a statement succeeds, in every prefix of the
lines it appended the `pop` lines are at most as many as the `push` lines;
whenever generation of an expression succeeds, the same holds of the lines it
appended, and in all of them the `push` lines are exactly one more than the
`pop` lines. -/
theorem no_stack_underflow :
    (∀ (s : Stmt) (cg cg' : CodeGenerator), CodeGenerator.generateStmt s cg = .ok cg' →
      ∃ out, cg'.assembly = cg.assembly ++ out ∧
        ∀ k, (out.take k).countP isPop ≤ (out.take k).countP isPush) ∧
    (∀ (e : Expr) (cg cg' : CodeGenerator), CodeGenerator.generateExpr e cg = .ok cg' →
      ∃ out, cg'.assembly = cg.assembly ++ out ∧
        (∀ k, (out.take k).countP isPop ≤ (out.take k).countP isPush) ∧
        out.countP isPush = out.countP isPop + 1) := by
  constructor
  · intro s cg cg' h
    obtain ⟨out, a, b⟩ := CodeGenerator.generateStmt_depth s cg cg' h
    obtain ⟨c1, -⟩ := stackDepth_prefix 0 0 out (b 0)
    exact ⟨out, a, fun k => by simpa using c1 k⟩
  · intro e cg cg' h
    obtain ⟨out, a, b⟩ := CodeGenerator.generateExpr_depth e cg cg' h
    obtain ⟨c1, c2⟩ := stackDepth_prefix 0 1 out (b 0)
    exact ⟨out, a, fun k => by simpa using c1 k, by omega⟩

/-- C22 on the statement `if (1 < x) x else let y = 3;` and on the expression
`1 < x`, generated with `x` bound to slot 1: no prefix of the eighteen lines of
the statement, nor of the eight lines of the expression, holds more `pop` than
`push` lines. -/
theorem no_stack_underflow_witness :
    (∃ out, ["    push 1", "    push QWORD [rbp - 8]", "    pop rbx", "    pop rax",
        "    cmp rax, rbx", "    setl al", "    movzx rax, al", "    push rax", "    pop rax",
        "    test rax, rax", "    jz L0", "    push QWORD [rbp - 8]", "    pop rax",
        "    jmp L1", "L0:", "    push 3", "    pop QWORD [rbp - 16]", "L1:"] = [] ++ out ∧
      ∀ k, (out.take k).countP isPop ≤ (out.take k).countP isPush) ∧
    (∃ out, ["    push 1", "    push QWORD [rbp - 8]", "    pop rbx", "    pop rax",
        "    cmp rax, rbx", "    setl al", "    movzx rax, al", "    push rax"] = [] ++ out ∧
      (∀ k, (out.take k).countP isPop ≤ (out.take k).countP isPush) ∧
      out.countP isPush = out.countP isPop + 1) :=
  ⟨no_stack_underflow.1
      (.IfStmt (.BinaryExpr .LESS (.NumberExpr 1) (.IdentifierExpr "x"))
        (.ExprStmt (.IdentifierExpr "x")) (some (.LetStmt "y" (.NumberExpr 3))))
      ⟨[], [("x", 1)], 0⟩
      ⟨["    push 1", "    push QWORD [rbp - 8]", "    pop rbx", "    pop rax",
        "    cmp rax, rbx", "    setl al", "    movzx rax, al", "    push rax", "    pop rax",
        "    test rax, rax", "    jz L0", "    push QWORD [rbp - 8]", "    pop rax",
        "    jmp L1", "L0:", "    push 3", "    pop QWORD [rbp - 16]", "L1:"],
        [("x", 1), ("y", 2)], 2⟩ (by decide),
    no_stack_underflow.2 (.BinaryExpr .LESS (.NumberExpr 1) (.IdentifierExpr "x"))
      ⟨[], [("x", 1)], 0⟩
      ⟨["    push 1", "    push QWORD [rbp - 8]", "    pop rbx", "    pop rax",
        "    cmp rax, rbx", "    setl al", "    movzx rax, al", "    push rax"],
        [("x", 1)], 0⟩ (by decide)⟩

end MiniCompiler
